import Mathlib

/-!
Verification of the exit-normalization pass (`torch/csrc/jit/script/exit_transforms.cpp`)
and the SSA-construction pipeline (`torch/csrc/jit/script/convert_to_ssa.cpp`,
`torch/csrc/jit/passes/break_transform.cpp`, `torch/csrc/jit/script/mini_environment.h`)
against their natural-language specification.

The embedding is shallow: the mutable pointer-based IR is modelled as a purely functional
tree of blocks and nodes, values are identified by allocation ids (pointer identity in the
C++ becomes id equality), and the graph-mutating recursion of each pass becomes a
state-passing function.  Fatal internal assertions and out-of-fuel recursion are modelled
with an error monad; every recursive pass takes a fuel argument and consumes one unit of
fuel per call, so all definitions are total and executable.
-/

namespace ExitT
/-- IR value types.  `bool` and `int` are the two types the passes treat specially; all
other types of the host IR are collapsed into an indexed family `tO`. -/
inductive Ty where
  | bool
  | int
  | tO (n : Nat)
  deriving DecidableEq, Repr

/-- An IR value: pointer identity in the C++ becomes the allocation id `vid`; the value's
static type is carried alongside (`Value::type()`). -/
structure Value where
  vid : Nat
  ty : Ty
  deriving DecidableEq, Repr

/-- The two exit-operation kinds of the pass: `prim::ReturnStmt` and
`prim::LoopContinuation`. -/
inductive EKind where
  | ret
  | loopCont
  deriving DecidableEq, Repr

/-- A block: input value list, ordered operation list, output value list (the inputs of
the block's return node). -/
structure Blk (α : Type) where
  ins : List Value
  nodes : List α
  outs : List Value

/-- IR operations relevant to the exit-transform stage of the pipeline.  At this stage the
only block-carrying node kinds are `prim::If`, `prim::Loop` and `prim::Function`, exactly
the kinds the pass recurses into. -/
inductive ENode : Type where
  | exitN (k : EKind) (ins : List Value)
  | ite (cond : Value) (outs : List Value) (thn els : Blk ENode)
  | loopN (mt c : Value) (carried : List Value) (outs : List Value) (body : Blk ENode)
  | fnN (outs : List Value) (body : Blk ENode)
  | constB (b : Bool) (out : Value)
  | uninitN (out : Value)
  | other (ins outs : List Value)

abbrev EBlock := Blk ENode

/-- Fatal/abnormal outcomes: out of fuel, the landing `TORCH_INTERNAL_ASSERT` in
`transformExits`, a failed `unifyTypes` dereference in `addIfOutputs`, and an
out-of-bounds `.at()` access. -/
inductive Err where
  | fuel
  | landing
  | unify
  | arity
  deriving DecidableEq, Repr

/-- Pass-local mutable state: the fresh-id allocator and the `unit_values_` cache of
uninitialized placeholder values (one per type, `getUnitValue`). -/
structure St where
  fresh : Nat
  units : List (Ty × Value)
  deriving DecidableEq, Repr

/-- The transformer monad: state plus fatal errors. -/
def M (α : Type) : Type := St → Except Err (α × St)

instance : Monad M where
  pure a := fun s => .ok (a, s)
  bind x f := fun s => match x s with
    | .ok (a, s1) => f a s1
    | .error e => .error e

def throwM {α : Type} (e : Err) : M α := fun _ => .error e

/-- Allocate a fresh value of the given type (a `Value*` created by the graph). -/
def freshVal (t : Ty) : M Value := fun s => .ok (⟨s.fresh, t⟩, ⟨s.fresh + 1, s.units⟩)

def findUnit (t : Ty) : List (Ty × Value) → Option Value
  | [] => none
  | (t2, v) :: rest => if t2 = t then some v else findUnit t rest

/-- Model of `ExitTransformer::getUnitValue`: one cached `prim::Uninitialized` value per type,
created lazily.  The created nodes are materialized after `param_node` when the run
finishes (see `runTransformer`). -/
def getUnitValue (t : Ty) : M Value := fun s =>
  match findUnit t s.units with
  | some v => .ok (v, s)
  | none => .ok (⟨s.fresh, t⟩, ⟨s.fresh + 1, s.units ++ [(t, ⟨s.fresh, t⟩)]⟩)

/-- Model of `ExitTransformer::matchValuesWithUnitialized`: one placeholder per type in the
reference list. -/
def matchUninit : List Value → M (List Value)
  | [] => pure []
  | v :: vs => do
    let u ← getUnitValue v.ty
    let us ← matchUninit vs
    pure (u :: us)

/-- Allocate one fresh value per reference value, matching types (`Node::addOutput`
followed by `setType` in a loop). -/
def freshList : List Value → M (List Value)
  | [] => pure []
  | v :: vs => do
    let o ← freshVal v.ty
    let os ← freshList vs
    pure (o :: os)

/-- Modelled external interface: `unifyTypes` of the IR substrate (out of scope per spec
sections 1 and 6) is modelled as exact type match: equal types unify to themselves,
distinct types fail.  The pass only relies on unification succeeding on equal types and
being able to fail. -/
def unifyTypes (a b : Ty) : Option Ty := if a = b then some a else none

/-- The exit-status lattice. -/
inductive ExitStatus where
  | WILL
  | MIGHT
  | WONT
  deriving DecidableEq, Repr

/-- Model of `ExitPair`: the has-exited boolean value together with the exit payload values. -/
structure ExitPair where
  hasEx : Value
  vals : List Value
  deriving DecidableEq, Repr

/-- Per-run transformer context: the active exit kind and the cached true/false
constants. -/
structure Ctx where
  ek : EKind
  trueV : Value
  falseV : Value
  deriving DecidableEq, Repr

/-- Model of `ExitTransformer::getExitStatus`: identity comparison of `hasExited` against the
cached constants. -/
def statusOf (ctx : Ctx) (p : ExitPair) : ExitStatus :=
  if p.hasEx.vid = ctx.trueV.vid then .WILL
  else if p.hasEx.vid = ctx.falseV.vid then .WONT
  else .MIGHT

/-- The owner kind of a block, as needed by `setTargetBlock` and
`isGraphOrClosureBlock`: graph top level or `prim::Function` body, loop body, or `prim::If`
branch. -/
inductive OwnerK where
  | topOrFn
  | loopB
  | ifB
  deriving DecidableEq, Repr

/-- Model of `ExitTransformer::setTargetBlock`: a block is the destination of the active exit kind
iff it is a loop body (for `prim::LoopContinuation`) or a graph/closure block (for
`prim::ReturnStmt`). -/
def isTarget (ek : EKind) (ok : OwnerK) : Bool :=
  match ek, ok with
  | .loopCont, .loopB => true
  | .ret, .topOrFn => true
  | _, _ => false

/-- The output values a node defines (`Node::outputs()`). -/
def nodeOuts : ENode → List Value
  | .exitN _ _ => []
  | .ite _ outs _ _ => outs
  | .loopN _ _ _ outs _ => outs
  | .fnN outs _ => outs
  | .constB _ o => [o]
  | .uninitN o => [o]
  | .other _ outs => outs

def replOut (oldId : Nat) (u : Value) (vs : List Value) : List Value :=
  vs.map fun v => if v.vid = oldId then u else v

/-- Model of `ExitTransformer::destroyNodeAfterExit` restricted to the one place a destroyed
node's output can still be used (the enclosing block's output list; every other use site
is itself being destroyed): replace such uses with the cached placeholder of the output's
type. -/
def destroyOuts : List Value → List Value → M (List Value)
  | [], outs => pure outs
  | o :: os, outs => do
    let outs1 ←
      if outs.any fun v => v.vid = o.vid then do
        let u ← getUnitValue o.ty
        pure (replOut o.vid u outs)
      else pure outs
    destroyOuts os outs1

def deleteRestRev : List ENode → List Value → M (List Value)
  | [], outs => pure outs
  | n :: ns, outs => do
    let outs1 ← destroyOuts (nodeOuts n) outs
    deleteRestRev ns outs1

/-- Model of `ExitTransformer::deleteAfterExitNodes`: destroy the remaining nodes of the block in
reverse order, rewiring block outputs that referenced them to placeholders. -/
def deleteRest (ns : List ENode) (outs : List Value) : M (List Value) :=
  deleteRestRev ns.reverse outs

def zipUnifyOuts : List Value → List Value → M (List Value)
  | [], _ => pure []
  | _ :: _, [] => throwM .arity
  | t :: ts, fo :: fs => do
    match unifyTypes t.ty fo.ty with
    | none => throwM .unify
    | some u => do
      let v ← freshVal u
      let vs ← zipUnifyOuts ts fs
      pure (v :: vs)

/-- Model of `addIfOutputs`: register the given values as extra outputs of the two branches and
add one matching (type-unified) fresh output per pair to the `prim::If` node.  Returns the
extended branches, the extended node output list, and the freshly added outputs. -/
def addIfOutputs (thn els : EBlock) (outs : List Value) (ts fs : List Value) :
    M (EBlock × EBlock × List Value × List Value) := do
  let nvs ← zipUnifyOuts ts fs
  pure (⟨thn.ins, thn.nodes, thn.outs ++ ts⟩, ⟨els.ins, els.nodes, els.outs ++ fs⟩,
    outs ++ nvs, nvs)

/-- The trailing loop of `transformLoop`: per exit payload value, the loop node gains a
placeholder-initialized input and a matching output, and the body gains a matching
input. -/
def loopExtras : List Value → M (List Value × List Value × List Value)
  | [] => pure ([], [], [])
  | v :: vs => do
    let u ← getUnitValue v.ty
    let o ← freshVal v.ty
    let i ← freshVal v.ty
    let (us, os, bs) ← loopExtras vs
    pure (u :: us, o :: os, i :: bs)

/-- The backfill step of the merge rule: a branch that statically cannot exit gets the
false constant as `hasExited` and placeholders matching the other branch's exit values. -/
def backfill (ctx : Ctx) (p1 p2 : ExitPair) : M (ExitPair × ExitPair) :=
  if statusOf ctx p1 = .WONT then do
    let vs ← matchUninit p2.vals
    pure ((⟨ctx.falseV, vs⟩ : ExitPair), p2)
  else if statusOf ctx p2 = .WONT then do
    let vs ← matchUninit p1.vals
    pure (p1, (⟨ctx.falseV, vs⟩ : ExitPair))
  else pure (p1, p2)

/-- The conditional merge rule (the tail of `ExitTransformer::transformIf`, after both
branches have been transformed; spec section 4.2.1): if both branches are WONT nothing is
added; a single WONT side is backfilled with the false constant and placeholders; then
the exit values (and, unless both sides are WILL, a merged has-exited boolean) are added
as paired outputs of the conditional. -/
def mergeIf (ctx : Ctx) (cond : Value) (outs : List Value) (thn1 els1 : EBlock)
    (p1 p2 : ExitPair) : M (ENode × ExitPair) :=
  if statusOf ctx p1 = .WONT ∧ statusOf ctx p2 = .WONT then
    pure (.ite cond outs thn1 els1, ⟨ctx.falseV, []⟩)
  else do
    let (q1, q2) ← backfill ctx p1 p2
    if statusOf ctx p1 = .WILL ∧ statusOf ctx p2 = .WILL then do
      let (thn2, els2, outs2, nvs) ← addIfOutputs thn1 els1 outs q1.vals q2.vals
      pure (.ite cond outs2 thn2 els2, ⟨ctx.trueV, nvs⟩)
    else do
      let (thn2, els2, outs2, nvb) ← addIfOutputs thn1 els1 outs [q1.hasEx] [q2.hasEx]
      let hasEx := nvb.headD ctx.falseV
      let (thn3, els3, outs3, nvs) ← addIfOutputs thn2 els2 outs2 q1.vals q2.vals
      pure (.ite cond outs3 thn3 els3, ⟨hasEx, nvs⟩)

/-- The loop exit propagation (the tail of `ExitTransformer::transformLoop` for a body
that is not WONT; spec section 4.2.2): rewrite the continuation condition to
`if hasExited then false else original_next_condition` (installed as body output 0), and
carry the has-exited flag (initialized to the false constant) plus the exit payload
(inputs initialized to type-matched placeholders) through new loop inputs/outputs. -/
def loopPropagate (ctx : Ctx) (mt c : Value) (carried outs : List Value) (body1 : EBlock)
    (p : ExitPair) : M (ENode × ExitPair) :=
  match body1.outs with
  | [] => throwM .arity
  | c0 :: restOuts => do
    let newCond ← freshVal .bool
    let guardIf : ENode := .ite p.hasEx [newCond] ⟨[], [], [ctx.falseV]⟩ ⟨[], [], [c0]⟩
    let bIn ← freshVal .bool
    let hasExOut ← freshVal .bool
    let (units, nouts, nins) ← loopExtras p.vals
    pure (.loopN mt c (carried ++ ctx.falseV :: units) (outs ++ hasExOut :: nouts)
        ⟨body1.ins ++ bIn :: nins, body1.nodes ++ [guardIf],
          newCond :: restOuts ++ p.hasEx :: p.vals⟩,
      ⟨hasExOut, nouts⟩)

mutual

/-- Model of `ExitTransformer::transformExits`: scan the block, and if the block is the active
destination, land the exit there (asserting the final status is WILL) and reset the
reported pair to WONT. -/
def transformExits : Nat → Ctx → OwnerK → EBlock → M (EBlock × ExitPair)
  | 0, _, _, _ => throwM .fuel
  | f + 1, ctx, ok, b => do
    let (ns1, outs1, p) ← scanNodes f ctx ⟨ctx.falseV, []⟩ b.nodes b.outs
    if isTarget ctx.ek ok then
      if statusOf ctx p = .WILL then
        pure (⟨b.ins, ns1, outs1 ++ p.vals⟩, ⟨ctx.falseV, []⟩)
      else throwM .landing
    else
      pure (⟨b.ins, ns1, outs1⟩, p)

/-- The linear scan inside `ExitTransformer::transformExits`: process each node, then act
on the running status (WILL: destroy the remainder; MIGHT: guard the remainder; WONT:
continue). -/
def scanNodes : Nat → Ctx → ExitPair → List ENode → List Value →
    M (List ENode × List Value × ExitPair)
  | 0, _, _, _, _ => throwM .fuel
  | _ + 1, _, cur, [], outs => pure ([], outs, cur)
  | f + 1, ctx, cur, n :: rest, outs => do
    let (kept, p) ← processNode f ctx cur n
    match statusOf ctx p with
    | .WILL => do
      let outs1 ← deleteRest rest outs
      pure (kept, outs1, p)
    | .MIGHT =>
      match rest with
      | [] => pure (kept, outs, p)
      | _ :: _ => do
        let (gn, outs1, p1) ← guardNodes f ctx p rest outs
        pure (kept ++ [gn], outs1, p1)
    | .WONT => do
      let (ns1, outs1, p1) ← scanNodes f ctx p rest outs
      pure (kept ++ ns1, outs1, p1)

/-- The per-node dispatch of the scan (the `switch` over the node kind). -/
def processNode : Nat → Ctx → ExitPair → ENode → M (List ENode × ExitPair)
  | 0, _, _, _ => throwM .fuel
  | f + 1, ctx, cur, n =>
    match n with
    | .exitN k ins =>
      if k = ctx.ek then pure ([], ⟨ctx.trueV, ins⟩) else pure ([.exitN k ins], cur)
    | .ite c outs thn els => do
      let (n1, p) ← transformIfOn f ctx c outs thn els
      pure ([n1], p)
    | .loopN mt c carried outs body => do
      let (n1, p) ← transformLoopOn f ctx mt c carried outs body
      pure ([n1], p)
    | .fnN outs body => do
      let (b1, p) ← transformExits f ctx .topOrFn body
      pure ([.fnN outs b1], p)
    | n2 => pure ([n2], cur)

/-- Model of `ExitTransformer::guardBlockNodes`: wrap the remaining nodes in a fresh conditional on
`hasExited`; the exited branch holds placeholders for the block outputs plus a fresh exit
node carrying the pair's exit values, the other branch receives the moved nodes and the
original outputs; the conditional's fresh outputs replace the block's outputs; then the
normalization recurses on the fresh conditional. -/
def guardNodes : Nat → Ctx → ExitPair → List ENode → List Value →
    M (ENode × List Value × ExitPair)
  | 0, _, _, _, _ => throwM .fuel
  | f + 1, ctx, p, rest, outs => do
    let phs ← matchUninit outs
    let fresh2 ← freshList outs
    let thnB : EBlock := ⟨[], [.exitN ctx.ek p.vals], phs⟩
    let elsB : EBlock := ⟨[], rest, outs⟩
    let (n1, p1) ← transformIfOn f ctx p.hasEx fresh2 thnB elsB
    pure (n1, fresh2, p1)

/-- Model of `ExitTransformer::transformIf`: transform both branches, then apply the conditional
merge rule (spec section 4.2.1, `mergeIf`). -/
def transformIfOn : Nat → Ctx → Value → List Value → EBlock → EBlock → M (ENode × ExitPair)
  | 0, _, _, _, _, _ => throwM .fuel
  | f + 1, ctx, cond, outs, thn, els => do
    let (thn1, p1) ← transformExits f ctx .ifB thn
    let (els1, p2) ← transformExits f ctx .ifB els
    mergeIf ctx cond outs thn1 els1 p1 p2

/-- Model of `ExitTransformer::transformLoop`: transform the body; when the body can exit, splice
in the loop exit propagation (spec section 4.2.2, `loopPropagate`). -/
def transformLoopOn : Nat → Ctx → Value → Value → List Value → List Value → EBlock →
    M (ENode × ExitPair)
  | 0, _, _, _, _, _, _ => throwM .fuel
  | f + 1, ctx, mt, c, carried, outs, body => do
    let (body1, p) ← transformExits f ctx .loopB body
    if statusOf ctx p = .WONT then
      pure (.loopN mt c carried outs body1, p)
    else
      loopPropagate ctx mt c carried outs body1 p

end

mutual

/-- Model of `convertLoopOutputsToContinuations` on a node: recurse into all nested blocks. -/
def convLoopN : ENode → ENode
  | .ite c outs thn els => .ite c outs (convLoopB false thn) (convLoopB false els)
  | .loopN mt c car outs body => .loopN mt c car outs (convLoopB true body)
  | .fnN outs body => .fnN outs (convLoopB false body)
  | n => n

def convLoopL : List ENode → List ENode
  | [] => []
  | n :: ns => convLoopN n :: convLoopL ns

/-- Model of `convertLoopOutputsToContinuations`: convert every loop body's output list into a
trailing `prim::LoopContinuation` node and erase the outputs. -/
def convLoopB (isLoopBody : Bool) (b : Blk ENode) : Blk ENode :=
  let ns1 := convLoopL b.nodes
  if isLoopBody then ⟨b.ins, ns1 ++ [.exitN .loopCont b.outs], []⟩ else ⟨b.ins, ns1, b.outs⟩

end

mutual

/-- Model of `convertReturnOutputsToReturnStmts` on a node: recurse into all nested blocks. -/
def convRetN : ENode → ENode
  | .ite c outs thn els => .ite c outs (convRetB false thn) (convRetB false els)
  | .loopN mt c car outs body => .loopN mt c car outs (convRetB false body)
  | .fnN outs body => .fnN outs (convRetB true body)
  | n => n

def convRetL : List ENode → List ENode
  | [] => []
  | n :: ns => convRetN n :: convRetL ns

/-- Model of `convertReturnOutputsToReturnStmts`: convert every graph/closure block's output list
into a trailing `prim::ReturnStmt` node and erase the outputs. -/
def convRetB (isGraphOrClosure : Bool) (b : Blk ENode) : Blk ENode :=
  let ns1 := convRetL b.nodes
  if isGraphOrClosure then ⟨b.ins, ns1 ++ [.exitN .ret b.outs], []⟩ else ⟨b.ins, ns1, b.outs⟩

end

def resetUnits : M Unit := fun s => .ok ((), ⟨s.fresh, []⟩)

def takeUnits : M (List (Ty × Value)) := fun s => .ok (s.units, ⟨s.fresh, []⟩)

/-- One `ExitTransformer` instance and its `run`: insert the cached constants at the top
of the graph, convert the destination blocks' outputs to exit nodes of the active kind,
transform, and materialize the lazily created placeholder nodes after the param node. -/
def runTransformer (fuel : Nat) (ek : EKind) (g : EBlock) : M EBlock := do
  let tv ← freshVal .bool
  let fv ← freshVal .bool
  resetUnits
  let ctx : Ctx := ⟨ek, tv, fv⟩
  let g1 : EBlock := ⟨g.ins, .constB true tv :: .constB false fv :: g.nodes, g.outs⟩
  let g2 := if ek = .loopCont then convLoopB false g1 else convRetB true g1
  let (g3, _) ← transformExits fuel ctx .topOrFn g2
  let us ← takeUnits
  pure ⟨g3.ins, us.reverse.map (fun q => .uninitN q.2) ++ g3.nodes, g3.outs⟩

def maxIdVs (vs : List Value) : Nat := vs.foldr (fun v a => max v.vid a) 0

mutual

def maxIdN : ENode → Nat
  | .exitN _ ins => maxIdVs ins
  | .ite c outs thn els =>
    max (max c.vid (maxIdVs outs))
      (max (max (maxIdVs thn.ins) (max (maxIdL thn.nodes) (maxIdVs thn.outs)))
        (max (maxIdVs els.ins) (max (maxIdL els.nodes) (maxIdVs els.outs))))
  | .loopN mt c car outs body =>
    max (max (max mt.vid c.vid) (max (maxIdVs car) (maxIdVs outs)))
      (max (maxIdVs body.ins) (max (maxIdL body.nodes) (maxIdVs body.outs)))
  | .fnN outs body =>
    max (maxIdVs outs) (max (maxIdVs body.ins) (max (maxIdL body.nodes) (maxIdVs body.outs)))
  | .constB _ o => o.vid
  | .uninitN o => o.vid
  | .other ins outs => max (maxIdVs ins) (maxIdVs outs)

def maxIdL : List ENode → Nat
  | [] => 0
  | n :: ns => max (maxIdN n) (maxIdL ns)

end

def maxIdB (b : EBlock) : Nat := max (maxIdVs b.ins) (max (maxIdL b.nodes) (maxIdVs b.outs))

/-- Model of `TransformExits`: run one transformer for `prim::LoopContinuation`, then a second one
for `prim::ReturnStmt`. -/
def TransformExitsTop (fuel : Nat) (g : EBlock) : Except Err EBlock :=
  match (do
      let g1 ← runTransformer fuel .loopCont g
      runTransformer fuel .ret g1 : M EBlock) ⟨maxIdB g + 1, []⟩ with
  | .ok (g2, _) => .ok g2
  | .error e => .error e

mutual

/-- Number of exit operations of kind `k` in a node, nested blocks included. -/
def countN (k : EKind) : ENode → Nat
  | .exitN k2 _ => if k2 = k then 1 else 0
  | .ite _ _ thn els => countL k thn.nodes + countL k els.nodes
  | .loopN _ _ _ _ body => countL k body.nodes
  | .fnN _ body => countL k body.nodes
  | _ => 0

def countL (k : EKind) : List ENode → Nat
  | [] => 0
  | n :: ns => countN k n + countL k ns

end

/-- Number of exit operations of kind `k` anywhere in a block. -/
def countB (k : EKind) (b : EBlock) : Nat := countL k b.nodes

/-- Whether the last node of a node list is an exit operation of kind `k`.  The
output-conversion step establishes this for every destination block. -/
def endsEx (k : EKind) : List ENode → Bool
  | [] => false
  | [n] =>
    match n with
    | .exitN k2 _ => decide (k2 = k)
    | _ => false
  | _ :: n :: ns => endsEx k (n :: ns)

mutual

/-- Well-converted for kind `ek`: every destination block of `ek` (loop bodies for
`loopCont`, closure blocks for `ret`) ends in an exit node of kind `ek`,
recursively. -/
def wcN (ek : EKind) : ENode → Bool
  | .ite _ _ thn els => wcL ek thn.nodes && wcL ek els.nodes
  | .loopN _ _ _ _ body =>
    (if ek = .loopCont then endsEx ek body.nodes else true) && wcL ek body.nodes
  | .fnN _ body =>
    (if ek = .ret then endsEx ek body.nodes else true) && wcL ek body.nodes
  | _ => true

def wcL (ek : EKind) : List ENode → Bool
  | [] => true
  | n :: ns => wcN ek n && wcL ek ns

end

/-- Well-converted block for a given owner: if the block is a destination it ends in a
matching exit node, and all nested destination blocks do too. -/
def wcB (ek : EKind) (ok : OwnerK) (b : EBlock) : Bool :=
  (!(isTarget ek ok) || endsEx ek b.nodes) && wcL ek b.nodes

/-- Whether a transform result is the destination-landing internal assertion failure. -/
def isLanding : Except Err EBlock → Bool
  | .error .landing => true
  | _ => false

/-- Whether a transform result is a success. -/
def isOkE : Except Err EBlock → Bool
  | .ok _ => true
  | .error _ => false

/-- A concrete graph with a return between two ordinary operations. -/
def c1G : EBlock :=
  ⟨[], [.other [] [⟨100, .int⟩], .exitN .ret [⟨100, .int⟩], .other [] [⟨101, .int⟩]],
   [⟨100, .int⟩]⟩

/-- Final status of a scan result. -/
def scanStatus (ctx : Ctx) :
    Except Err ((List ENode × List Value × ExitPair) × St) → Option ExitStatus
  | .ok ((_, _, p), _) => some (statusOf ctx p)
  | .error _ => none

/-- Status of a per-node dispatch result. -/
def nodeStatus (ctx : Ctx) :
    Except Err ((List ENode × ExitPair) × St) → Option ExitStatus
  | .ok ((_, p), _) => some (statusOf ctx p)
  | .error _ => none

def c2ctx : Ctx := ⟨.ret, ⟨0, .bool⟩, ⟨1, .bool⟩⟩

/-- A conditional that returns in one branch only: its status is MIGHT. -/
def c2if : ENode := .ite ⟨2, .bool⟩ [] ⟨[], [.exitN .ret []], []⟩ ⟨[], [], []⟩

/-- The MIGHT conditional followed by an unconditional return: the guarding step fires
with the return as the remaining operation. -/
def c2nodes : List ENode := [c2if, .exitN .ret []]

/-- The components of a conditional node. -/
def iteParts : ENode → Option (Value × List Value × EBlock × EBlock)
  | .ite c o t e => some (c, o, t, e)
  | _ => none

def c3ctx : Ctx := ⟨.ret, ⟨0, .bool⟩, ⟨1, .bool⟩⟩

def c3p1 : ExitPair := ⟨⟨0, .bool⟩, [⟨5, .int⟩]⟩

def c3p2 : ExitPair := ⟨⟨0, .bool⟩, [⟨6, .int⟩]⟩

def c4ctx : Ctx := ⟨.ret, ⟨0, .bool⟩, ⟨1, .bool⟩⟩

/-- A loop body that unconditionally returns, with one ordinary output. -/
def c4body : EBlock := ⟨[], [.exitN .ret []], [⟨2, .bool⟩]⟩

def c5ctx : Ctx := ⟨.ret, ⟨0, .bool⟩, ⟨1, .bool⟩⟩

/-- A loop body that unconditionally returns, with one ordinary (int) output. -/
def c5body : EBlock := ⟨[], [.exitN .ret []], [⟨2, .int⟩]⟩

@[simp] theorem pure_run {α : Type} (a : α) (s : St) : (pure a : M α) s = .ok (a, s) := rfl

@[simp] theorem bind_run {α β : Type} (x : M α) (f : α → M β) (s : St) :
    (x >>= f) s = match x s with
      | .ok (a, s1) => f a s1
      | .error e => .error e := rfl

@[simp] theorem throwM_run {α : Type} (e : Err) (s : St) : (throwM e : M α) s = .error e := rfl

theorem convLoopB_true (b : Blk ENode) :
    convLoopB true b = ⟨b.ins, convLoopL b.nodes ++ [.exitN .loopCont b.outs], []⟩ := by
  simp [convLoopB]

theorem convLoopB_false (b : Blk ENode) :
    convLoopB false b = ⟨b.ins, convLoopL b.nodes, b.outs⟩ := by
  simp [convLoopB]

theorem convRetB_true (b : Blk ENode) :
    convRetB true b = ⟨b.ins, convRetL b.nodes ++ [.exitN .ret b.outs], []⟩ := by
  simp [convRetB]

theorem convRetB_false (b : Blk ENode) :
    convRetB false b = ⟨b.ins, convRetL b.nodes, b.outs⟩ := by
  simp [convRetB]

@[simp] theorem resetUnits_run (s : St) : resetUnits s = .ok ((), ⟨s.fresh, []⟩) := rfl

@[simp] theorem takeUnits_run (s : St) : takeUnits s = .ok (s.units, ⟨s.fresh, []⟩) := rfl

theorem countL_append (k : EKind) (a b : List ENode) :
    countL k (a ++ b) = countL k a + countL k b := by
  induction a with
  | nil => simp [countL]
  | cons n ns ih => simp [countL, ih]; omega

theorem getUnitValue_ok (t : Ty) (st : St) : ∃ a s1, getUnitValue t st = .ok (a, s1) := by
  unfold getUnitValue
  cases findUnit t st.units <;> simp

theorem freshVal_ok (t : Ty) (st : St) : ∃ a s1, freshVal t st = .ok (a, s1) := by
  unfold freshVal; simp

theorem matchUninit_ok (vs : List Value) (st : St) :
    ∃ a s1, matchUninit vs st = .ok (a, s1) := by
  induction vs generalizing st with
  | nil => simp [matchUninit]
  | cons v vs ih =>
    simp only [matchUninit, bind_run]
    obtain ⟨u, s2, hu⟩ := getUnitValue_ok v.ty st
    obtain ⟨us, s3, hus⟩ := ih s2
    rw [hu]
    dsimp only
    rw [hus]
    simp

theorem freshList_ok (vs : List Value) (st : St) :
    ∃ a s1, freshList vs st = .ok (a, s1) := by
  induction vs generalizing st with
  | nil => simp [freshList]
  | cons v vs ih =>
    simp only [freshList, bind_run, freshVal, pure_run]
    obtain ⟨os, s3, hos⟩ := ih ⟨st.fresh + 1, st.units⟩
    rw [hos]
    simp

theorem loopExtras_ok (vs : List Value) (st : St) :
    ∃ a s1, loopExtras vs st = .ok (a, s1) := by
  induction vs generalizing st with
  | nil => simp [loopExtras]
  | cons v vs ih =>
    simp only [loopExtras, bind_run, freshVal, pure_run]
    obtain ⟨u, s2, hu⟩ := getUnitValue_ok v.ty st
    obtain ⟨⟨us, os, bs⟩, s3, hx⟩ := ih ⟨s2.fresh + 1 + 1, s2.units⟩
    rw [hu]
    dsimp only
    rw [hx]
    simp

theorem destroyOuts_ok (os outs : List Value) (st : St) :
    ∃ a s1, destroyOuts os outs st = .ok (a, s1) := by
  induction os generalizing outs st with
  | nil => simp [destroyOuts]
  | cons o os ih =>
    simp only [destroyOuts, bind_run]
    by_cases h : outs.any fun v => v.vid = o.vid
    · simp only [h, if_true, bind_run]
      obtain ⟨u, s2, hu⟩ := getUnitValue_ok o.ty st
      rw [hu]
      simp only [pure_run]
      exact ih _ s2
    · simp only [h, if_false, pure_run]
      exact ih _ st

theorem deleteRestRev_ok (ns : List ENode) (outs : List Value) (st : St) :
    ∃ a s1, deleteRestRev ns outs st = .ok (a, s1) := by
  induction ns generalizing outs st with
  | nil => simp [deleteRestRev]
  | cons n ns ih =>
    simp only [deleteRestRev, bind_run]
    obtain ⟨a, s2, ha⟩ := destroyOuts_ok (nodeOuts n) outs st
    rw [ha]
    exact ih _ s2

theorem deleteRest_ok (ns : List ENode) (outs : List Value) (st : St) :
    ∃ a s1, deleteRest ns outs st = .ok (a, s1) := by
  unfold deleteRest
  exact deleteRestRev_ok _ _ _

theorem getUnitValue_mono {t : Ty} {st : St} {a : Value} {s1 : St}
    (h : getUnitValue t st = .ok (a, s1)) : st.fresh ≤ s1.fresh := by
  unfold getUnitValue at h
  cases hf : findUnit t st.units <;> rw [hf] at h <;>
    simp only [Except.ok.injEq, Prod.mk.injEq] at h
  · obtain ⟨_, rfl⟩ := h
    exact Nat.le_succ _
  · obtain ⟨_, rfl⟩ := h
    exact le_rfl

theorem freshVal_mono {t : Ty} {st : St} {a : Value} {s1 : St}
    (h : freshVal t st = .ok (a, s1)) : st.fresh ≤ s1.fresh := by
  unfold freshVal at h
  simp only [Except.ok.injEq, Prod.mk.injEq] at h
  obtain ⟨_, h2⟩ := h
  subst h2
  simp

theorem matchUninit_mono {vs : List Value} {st : St} {a : List Value} {s1 : St}
    (h : matchUninit vs st = .ok (a, s1)) : st.fresh ≤ s1.fresh := by
  induction vs generalizing st a with
  | nil =>
    simp only [matchUninit, pure_run, Except.ok.injEq, Prod.mk.injEq] at h
    obtain ⟨_, rfl⟩ := h
    exact le_rfl
  | cons v vs ih =>
    simp only [matchUninit, bind_run] at h
    cases hu : getUnitValue v.ty st with
    | error e => rw [hu] at h; exact Except.noConfusion h
    | ok au =>
      obtain ⟨u, s2⟩ := au
      rw [hu] at h
      dsimp only at h
      cases hm : matchUninit vs s2 with
      | error e => rw [hm] at h; exact Except.noConfusion h
      | ok am =>
        obtain ⟨us, s3⟩ := am
        rw [hm] at h
        simp only [pure_run, Except.ok.injEq, Prod.mk.injEq] at h
        obtain ⟨_, h2⟩ := h
        subst h2
        exact le_trans (getUnitValue_mono hu) (ih hm)

theorem freshList_mono {vs : List Value} {st : St} {a : List Value} {s1 : St}
    (h : freshList vs st = .ok (a, s1)) : st.fresh ≤ s1.fresh := by
  induction vs generalizing st a with
  | nil =>
    simp only [freshList, pure_run, Except.ok.injEq, Prod.mk.injEq] at h
    obtain ⟨_, rfl⟩ := h
    exact le_rfl
  | cons v vs ih =>
    simp only [freshList, bind_run, freshVal] at h
    cases hm : freshList vs ⟨st.fresh + 1, st.units⟩ with
    | error e => rw [hm] at h; exact Except.noConfusion h
    | ok am =>
      obtain ⟨os, s3⟩ := am
      rw [hm] at h
      simp only [pure_run, Except.ok.injEq, Prod.mk.injEq] at h
      obtain ⟨_, h2⟩ := h
      subst h2
      have := ih hm
      simp only at this
      omega

theorem loopExtras_mono {vs : List Value} {st : St}
    {a : List Value × List Value × List Value} {s1 : St}
    (h : loopExtras vs st = .ok (a, s1)) : st.fresh ≤ s1.fresh := by
  induction vs generalizing st a with
  | nil =>
    simp only [loopExtras, pure_run, Except.ok.injEq, Prod.mk.injEq] at h
    obtain ⟨_, rfl⟩ := h
    exact le_rfl
  | cons v vs ih =>
    simp only [loopExtras, bind_run, freshVal] at h
    cases hu : getUnitValue v.ty st with
    | error e => rw [hu] at h; exact Except.noConfusion h
    | ok au =>
      obtain ⟨u, s2⟩ := au
      rw [hu] at h
      dsimp only at h
      cases hm : loopExtras vs ⟨s2.fresh + 1 + 1, s2.units⟩ with
      | error e => rw [hm] at h; exact Except.noConfusion h
      | ok am =>
        obtain ⟨⟨us, os, bs⟩, s3⟩ := am
        rw [hm] at h
        simp only [pure_run, Except.ok.injEq, Prod.mk.injEq] at h
        obtain ⟨_, h2⟩ := h
        subst h2
        have h3 := ih hm
        have h4 := getUnitValue_mono hu
        simp only at h3
        omega

theorem zipUnifyOuts_mono {ts fs : List Value} {st : St} {a : List Value} {s1 : St}
    (h : zipUnifyOuts ts fs st = .ok (a, s1)) : st.fresh ≤ s1.fresh := by
  induction ts generalizing fs st a with
  | nil =>
    simp only [zipUnifyOuts, pure_run, Except.ok.injEq, Prod.mk.injEq] at h
    obtain ⟨_, rfl⟩ := h
    exact le_rfl
  | cons t ts ih =>
    cases fs with
    | nil =>
      simp only [zipUnifyOuts, throwM_run] at h
      exact Except.noConfusion h
    | cons fo fs =>
      simp only [zipUnifyOuts] at h
      cases hu : unifyTypes t.ty fo.ty with
      | none => rw [hu] at h; simp only [throwM_run] at h; exact Except.noConfusion h
      | some u =>
        rw [hu] at h
        simp only [bind_run, freshVal] at h
        cases hm : zipUnifyOuts ts fs ⟨st.fresh + 1, st.units⟩ with
        | error e => rw [hm] at h; exact Except.noConfusion h
        | ok am =>
          obtain ⟨vsr, s3⟩ := am
          rw [hm] at h
          simp only [pure_run, Except.ok.injEq, Prod.mk.injEq] at h
          obtain ⟨_, h2⟩ := h
          subst h2
          have := ih hm
          simp only at this
          omega

theorem destroyOuts_mono {os outs : List Value} {st : St} {a : List Value} {s1 : St}
    (h : destroyOuts os outs st = .ok (a, s1)) : st.fresh ≤ s1.fresh := by
  induction os generalizing outs st a with
  | nil =>
    simp only [destroyOuts, pure_run, Except.ok.injEq, Prod.mk.injEq] at h
    obtain ⟨_, rfl⟩ := h
    exact le_rfl
  | cons o os ih =>
    simp only [destroyOuts, bind_run] at h
    by_cases hc : outs.any fun v => v.vid = o.vid
    · simp only [hc, if_true, bind_run] at h
      cases hu : getUnitValue o.ty st with
      | error e => rw [hu] at h; exact Except.noConfusion h
      | ok au =>
        obtain ⟨u, s2⟩ := au
        rw [hu] at h
        simp only [pure_run] at h
        exact le_trans (getUnitValue_mono hu) (ih h)
    · simp only [hc, if_false, pure_run] at h
      exact ih h

theorem deleteRestRev_mono {ns : List ENode} {outs : List Value} {st : St}
    {a : List Value} {s1 : St}
    (h : deleteRestRev ns outs st = .ok (a, s1)) : st.fresh ≤ s1.fresh := by
  induction ns generalizing outs st a with
  | nil =>
    simp only [deleteRestRev, pure_run, Except.ok.injEq, Prod.mk.injEq] at h
    obtain ⟨_, rfl⟩ := h
    exact le_rfl
  | cons n ns ih =>
    simp only [deleteRestRev, bind_run] at h
    cases hd : destroyOuts (nodeOuts n) outs st with
    | error e => rw [hd] at h; exact Except.noConfusion h
    | ok ad =>
      obtain ⟨outs2, s2⟩ := ad
      rw [hd] at h
      exact le_trans (destroyOuts_mono hd) (ih h)

theorem deleteRest_mono {ns : List ENode} {outs : List Value} {st : St}
    {a : List Value} {s1 : St}
    (h : deleteRest ns outs st = .ok (a, s1)) : st.fresh ≤ s1.fresh := by
  unfold deleteRest at h
  exact deleteRestRev_mono h

/-- Shape of a successful `addIfOutputs` run. -/
theorem addIfOutputs_spec {thn els : EBlock} {outs ts fs : List Value} {st : St}
    {r : (EBlock × EBlock × List Value × List Value) × St}
    (h : addIfOutputs thn els outs ts fs st = .ok r) :
    ∃ nvs st1, zipUnifyOuts ts fs st = .ok (nvs, st1) ∧
      r = ((⟨thn.ins, thn.nodes, thn.outs ++ ts⟩, ⟨els.ins, els.nodes, els.outs ++ fs⟩,
            outs ++ nvs, nvs), st1) := by
  unfold addIfOutputs at h
  simp only [bind_run] at h
  cases hz : zipUnifyOuts ts fs st with
  | error e => rw [hz] at h; exact Except.noConfusion h
  | ok a =>
    obtain ⟨nvs, st1⟩ := a
    rw [hz] at h
    dsimp only at h
    simp only [pure_run] at h
    injection h with h
    exact ⟨nvs, st1, rfl, h.symm⟩

theorem statusOf_trueV (ctx : Ctx) (vs : List Value) :
    statusOf ctx ⟨ctx.trueV, vs⟩ = .WILL := by
  simp [statusOf]

theorem endsEx_cons {k : EKind} {a : ENode} {l : List ENode} (hl : l ≠ []) :
    endsEx k (a :: l) = endsEx k l := by
  cases l with
  | nil => exact absurd rfl hl
  | cons b bs => rfl

theorem endsEx_append_exit (k : EKind) (ns : List ENode) (outs : List Value) :
    endsEx k (ns ++ [.exitN k outs]) = true := by
  induction ns with
  | nil => simp [endsEx]
  | cons n ns ih =>
    rw [List.cons_append, endsEx_cons (by simp)]
    exact ih

theorem zipUnifyOuts_no_landing (ts fs : List Value) (st : St) :
    zipUnifyOuts ts fs st ≠ .error .landing := by
  induction ts generalizing fs st with
  | nil => simp [zipUnifyOuts]
  | cons t ts ih =>
    cases fs with
    | nil => simp [zipUnifyOuts, throwM]
    | cons fo fs =>
      simp only [zipUnifyOuts]
      cases hu : unifyTypes t.ty fo.ty with
      | none => simp [throwM]
      | some u =>
        simp only [bind_run, freshVal]
        cases hm : zipUnifyOuts ts fs ⟨st.fresh + 1, st.units⟩ with
        | error e =>
          intro hcon
          injection hcon with hcon
          subst hcon
          exact ih _ _ hm
        | ok am => simp

theorem addIfOutputs_no_landing (thn els : EBlock) (outs ts fs : List Value) (st : St) :
    addIfOutputs thn els outs ts fs st ≠ .error .landing := by
  unfold addIfOutputs
  simp only [bind_run]
  cases hz : zipUnifyOuts ts fs st with
  | error e =>
    intro hcon
    injection hcon with hcon
    subst hcon
    exact zipUnifyOuts_no_landing _ _ _ hz
  | ok a => simp

theorem isTarget_ifB (ek : EKind) : isTarget ek .ifB = false := by
  cases ek <;> rfl

/-- Combined facts about a successful run of the merge rule: state monotonicity, exact
preservation of the exit-operation counts of the two branches (the merge only adds
outputs, never nodes), and the both-WILL case yielding the cached true constant. -/
theorem backfill_spec {ctx : Ctx} {p1 p2 : ExitPair} {st : St}
    {res : ExitPair × ExitPair} {st2 : St}
    (h : backfill ctx p1 p2 st = .ok (res, st2)) :
    st.fresh ≤ st2.fresh ∧
    (statusOf ctx p1 = .WILL → statusOf ctx p2 = .WILL → res = (p1, p2)) := by
  unfold backfill at h
  by_cases h1 : statusOf ctx p1 = .WONT
  · rw [if_pos h1] at h
    simp only [bind_run] at h
    cases hm : matchUninit p2.vals st with
    | error e => rw [hm] at h; exact Except.noConfusion h
    | ok am =>
      obtain ⟨vs, st3⟩ := am
      rw [hm] at h
      simp only [pure_run, Except.ok.injEq, Prod.mk.injEq] at h
      obtain ⟨hr, hs⟩ := h
      subst hr; subst hs
      refine ⟨matchUninit_mono hm, ?_⟩
      intro hc _
      rw [h1] at hc
      exact ExitStatus.noConfusion hc
  · rw [if_neg h1] at h
    by_cases h2 : statusOf ctx p2 = .WONT
    · rw [if_pos h2] at h
      simp only [bind_run] at h
      cases hm : matchUninit p1.vals st with
      | error e => rw [hm] at h; exact Except.noConfusion h
      | ok am =>
        obtain ⟨vs, st3⟩ := am
        rw [hm] at h
        simp only [pure_run, Except.ok.injEq, Prod.mk.injEq] at h
        obtain ⟨hr, hs⟩ := h
        subst hr; subst hs
        refine ⟨matchUninit_mono hm, ?_⟩
        intro _ hc
        rw [h2] at hc
        exact ExitStatus.noConfusion hc
    · rw [if_neg h2] at h
      simp only [pure_run, Except.ok.injEq, Prod.mk.injEq] at h
      obtain ⟨hr, hs⟩ := h
      subst hr; subst hs
      exact ⟨le_rfl, fun _ _ => rfl⟩

theorem backfill_ok (ctx : Ctx) (p1 p2 : ExitPair) (st : St) :
    ∃ a s1, backfill ctx p1 p2 st = .ok (a, s1) := by
  unfold backfill
  by_cases h1 : statusOf ctx p1 = .WONT
  · rw [if_pos h1]
    simp only [bind_run]
    obtain ⟨a0, s0, hok⟩ := matchUninit_ok p2.vals st
    rw [hok]
    simp
  · rw [if_neg h1]
    by_cases h2 : statusOf ctx p2 = .WONT
    · rw [if_pos h2]
      simp only [bind_run]
      obtain ⟨a0, s0, hok⟩ := matchUninit_ok p1.vals st
      rw [hok]
      simp
    · rw [if_neg h2]
      simp

/-- Combined facts about a successful run of the merge rule: state monotonicity, exact
preservation of the exit-operation counts of the two branches (the merge only adds
outputs, never nodes), and the both-WILL case yielding the cached true constant. -/
theorem mergeIf_spec {ctx : Ctx} {cond : Value} {outs : List Value} {thn1 els1 : EBlock}
    {p1 p2 : ExitPair} {st : St} {n1 : ENode} {pr : ExitPair} {st1 : St}
    (h : mergeIf ctx cond outs thn1 els1 p1 p2 st = .ok ((n1, pr), st1)) :
    st.fresh ≤ st1.fresh ∧
    (∀ k, countN k n1 = countL k thn1.nodes + countL k els1.nodes) ∧
    (statusOf ctx p1 = .WILL → statusOf ctx p2 = .WILL → pr.hasEx = ctx.trueV) := by
  unfold mergeIf at h
  by_cases hw : statusOf ctx p1 = .WONT ∧ statusOf ctx p2 = .WONT
  · rw [if_pos hw] at h
    simp only [pure_run, Except.ok.injEq, Prod.mk.injEq] at h
    obtain ⟨⟨hn, hp⟩, hst⟩ := h
    subst hn; subst hp; subst hst
    refine ⟨le_rfl, fun k => by simp [countN], ?_⟩
    intro hc _
    rw [hw.1] at hc
    exact ExitStatus.noConfusion hc
  · rw [if_neg hw] at h
    simp only [bind_run] at h
    cases hq : backfill ctx p1 p2 st with
    | error e => rw [hq] at h; exact Except.noConfusion h
    | ok res0 =>
      rw [hq] at h
      obtain ⟨⟨q1, q2⟩, st2⟩ := res0
      obtain ⟨hqm, hqp⟩ := backfill_spec hq
      dsimp only at h
      by_cases hww : statusOf ctx p1 = .WILL ∧ statusOf ctx p2 = .WILL
      · rw [if_pos hww] at h
        simp only [bind_run] at h
        cases ha : addIfOutputs thn1 els1 outs q1.vals q2.vals st2 with
        | error e => rw [ha] at h; exact Except.noConfusion h
        | ok aa =>
          rw [ha] at h
          obtain ⟨⟨thn2, els2, outs2, nvs⟩, st3⟩ := aa
          obtain ⟨nvs0, st4, hz, heq⟩ := addIfOutputs_spec ha
          simp only [Prod.mk.injEq] at heq
          obtain ⟨⟨he1, he2, he3, he4⟩, he5⟩ := heq
          subst he1; subst he2; subst he3; subst he4; subst he5
          dsimp only at h
          simp only [pure_run, Except.ok.injEq, Prod.mk.injEq] at h
          obtain ⟨⟨hn, hp⟩, hst⟩ := h
          subst hn; subst hp; subst hst
          refine ⟨le_trans hqm (zipUnifyOuts_mono hz), fun k => by simp [countN], ?_⟩
          intro _ _
          rfl
      · rw [if_neg hww] at h
        simp only [bind_run] at h
        cases ha : addIfOutputs thn1 els1 outs [q1.hasEx] [q2.hasEx] st2 with
        | error e => rw [ha] at h; exact Except.noConfusion h
        | ok aa =>
          rw [ha] at h
          obtain ⟨⟨thn2, els2, outs2, nvb⟩, st3⟩ := aa
          obtain ⟨nvb0, st4, hz, heq⟩ := addIfOutputs_spec ha
          simp only [Prod.mk.injEq] at heq
          obtain ⟨⟨he1, he2, he3, he4⟩, he5⟩ := heq
          dsimp only at h
          cases ha2 : addIfOutputs thn2 els2 outs2 q1.vals q2.vals st3 with
          | error e => rw [ha2] at h; exact Except.noConfusion h
          | ok aa2 =>
            rw [ha2] at h
            obtain ⟨⟨thn3, els3, outs3, nvs⟩, st5⟩ := aa2
            obtain ⟨nvs0, st6, hz2, heq2⟩ := addIfOutputs_spec ha2
            simp only [Prod.mk.injEq] at heq2
            obtain ⟨⟨hf1, hf2, hf3, hf4⟩, hf5⟩ := heq2
            dsimp only at h
            simp only [pure_run, Except.ok.injEq, Prod.mk.injEq] at h
            obtain ⟨⟨hn, hp⟩, hst⟩ := h
            subst hn; subst hp; subst hst
            refine ⟨?_, ?_, ?_⟩
            · have a1 := zipUnifyOuts_mono hz
              have a2 := zipUnifyOuts_mono hz2
              have b1 : st3.fresh = st4.fresh := by rw [he5]
              have b2 : st5.fresh = st6.fresh := by rw [hf5]
              omega
            · intro k
              simp only [countN, hf1, he1, hf2, he2]
            · intro hc1 hc2
              exact absurd ⟨hc1, hc2⟩ hww

theorem mergeIf_no_landing (ctx : Ctx) (cond : Value) (outs : List Value)
    (thn1 els1 : EBlock) (p1 p2 : ExitPair) (st : St) :
    mergeIf ctx cond outs thn1 els1 p1 p2 st ≠ .error .landing := by
  unfold mergeIf
  by_cases hw : statusOf ctx p1 = .WONT ∧ statusOf ctx p2 = .WONT
  · rw [if_pos hw]; simp
  · rw [if_neg hw]
    simp only [bind_run]
    cases hq : backfill ctx p1 p2 st with
    | error e =>
      obtain ⟨a0, s0, hok⟩ := backfill_ok ctx p1 p2 st
      rw [hok] at hq
      exact Except.noConfusion hq
    | ok res0 =>
      obtain ⟨⟨q1, q2⟩, st2⟩ := res0
      dsimp only
      by_cases hww : statusOf ctx p1 = .WILL ∧ statusOf ctx p2 = .WILL
      · rw [if_pos hww]
        simp only [bind_run]
        cases ha : addIfOutputs thn1 els1 outs q1.vals q2.vals st2 with
        | error e =>
          intro hcon
          injection hcon with hcon
          subst hcon
          exact addIfOutputs_no_landing _ _ _ _ _ _ ha
        | ok aa =>
          obtain ⟨⟨thn2, els2, outs2, nvs⟩, st3⟩ := aa
          simp
      · rw [if_neg hww]
        simp only [bind_run]
        cases ha : addIfOutputs thn1 els1 outs [q1.hasEx] [q2.hasEx] st2 with
        | error e =>
          intro hcon
          injection hcon with hcon
          subst hcon
          exact addIfOutputs_no_landing _ _ _ _ _ _ ha
        | ok aa =>
          obtain ⟨⟨thn2, els2, outs2, nvb⟩, st3⟩ := aa
          dsimp only
          cases ha2 : addIfOutputs thn2 els2 outs2 q1.vals q2.vals st3 with
          | error e =>
            intro hcon
            injection hcon with hcon
            subst hcon
            exact addIfOutputs_no_landing _ _ _ _ _ _ ha2
          | ok aa2 =>
            obtain ⟨⟨thn3, els3, outs3, nvs⟩, st5⟩ := aa2
            simp

/-- Combined facts about a successful run of the loop exit propagation: state
monotonicity and exact preservation of the body's exit-operation counts (the synthesized
continuation conditional contains no nodes). -/
theorem loopPropagate_spec {ctx : Ctx} {mt c : Value} {carried outs : List Value}
    {body1 : EBlock} {p : ExitPair} {st : St} {n1 : ENode} {pr : ExitPair} {st1 : St}
    (h : loopPropagate ctx mt c carried outs body1 p st = .ok ((n1, pr), st1)) :
    st.fresh ≤ st1.fresh ∧ (∀ k, countN k n1 = countL k body1.nodes) := by
  unfold loopPropagate at h
  cases hbo : body1.outs with
  | nil => rw [hbo] at h; exact Except.noConfusion h
  | cons c0 restOuts =>
    rw [hbo] at h
    simp only [bind_run, freshVal] at h
    cases hle : loopExtras p.vals ⟨st.fresh + 1 + 1 + 1, st.units⟩ with
    | error e => rw [hle] at h; exact Except.noConfusion h
    | ok ale =>
      obtain ⟨⟨units, nouts, nins⟩, st2⟩ := ale
      rw [hle] at h
      dsimp only at h
      simp only [pure_run, Except.ok.injEq, Prod.mk.injEq] at h
      obtain ⟨⟨hn, hp⟩, hst⟩ := h
      subst hn; subst hp; subst hst
      have hm := loopExtras_mono hle
      simp only at hm
      refine ⟨by omega, ?_⟩
      intro k
      simp [countN, countL_append, countL]

theorem loopPropagate_no_landing (ctx : Ctx) (mt c : Value) (carried outs : List Value)
    (body1 : EBlock) (p : ExitPair) (st : St) :
    loopPropagate ctx mt c carried outs body1 p st ≠ .error .landing := by
  unfold loopPropagate
  cases hbo : body1.outs with
  | nil => simp [throwM]
  | cons c0 restOuts =>
    simp only [bind_run, freshVal]
    cases hle : loopExtras p.vals ⟨st.fresh + 1 + 1 + 1, st.units⟩ with
    | error e =>
      obtain ⟨a0, s0, hok⟩ := loopExtras_ok p.vals ⟨st.fresh + 1 + 1 + 1, st.units⟩
      rw [hok] at hle
      exact Except.noConfusion hle
    | ok ale =>
      obtain ⟨⟨units, nouts, nins⟩, st2⟩ := ale
      simp

/-- The bundled master induction over the transform functions: state monotonicity of the
fresh-id allocator, the no-exit invariant for the active kind, non-creation of exit
operations of the passive kind, the "a block ending in a matching exit operation finishes
with status WILL" lemma, and unreachability of the landing assertion on well-converted
input. -/
theorem master : ∀ f : Nat,
    (∀ ctx ok b st,
      (∀ b1 p st1, transformExits f ctx ok b st = .ok ((b1, p), st1) →
        st.fresh ≤ st1.fresh ∧ countL ctx.ek b1.nodes = 0 ∧
        (∀ k, k ≠ ctx.ek → countL k b1.nodes ≤ countL k b.nodes) ∧
        (isTarget ctx.ek ok = false → endsEx ctx.ek b.nodes = true → statusOf ctx p = .WILL))
      ∧ (wcB ctx.ek ok b = true → transformExits f ctx ok b st ≠ .error .landing))
  ∧ (∀ ctx cur ns outs st,
      (∀ ns1 outs1 p st1, scanNodes f ctx cur ns outs st = .ok ((ns1, outs1, p), st1) →
        st.fresh ≤ st1.fresh ∧ countL ctx.ek ns1 = 0 ∧
        (∀ k, k ≠ ctx.ek → countL k ns1 ≤ countL k ns) ∧
        (endsEx ctx.ek ns = true → statusOf ctx p = .WILL))
      ∧ (wcL ctx.ek ns = true → scanNodes f ctx cur ns outs st ≠ .error .landing))
  ∧ (∀ ctx cur n st,
      (∀ kept p st1, processNode f ctx cur n st = .ok ((kept, p), st1) →
        st.fresh ≤ st1.fresh ∧ countL ctx.ek kept = 0 ∧
        (∀ k, k ≠ ctx.ek → countL k kept ≤ countN k n) ∧
        (∀ ins2, n = .exitN ctx.ek ins2 → statusOf ctx p = .WILL))
      ∧ (wcN ctx.ek n = true → processNode f ctx cur n st ≠ .error .landing))
  ∧ (∀ ctx q rest outs st,
      (∀ gn outs1 p1 st1, guardNodes f ctx q rest outs st = .ok ((gn, outs1, p1), st1) →
        st.fresh ≤ st1.fresh ∧ countN ctx.ek gn = 0 ∧
        (∀ k, k ≠ ctx.ek → countN k gn ≤ countL k rest) ∧
        (endsEx ctx.ek rest = true → statusOf ctx p1 = .WILL))
      ∧ (wcL ctx.ek rest = true → guardNodes f ctx q rest outs st ≠ .error .landing))
  ∧ (∀ ctx c outs thn els st,
      (∀ n1 p1 st1, transformIfOn f ctx c outs thn els st = .ok ((n1, p1), st1) →
        st.fresh ≤ st1.fresh ∧ countN ctx.ek n1 = 0 ∧
        (∀ k, k ≠ ctx.ek → countN k n1 ≤ countL k thn.nodes + countL k els.nodes) ∧
        (endsEx ctx.ek thn.nodes = true → endsEx ctx.ek els.nodes = true →
          statusOf ctx p1 = .WILL))
      ∧ (wcL ctx.ek thn.nodes = true → wcL ctx.ek els.nodes = true →
          transformIfOn f ctx c outs thn els st ≠ .error .landing))
  ∧ (∀ ctx mt c carried outs body st,
      (∀ n1 p1 st1, transformLoopOn f ctx mt c carried outs body st = .ok ((n1, p1), st1) →
        st.fresh ≤ st1.fresh ∧ countN ctx.ek n1 = 0 ∧
        (∀ k, k ≠ ctx.ek → countN k n1 ≤ countL k body.nodes))
      ∧ ((ctx.ek = .loopCont → endsEx ctx.ek body.nodes = true) →
          wcL ctx.ek body.nodes = true →
          transformLoopOn f ctx mt c carried outs body st ≠ .error .landing)) := by
  intro f
  induction f with
  | zero =>
    refine ⟨?_, ?_, ?_, ?_, ?_, ?_⟩
    · intro ctx ok b st
      exact ⟨fun b1 p st1 h => absurd h (by simp [transformExits, throwM]),
        fun _ h => absurd h (by simp [transformExits, throwM])⟩
    · intro ctx cur ns outs st
      exact ⟨fun ns1 outs1 p st1 h => absurd h (by simp [scanNodes, throwM]),
        fun _ h => absurd h (by simp [scanNodes, throwM])⟩
    · intro ctx cur n st
      exact ⟨fun kept p st1 h => absurd h (by simp [processNode, throwM]),
        fun _ h => absurd h (by simp [processNode, throwM])⟩
    · intro ctx q rest outs st
      exact ⟨fun gn outs1 p1 st1 h => absurd h (by simp [guardNodes, throwM]),
        fun _ h => absurd h (by simp [guardNodes, throwM])⟩
    · intro ctx c outs thn els st
      exact ⟨fun n1 p1 st1 h => absurd h (by simp [transformIfOn, throwM]),
        fun _ _ h => absurd h (by simp [transformIfOn, throwM])⟩
    · intro ctx mt c carried outs body st
      exact ⟨fun n1 p1 st1 h => absurd h (by simp [transformLoopOn, throwM]),
        fun _ _ h => absurd h (by simp [transformLoopOn, throwM])⟩
  | succ f ih =>
    obtain ⟨ih1, ih2, ih3, ih4, ih5, ih6⟩ := ih
    refine ⟨?_, ?_, ?_, ?_, ?_, ?_⟩
    · -- T1: transformExits
      intro ctx ok b st
      constructor
      · intro b1 p st1 h
        rw [transformExits] at h
        simp only [bind_run] at h
        cases hs : scanNodes f ctx ⟨ctx.falseV, []⟩ b.nodes b.outs st with
        | error e => rw [hs] at h; exact Except.noConfusion h
        | ok a =>
          obtain ⟨⟨ns1, outs1, p0⟩, st2⟩ := a
          rw [hs] at h
          dsimp only at h
          obtain ⟨hmono, hze, hpres, hwill⟩ :=
            ((ih2 ctx ⟨ctx.falseV, []⟩ b.nodes b.outs st).1) ns1 outs1 p0 st2 hs
          by_cases htgt : isTarget ctx.ek ok = true
          · rw [if_pos htgt] at h
            by_cases hwl : statusOf ctx p0 = ExitStatus.WILL
            · rw [if_pos hwl] at h
              simp only [pure_run, Except.ok.injEq, Prod.mk.injEq] at h
              obtain ⟨⟨hb, hp⟩, hst⟩ := h
              subst hb; subst hp; subst hst
              refine ⟨hmono, hze, fun k hk => hpres k hk, ?_⟩
              intro hnt _
              rw [hnt] at htgt
              exact Bool.noConfusion htgt
            · rw [if_neg hwl] at h
              exact absurd h (by simp [throwM])
          · rw [if_neg htgt] at h
            simp only [pure_run, Except.ok.injEq, Prod.mk.injEq] at h
            obtain ⟨⟨hb, hp⟩, hst⟩ := h
            subst hb; subst hp; subst hst
            exact ⟨hmono, hze, fun k hk => hpres k hk, fun _ he => hwill he⟩
      · intro hwc hcon
        rw [transformExits] at hcon
        simp only [bind_run] at hcon
        simp only [wcB, Bool.and_eq_true, Bool.or_eq_true, Bool.not_eq_eq_eq_not,
          Bool.not_true] at hwc
        obtain ⟨hwc1, hwc2⟩ := hwc
        cases hs : scanNodes f ctx ⟨ctx.falseV, []⟩ b.nodes b.outs st with
        | error e =>
          rw [hs] at hcon
          injection hcon with hcon
          subst hcon
          exact ((ih2 ctx ⟨ctx.falseV, []⟩ b.nodes b.outs st).2) hwc2 hs
        | ok a =>
          obtain ⟨⟨ns1, outs1, p0⟩, st2⟩ := a
          rw [hs] at hcon
          dsimp only at hcon
          obtain ⟨_, _, _, hwill⟩ :=
            ((ih2 ctx ⟨ctx.falseV, []⟩ b.nodes b.outs st).1) ns1 outs1 p0 st2 hs
          by_cases htgt : isTarget ctx.ek ok = true
          · rw [if_pos htgt] at hcon
            by_cases hwl : statusOf ctx p0 = ExitStatus.WILL
            · rw [if_pos hwl] at hcon
              exact Except.noConfusion hcon
            · rcases hwc1 with hf2 | hend
              · rw [htgt] at hf2; exact Bool.noConfusion hf2
              · exact hwl (hwill hend)
          · rw [if_neg htgt] at hcon
            exact Except.noConfusion hcon
    · -- T2: scanNodes
      intro ctx cur ns outs st
      constructor
      · intro ns1 outs1 p st1 h
        cases ns with
        | nil =>
          rw [scanNodes] at h
          simp only [pure_run, Except.ok.injEq, Prod.mk.injEq] at h
          obtain ⟨⟨h1, h2, h3⟩, h4⟩ := h
          subst h1; subst h2; subst h3; subst h4
          refine ⟨le_rfl, rfl, fun k _ => le_rfl, ?_⟩
          intro hend
          exact Bool.noConfusion hend
        | cons n rest =>
          rw [scanNodes] at h
          simp only [bind_run] at h
          cases hp : processNode f ctx cur n st with
          | error e => rw [hp] at h; exact Except.noConfusion h
          | ok a =>
            obtain ⟨⟨kept, p0⟩, st2⟩ := a
            rw [hp] at h
            dsimp only at h
            obtain ⟨hkm, hkz, hkp, hkw⟩ := ((ih3 ctx cur n st).1) kept p0 st2 hp
            cases hss : statusOf ctx p0 with
            | WILL =>
              rw [hss] at h
              dsimp only at h
              simp only [bind_run] at h
              cases hd : deleteRest rest outs st2 with
              | error e => rw [hd] at h; exact Except.noConfusion h
              | ok a2 =>
                obtain ⟨outs2, st3⟩ := a2
                rw [hd] at h
                simp only [pure_run, Except.ok.injEq, Prod.mk.injEq] at h
                obtain ⟨⟨h1, h2, h3⟩, h4⟩ := h
                subst h1; subst h2; subst h3; subst h4
                refine ⟨le_trans hkm (deleteRest_mono hd), hkz, ?_, fun _ => hss⟩
                intro k hk
                have := hkp k hk
                simp only [countL]
                omega
            | MIGHT =>
              rw [hss] at h
              dsimp only at h
              cases rest with
              | nil =>
                simp only [pure_run, Except.ok.injEq, Prod.mk.injEq] at h
                obtain ⟨⟨h1, h2, h3⟩, h4⟩ := h
                subst h1; subst h2; subst h3; subst h4
                refine ⟨hkm, hkz, ?_, ?_⟩
                · intro k hk
                  have := hkp k hk
                  simp only [countL]
                  omega
                · intro hend
                  cases n with
                  | exitN k2 ins2 =>
                    simp only [endsEx, decide_eq_true_eq] at hend
                    subst hend
                    exact hkw ins2 rfl
                  | ite c2 o2 t2 e2 => simp [endsEx] at hend
                  | loopN a2 b2 c2 d2 e2 => simp [endsEx] at hend
                  | fnN a2 b2 => simp [endsEx] at hend
                  | constB a2 b2 => simp [endsEx] at hend
                  | uninitN a2 => simp [endsEx] at hend
                  | other a2 b2 => simp [endsEx] at hend
              | cons r0 rest2 =>
                dsimp only at h
                simp only [bind_run] at h
                cases hg : guardNodes f ctx p0 (r0 :: rest2) outs st2 with
                | error e => rw [hg] at h; exact Except.noConfusion h
                | ok a2 =>
                  obtain ⟨⟨gn, outs2, p1⟩, st3⟩ := a2
                  rw [hg] at h
                  dsimp only at h
                  simp only [pure_run, Except.ok.injEq, Prod.mk.injEq] at h
                  obtain ⟨⟨h1, h2, h3⟩, h4⟩ := h
                  subst h1; subst h2; subst h3; subst h4
                  obtain ⟨hgm, hgz, hgp, hgw⟩ :=
                    ((ih4 ctx p0 (r0 :: rest2) outs st2).1) gn outs2 p1 st3 hg
                  refine ⟨le_trans hkm hgm, ?_, ?_, ?_⟩
                  · simp [countL_append, countL, hkz, hgz]
                  · intro k hk
                    have e1 := hkp k hk
                    have e2 := hgp k hk
                    simp only [countL_append, countL] at *
                    omega
                  · intro hend
                    rw [endsEx_cons (by simp)] at hend
                    exact hgw hend
            | WONT =>
              rw [hss] at h
              dsimp only at h
              simp only [bind_run] at h
              cases hs2 : scanNodes f ctx p0 rest outs st2 with
              | error e => rw [hs2] at h; exact Except.noConfusion h
              | ok a2 =>
                obtain ⟨⟨ns2, outs2, p1⟩, st3⟩ := a2
                rw [hs2] at h
                dsimp only at h
                simp only [pure_run, Except.ok.injEq, Prod.mk.injEq] at h
                obtain ⟨⟨h1, h2, h3⟩, h4⟩ := h
                subst h1; subst h2; subst h3; subst h4
                obtain ⟨hm2, hz2, hp2, hw2⟩ := ((ih2 ctx p0 rest outs st2).1) ns2 outs2 p1 st3 hs2
                refine ⟨le_trans hkm hm2, ?_, ?_, ?_⟩
                · simp [countL_append, hkz, hz2]
                · intro k hk
                  have e1 := hkp k hk
                  have e2 := hp2 k hk
                  simp only [countL_append, countL] at *
                  omega
                · intro hend
                  cases rest with
                  | nil =>
                    have hcontr : statusOf ctx p0 = ExitStatus.WILL := by
                      cases n with
                      | exitN k2 ins2 =>
                        simp only [endsEx, decide_eq_true_eq] at hend
                        subst hend
                        exact hkw ins2 rfl
                      | ite c2 o2 t2 e2 => simp [endsEx] at hend
                      | loopN a2 b2 c2 d2 e2 => simp [endsEx] at hend
                      | fnN a2 b2 => simp [endsEx] at hend
                      | constB a2 b2 => simp [endsEx] at hend
                      | uninitN a2 => simp [endsEx] at hend
                      | other a2 b2 => simp [endsEx] at hend
                    rw [hss] at hcontr
                    exact ExitStatus.noConfusion hcontr
                  | cons r0 rest2 =>
                    rw [endsEx_cons (by simp)] at hend
                    exact hw2 hend
      · intro hwc hcon
        cases ns with
        | nil =>
          rw [scanNodes] at hcon
          exact Except.noConfusion hcon
        | cons n rest =>
          rw [scanNodes] at hcon
          simp only [bind_run] at hcon
          simp only [wcL, Bool.and_eq_true] at hwc
          obtain ⟨hwn, hwrest⟩ := hwc
          cases hp : processNode f ctx cur n st with
          | error e =>
            rw [hp] at hcon
            injection hcon with hcon
            subst hcon
            exact ((ih3 ctx cur n st).2) hwn hp
          | ok a =>
            obtain ⟨⟨kept, p0⟩, st2⟩ := a
            rw [hp] at hcon
            dsimp only at hcon
            cases hss : statusOf ctx p0 with
            | WILL =>
              rw [hss] at hcon
              dsimp only at hcon
              simp only [bind_run] at hcon
              cases hd : deleteRest rest outs st2 with
              | error e =>
                obtain ⟨a0, s0, hok⟩ := deleteRest_ok rest outs st2
                rw [hok] at hd
                exact Except.noConfusion hd
              | ok a2 =>
                obtain ⟨outs2, st3⟩ := a2
                rw [hd] at hcon
                exact Except.noConfusion hcon
            | MIGHT =>
              rw [hss] at hcon
              dsimp only at hcon
              cases rest with
              | nil => exact Except.noConfusion hcon
              | cons r0 rest2 =>
                dsimp only at hcon
                simp only [bind_run] at hcon
                cases hg : guardNodes f ctx p0 (r0 :: rest2) outs st2 with
                | error e =>
                  rw [hg] at hcon
                  injection hcon with hcon
                  subst hcon
                  exact ((ih4 ctx p0 (r0 :: rest2) outs st2).2) hwrest hg
                | ok a2 =>
                  obtain ⟨⟨gn, outs2, p1⟩, st3⟩ := a2
                  rw [hg] at hcon
                  exact Except.noConfusion hcon
            | WONT =>
              rw [hss] at hcon
              dsimp only at hcon
              simp only [bind_run] at hcon
              cases hs2 : scanNodes f ctx p0 rest outs st2 with
              | error e =>
                rw [hs2] at hcon
                injection hcon with hcon
                subst hcon
                exact ((ih2 ctx p0 rest outs st2).2) hwrest hs2
              | ok a2 =>
                obtain ⟨⟨ns2, outs2, p1⟩, st3⟩ := a2
                rw [hs2] at hcon
                exact Except.noConfusion hcon
    · -- T3: processNode
      intro ctx cur n st
      constructor
      · intro kept p st1 h
        cases n with
        | exitN k ins =>
          rw [processNode] at h
          by_cases hk : k = ctx.ek
          · rw [if_pos hk] at h
            simp only [pure_run, Except.ok.injEq, Prod.mk.injEq] at h
            obtain ⟨⟨h1, h2⟩, h3⟩ := h
            subst h1; subst h2; subst h3
            refine ⟨le_rfl, rfl, fun k2 hk2 => by simp [countL], ?_⟩
            intro ins2 _
            exact statusOf_trueV ctx ins
          · rw [if_neg hk] at h
            simp only [pure_run, Except.ok.injEq, Prod.mk.injEq] at h
            obtain ⟨⟨h1, h2⟩, h3⟩ := h
            subst h1; subst h2; subst h3
            refine ⟨le_rfl, ?_, fun k2 hk2 => le_rfl, ?_⟩
            · simp only [countL, countN]
              rw [if_neg hk]
            · intro ins2 hcon2
              injection hcon2 with hx1 hx2
              exact absurd hx1 hk
        | ite c outs thn els =>
          rw [processNode] at h
          simp only [bind_run] at h
          cases hi : transformIfOn f ctx c outs thn els st with
          | error e => rw [hi] at h; exact Except.noConfusion h
          | ok a =>
            obtain ⟨⟨n1, p1⟩, st2⟩ := a
            rw [hi] at h
            dsimp only at h
            simp only [pure_run, Except.ok.injEq, Prod.mk.injEq] at h
            obtain ⟨hm, hz, hpr, _⟩ := ((ih5 ctx c outs thn els st).1) n1 p1 st2 hi
            obtain ⟨⟨h1, h2⟩, h3⟩ := h
            subst h1; subst h2; subst h3
            refine ⟨hm, by simp [countL, hz], ?_, ?_⟩
            · intro k hk
              have := hpr k hk
              simp only [countL, countN]
              omega
            · intro ins2 hcon2
              exact ENode.noConfusion hcon2
        | loopN mt c carried outs body =>
          rw [processNode] at h
          simp only [bind_run] at h
          cases hl : transformLoopOn f ctx mt c carried outs body st with
          | error e => rw [hl] at h; exact Except.noConfusion h
          | ok a =>
            obtain ⟨⟨n1, p1⟩, st2⟩ := a
            rw [hl] at h
            dsimp only at h
            simp only [pure_run, Except.ok.injEq, Prod.mk.injEq] at h
            obtain ⟨hm, hz, hpr⟩ := ((ih6 ctx mt c carried outs body st).1) n1 p1 st2 hl
            obtain ⟨⟨h1, h2⟩, h3⟩ := h
            subst h1; subst h2; subst h3
            refine ⟨hm, by simp [countL, hz], ?_, ?_⟩
            · intro k hk
              have := hpr k hk
              simp only [countL, countN]
              omega
            · intro ins2 hcon2
              exact ENode.noConfusion hcon2
        | fnN outs body =>
          rw [processNode] at h
          simp only [bind_run] at h
          cases he : transformExits f ctx OwnerK.topOrFn body st with
          | error e => rw [he] at h; exact Except.noConfusion h
          | ok a =>
            obtain ⟨⟨b1, p1⟩, st2⟩ := a
            rw [he] at h
            dsimp only at h
            simp only [pure_run, Except.ok.injEq, Prod.mk.injEq] at h
            obtain ⟨hm, hz, hpr, _⟩ := ((ih1 ctx OwnerK.topOrFn body st).1) b1 p1 st2 he
            obtain ⟨⟨h1, h2⟩, h3⟩ := h
            subst h1; subst h2; subst h3
            refine ⟨hm, by simp [countL, countN, hz], ?_, ?_⟩
            · intro k hk
              have := hpr k hk
              simp only [countL, countN]
              omega
            · intro ins2 hcon2
              exact ENode.noConfusion hcon2
        | constB b2 o =>
          rw [processNode] at h
          simp only [pure_run, Except.ok.injEq, Prod.mk.injEq] at h
          obtain ⟨⟨h1, h2⟩, h3⟩ := h
          subst h1; subst h2; subst h3
          refine ⟨le_rfl, rfl, fun k hk => le_rfl, ?_⟩
          · intro ins2 hcon2
            exact ENode.noConfusion hcon2
          all_goals (intros; rename_i hx; exact ENode.noConfusion hx)
        | uninitN o =>
          rw [processNode] at h
          simp only [pure_run, Except.ok.injEq, Prod.mk.injEq] at h
          obtain ⟨⟨h1, h2⟩, h3⟩ := h
          subst h1; subst h2; subst h3
          refine ⟨le_rfl, rfl, fun k hk => le_rfl, ?_⟩
          · intro ins2 hcon2
            exact ENode.noConfusion hcon2
          all_goals (intros; rename_i hx; exact ENode.noConfusion hx)
        | other ins outs =>
          rw [processNode] at h
          simp only [pure_run, Except.ok.injEq, Prod.mk.injEq] at h
          obtain ⟨⟨h1, h2⟩, h3⟩ := h
          subst h1; subst h2; subst h3
          refine ⟨le_rfl, rfl, fun k hk => le_rfl, ?_⟩
          · intro ins2 hcon2
            exact ENode.noConfusion hcon2
          all_goals (intros; rename_i hx; exact ENode.noConfusion hx)
      · intro hwc hcon
        cases n with
        | exitN k ins =>
          rw [processNode] at hcon
          by_cases hk : k = ctx.ek
          · rw [if_pos hk] at hcon
            simp only [pure_run] at hcon
            exact Except.noConfusion hcon
          · rw [if_neg hk] at hcon
            simp only [pure_run] at hcon
            exact Except.noConfusion hcon
        | ite c outs thn els =>
          rw [processNode] at hcon
          simp only [bind_run] at hcon
          simp only [wcN, Bool.and_eq_true] at hwc
          cases hi : transformIfOn f ctx c outs thn els st with
          | error e =>
            rw [hi] at hcon
            injection hcon with hcon
            subst hcon
            exact ((ih5 ctx c outs thn els st).2) hwc.1 hwc.2 hi
          | ok a =>
            obtain ⟨⟨n1, p1⟩, st2⟩ := a
            rw [hi] at hcon
            exact Except.noConfusion hcon
        | loopN mt c carried outs body =>
          rw [processNode] at hcon
          simp only [bind_run] at hcon
          simp only [wcN, Bool.and_eq_true] at hwc
          cases hl : transformLoopOn f ctx mt c carried outs body st with
          | error e =>
            rw [hl] at hcon
            injection hcon with hcon
            subst hcon
            refine ((ih6 ctx mt c carried outs body st).2) ?_ hwc.2 hl
            intro hek
            have h5 := hwc.1
            rw [hek] at h5
            rw [hek]
            simpa using h5
          | ok a =>
            obtain ⟨⟨n1, p1⟩, st2⟩ := a
            rw [hl] at hcon
            exact Except.noConfusion hcon
        | fnN outs body =>
          rw [processNode] at hcon
          simp only [bind_run] at hcon
          simp only [wcN, Bool.and_eq_true] at hwc
          cases he : transformExits f ctx OwnerK.topOrFn body st with
          | error e =>
            rw [he] at hcon
            injection hcon with hcon
            subst hcon
            refine ((ih1 ctx OwnerK.topOrFn body st).2) ?_ he
            simp only [wcB, Bool.and_eq_true, Bool.or_eq_true, Bool.not_eq_eq_eq_not,
              Bool.not_true]
            refine ⟨?_, hwc.2⟩
            cases hek : ctx.ek with
            | ret =>
              right
              have := hwc.1
              rw [hek] at this
              simpa using this
            | loopCont =>
              left
              simp [isTarget]
          | ok a =>
            obtain ⟨⟨b1, p1⟩, st2⟩ := a
            rw [he] at hcon
            exact Except.noConfusion hcon
        | constB b2 o =>
          rw [processNode] at hcon
          simp only [pure_run] at hcon
          exact Except.noConfusion hcon
          all_goals (intros; rename_i hx; exact ENode.noConfusion hx)
        | uninitN o =>
          rw [processNode] at hcon
          simp only [pure_run] at hcon
          exact Except.noConfusion hcon
          all_goals (intros; rename_i hx; exact ENode.noConfusion hx)
        | other ins outs =>
          rw [processNode] at hcon
          simp only [pure_run] at hcon
          exact Except.noConfusion hcon
          all_goals (intros; rename_i hx; exact ENode.noConfusion hx)
    · -- T4: guardNodes
      intro ctx q rest outs st
      constructor
      · intro gn outs1 p1 st1 h
        rw [guardNodes] at h
        simp only [bind_run] at h
        cases hm : matchUninit outs st with
        | error e => rw [hm] at h; exact Except.noConfusion h
        | ok a =>
          obtain ⟨phs, st2⟩ := a
          rw [hm] at h
          dsimp only at h
          cases hf : freshList outs st2 with
          | error e => rw [hf] at h; exact Except.noConfusion h
          | ok a2 =>
            obtain ⟨fresh2, st3⟩ := a2
            rw [hf] at h
            dsimp only at h
            cases hi : transformIfOn f ctx q.hasEx fresh2 ⟨[], [ENode.exitN ctx.ek q.vals], phs⟩
                ⟨[], rest, outs⟩ st3 with
            | error e => rw [hi] at h; exact Except.noConfusion h
            | ok a3 =>
              obtain ⟨⟨n1, p2⟩, st4⟩ := a3
              rw [hi] at h
              dsimp only at h
              simp only [pure_run, Except.ok.injEq, Prod.mk.injEq] at h
              obtain ⟨im, iz, ip, iw⟩ :=
                ((ih5 ctx q.hasEx fresh2 ⟨[], [ENode.exitN ctx.ek q.vals], phs⟩
                  ⟨[], rest, outs⟩ st3).1) n1 p2 st4 hi
              obtain ⟨⟨h1, h2, h3⟩, h4⟩ := h
              subst h1; subst h2; subst h3; subst h4
              refine ⟨le_trans (matchUninit_mono hm) (le_trans (freshList_mono hf) im),
                iz, ?_, ?_⟩
              · intro k hk
                have := ip k hk
                simp only [countL, countN] at this
                have hz : (if ctx.ek = k then 1 else 0) = 0 := by
                  rw [if_neg (fun hcc => hk hcc.symm)]
                omega
              · intro hend
                refine iw ?_ hend
                simp [endsEx]
      · intro hwc hcon
        rw [guardNodes] at hcon
        simp only [bind_run] at hcon
        cases hm : matchUninit outs st with
        | error e =>
          obtain ⟨a0, s0, hok⟩ := matchUninit_ok outs st
          rw [hok] at hm
          exact Except.noConfusion hm
        | ok a =>
          obtain ⟨phs, st2⟩ := a
          rw [hm] at hcon
          dsimp only at hcon
          cases hf : freshList outs st2 with
          | error e =>
            obtain ⟨a0, s0, hok⟩ := freshList_ok outs st2
            rw [hok] at hf
            exact Except.noConfusion hf
          | ok a2 =>
            obtain ⟨fresh2, st3⟩ := a2
            rw [hf] at hcon
            dsimp only at hcon
            cases hi : transformIfOn f ctx q.hasEx fresh2 ⟨[], [ENode.exitN ctx.ek q.vals], phs⟩
                ⟨[], rest, outs⟩ st3 with
            | error e =>
              rw [hi] at hcon
              injection hcon with hcon
              subst hcon
              refine ((ih5 ctx q.hasEx fresh2 ⟨[], [ENode.exitN ctx.ek q.vals], phs⟩
                ⟨[], rest, outs⟩ st3).2) ?_ ?_ hi
              · simp [wcL, wcN]
              · exact hwc
            | ok a3 =>
              obtain ⟨⟨n1, p2⟩, st4⟩ := a3
              rw [hi] at hcon
              exact Except.noConfusion hcon
    · -- T5: transformIfOn
      intro ctx c outs thn els st
      constructor
      · intro n1 p1 st1 h
        rw [transformIfOn] at h
        simp only [bind_run] at h
        cases h1 : transformExits f ctx OwnerK.ifB thn st with
        | error e => rw [h1] at h; exact Except.noConfusion h
        | ok a =>
          obtain ⟨⟨thn1, q1⟩, st2⟩ := a
          rw [h1] at h
          dsimp only at h
          cases h2 : transformExits f ctx OwnerK.ifB els st2 with
          | error e => rw [h2] at h; exact Except.noConfusion h
          | ok a2 =>
            obtain ⟨⟨els1, q2⟩, st3⟩ := a2
            rw [h2] at h
            dsimp only at h
            obtain ⟨m1, z1, pr1, w1⟩ := ((ih1 ctx OwnerK.ifB thn st).1) thn1 q1 st2 h1
            obtain ⟨m2, z2, pr2, w2⟩ := ((ih1 ctx OwnerK.ifB els st2).1) els1 q2 st3 h2
            obtain ⟨mm, mcount, mww⟩ := mergeIf_spec h
            refine ⟨le_trans m1 (le_trans m2 mm), ?_, ?_, ?_⟩
            · rw [mcount ctx.ek, z1, z2]
            · intro k hk
              rw [mcount k]
              exact Nat.add_le_add (pr1 k hk) (pr2 k hk)
            · intro he1 he2
              have hw1 := w1 (isTarget_ifB ctx.ek) he1
              have hw2 := w2 (isTarget_ifB ctx.ek) he2
              have hte := mww hw1 hw2
              rw [statusOf, hte]
              simp
      · intro hwc1 hwc2 hcon
        rw [transformIfOn] at hcon
        simp only [bind_run] at hcon
        cases h1 : transformExits f ctx OwnerK.ifB thn st with
        | error e =>
          rw [h1] at hcon
          injection hcon with hcon
          subst hcon
          refine ((ih1 ctx OwnerK.ifB thn st).2) ?_ h1
          simp [wcB, isTarget_ifB, hwc1]
        | ok a =>
          obtain ⟨⟨thn1, q1⟩, st2⟩ := a
          rw [h1] at hcon
          dsimp only at hcon
          cases h2 : transformExits f ctx OwnerK.ifB els st2 with
          | error e =>
            rw [h2] at hcon
            injection hcon with hcon
            subst hcon
            refine ((ih1 ctx OwnerK.ifB els st2).2) ?_ h2
            simp [wcB, isTarget_ifB, hwc2]
          | ok a2 =>
            obtain ⟨⟨els1, q2⟩, st3⟩ := a2
            rw [h2] at hcon
            dsimp only at hcon
            exact mergeIf_no_landing _ _ _ _ _ _ _ _ hcon
    · -- T6: transformLoopOn
      intro ctx mt c carried outs body st
      constructor
      · intro n1 p1 st1 h
        rw [transformLoopOn] at h
        simp only [bind_run] at h
        cases h1 : transformExits f ctx OwnerK.loopB body st with
        | error e => rw [h1] at h; exact Except.noConfusion h
        | ok a =>
          obtain ⟨⟨body1, p0⟩, st2⟩ := a
          rw [h1] at h
          dsimp only at h
          obtain ⟨m1, z1, pr1, _⟩ := ((ih1 ctx OwnerK.loopB body st).1) body1 p0 st2 h1
          by_cases hwo : statusOf ctx p0 = ExitStatus.WONT
          · rw [if_pos hwo] at h
            simp only [pure_run, Except.ok.injEq, Prod.mk.injEq] at h
            obtain ⟨⟨hn, hp⟩, hst⟩ := h
            subst hn; subst hp; subst hst
            refine ⟨m1, by simp [countN, z1], ?_⟩
            intro k hk
            simpa [countN] using pr1 k hk
          · rw [if_neg hwo] at h
            obtain ⟨mm, mcount⟩ := loopPropagate_spec h
            refine ⟨le_trans m1 mm, ?_, ?_⟩
            · rw [mcount ctx.ek, z1]
            · intro k hk
              rw [mcount k]
              exact pr1 k hk
      · intro hend hwc hcon
        rw [transformLoopOn] at hcon
        simp only [bind_run] at hcon
        cases h1 : transformExits f ctx OwnerK.loopB body st with
        | error e =>
          rw [h1] at hcon
          injection hcon with hcon
          subst hcon
          refine ((ih1 ctx OwnerK.loopB body st).2) ?_ h1
          simp only [wcB, Bool.and_eq_true, Bool.or_eq_true, Bool.not_eq_eq_eq_not,
            Bool.not_true]
          refine ⟨?_, hwc⟩
          cases hek : ctx.ek with
          | ret => left; simp [isTarget]
          | loopCont =>
            right
            have h5 := hend hek
            rw [hek] at h5
            exact h5
        | ok a =>
          obtain ⟨⟨body1, p0⟩, st2⟩ := a
          rw [h1] at hcon
          dsimp only at hcon
          by_cases hwo : statusOf ctx p0 = ExitStatus.WONT
          · rw [if_pos hwo] at hcon
            exact Except.noConfusion hcon
          · rw [if_neg hwo] at hcon
            exact loopPropagate_no_landing _ _ _ _ _ _ _ _ hcon

theorem wcL_append (k : EKind) (a b : List ENode) :
    wcL k (a ++ b) = (wcL k a && wcL k b) := by
  induction a with
  | nil => simp [wcL]
  | cons n ns ih => simp [wcL, ih, Bool.and_assoc]

mutual

theorem wc_convLoopN : ∀ n : ENode, wcN .loopCont (convLoopN n) = true
  | .exitN k ins => by simp [convLoopN, wcN]
  | .ite c outs thn els => by
    simp only [convLoopN, wcN, convLoopB_false, Bool.and_eq_true]
    exact ⟨wc_convLoopL thn.nodes, wc_convLoopL els.nodes⟩
  | .loopN mt c car outs body => by
    simp only [convLoopN, wcN, convLoopB_true, Bool.and_eq_true, if_pos rfl]
    constructor
    · exact endsEx_append_exit _ _ _
    · rw [wcL_append]
      simp [wc_convLoopL body.nodes, wcL, wcN]
  | .fnN outs body => by
    simp only [convLoopN, wcN, convLoopB_false, Bool.and_eq_true]
    refine ⟨?_, wc_convLoopL body.nodes⟩
    simp
  | .constB b o => by simp [convLoopN, wcN]
  | .uninitN o => by simp [convLoopN, wcN]
  | .other ins outs => by simp [convLoopN, wcN]

theorem wc_convLoopL : ∀ ns : List ENode, wcL .loopCont (convLoopL ns) = true
  | [] => by simp [convLoopL, wcL]
  | n :: ns => by
    simp only [convLoopL, wcL, Bool.and_eq_true]
    exact ⟨wc_convLoopN n, wc_convLoopL ns⟩

end

mutual

theorem wc_convRetN : ∀ n : ENode, wcN .ret (convRetN n) = true
  | .exitN k ins => by simp [convRetN, wcN]
  | .ite c outs thn els => by
    simp only [convRetN, wcN, convRetB_false, Bool.and_eq_true]
    exact ⟨wc_convRetL thn.nodes, wc_convRetL els.nodes⟩
  | .loopN mt c car outs body => by
    simp only [convRetN, wcN, convRetB_false, Bool.and_eq_true]
    refine ⟨?_, wc_convRetL body.nodes⟩
    simp
  | .fnN outs body => by
    simp only [convRetN, wcN, convRetB_true, Bool.and_eq_true, if_pos rfl]
    constructor
    · exact endsEx_append_exit _ _ _
    · rw [wcL_append]
      simp [wc_convRetL body.nodes, wcL, wcN]
  | .constB b o => by simp [convRetN, wcN]
  | .uninitN o => by simp [convRetN, wcN]
  | .other ins outs => by simp [convRetN, wcN]

theorem wc_convRetL : ∀ ns : List ENode, wcL .ret (convRetL ns) = true
  | [] => by simp [convRetL, wcL]
  | n :: ns => by
    simp only [convRetL, wcL, Bool.and_eq_true]
    exact ⟨wc_convRetN n, wc_convRetL ns⟩

end

mutual

theorem count_convLoopN (k : EKind) (hk : k ≠ .loopCont) :
    ∀ n : ENode, countN k (convLoopN n) = countN k n
  | .exitN k2 ins => by simp [convLoopN]
  | .ite c outs thn els => by
    simp only [convLoopN, countN, convLoopB_false]
    rw [count_convLoopL k hk thn.nodes, count_convLoopL k hk els.nodes]
  | .loopN mt c car outs body => by
    simp only [convLoopN, countN, convLoopB_true]
    rw [countL_append, count_convLoopL k hk body.nodes]
    have : countN k (ENode.exitN .loopCont body.outs) = 0 := by
      simp only [countN]
      rw [if_neg (fun hc => hk hc.symm)]
    simp [countL, this]
  | .fnN outs body => by
    simp only [convLoopN, countN, convLoopB_false]
    rw [count_convLoopL k hk body.nodes]
  | .constB b o => by simp [convLoopN]
  | .uninitN o => by simp [convLoopN]
  | .other ins outs => by simp [convLoopN]

theorem count_convLoopL (k : EKind) (hk : k ≠ .loopCont) :
    ∀ ns : List ENode, countL k (convLoopL ns) = countL k ns
  | [] => by simp [convLoopL]
  | n :: ns => by
    simp only [convLoopL, countL]
    rw [count_convLoopN k hk n, count_convLoopL k hk ns]

end

mutual

theorem count_convRetN (k : EKind) (hk : k ≠ .ret) :
    ∀ n : ENode, countN k (convRetN n) = countN k n
  | .exitN k2 ins => by simp [convRetN]
  | .ite c outs thn els => by
    simp only [convRetN, countN, convRetB_false]
    rw [count_convRetL k hk thn.nodes, count_convRetL k hk els.nodes]
  | .loopN mt c car outs body => by
    simp only [convRetN, countN, convRetB_false]
    rw [count_convRetL k hk body.nodes]
  | .fnN outs body => by
    simp only [convRetN, countN, convRetB_true]
    rw [countL_append, count_convRetL k hk body.nodes]
    have : countN k (ENode.exitN .ret body.outs) = 0 := by
      simp only [countN]
      rw [if_neg (fun hc => hk hc.symm)]
    simp [countL, this]
  | .constB b o => by simp [convRetN]
  | .uninitN o => by simp [convRetN]
  | .other ins outs => by simp [convRetN]

theorem count_convRetL (k : EKind) (hk : k ≠ .ret) :
    ∀ ns : List ENode, countL k (convRetL ns) = countL k ns
  | [] => by simp [convRetL]
  | n :: ns => by
    simp only [convRetL, countL]
    rw [count_convRetN k hk n, count_convRetL k hk ns]

end

theorem countL_uninits (k : EKind) (l : List (Ty × Value)) :
    countL k (l.map fun q => ENode.uninitN q.2) = 0 := by
  induction l with
  | nil => simp [countL]
  | cons q l ih => simp [countL, countN, ih]

/-- Facts about one full `ExitTransformer` run: the produced graph contains no exit
operations of the active kind, exit operations of the passive kind are never created,
and the landing assertion never fires. -/
theorem runTransformer_spec (fuel : Nat) (ek : EKind) (g : EBlock) (st : St) :
    (∀ g1 st1, runTransformer fuel ek g st = .ok (g1, st1) →
      countL ek g1.nodes = 0 ∧ (∀ k, k ≠ ek → countL k g1.nodes ≤ countL k g.nodes))
    ∧ runTransformer fuel ek g st ≠ .error .landing := by
  have hconv : ∀ ctx : Ctx, ctx.ek = ek → ∀ st2,
      (∀ g3 p st3, transformExits fuel ctx .topOrFn
          (if ek = .loopCont
            then convLoopB false ⟨g.ins, .constB true ctx.trueV :: .constB false ctx.falseV :: g.nodes, g.outs⟩
            else convRetB true ⟨g.ins, .constB true ctx.trueV :: .constB false ctx.falseV :: g.nodes, g.outs⟩) st2 =
          .ok ((g3, p), st3) →
        countL ek g3.nodes = 0 ∧
        (∀ k, k ≠ ek → countL k g3.nodes ≤ countL k g.nodes))
      ∧ transformExits fuel ctx .topOrFn
          (if ek = .loopCont
            then convLoopB false ⟨g.ins, .constB true ctx.trueV :: .constB false ctx.falseV :: g.nodes, g.outs⟩
            else convRetB true ⟨g.ins, .constB true ctx.trueV :: .constB false ctx.falseV :: g.nodes, g.outs⟩) st2 ≠
        .error .landing := by
    intro ctx hek st2
    obtain ⟨T1, _, _, _, _, _⟩ := master fuel
    constructor
    · intro g3 p st3 h3
      obtain ⟨_, hz, hpres, _⟩ := (T1 ctx .topOrFn _ st2).1 g3 p st3 h3
      rw [hek] at hz hpres
      refine ⟨hz, ?_⟩
      intro k hk
      refine le_trans (hpres k hk) ?_
      cases ek with
      | loopCont =>
        rw [if_pos rfl]
        simp only [convLoopB_false]
        rw [count_convLoopL k hk]
        simp [countL, countN]
      | ret =>
        rw [if_neg (by decide : ¬(EKind.ret = EKind.loopCont))]
        simp only [convRetB_true]
        rw [countL_append, count_convRetL k hk]
        have hkr : ¬(EKind.ret = k) := fun hc => hk hc.symm
        simp [countL, countN, hkr]
    · refine (T1 ctx .topOrFn _ st2).2 ?_
      cases ek with
      | loopCont =>
        rw [if_pos rfl]
        simp only [wcB, Bool.and_eq_true, Bool.or_eq_true]
        constructor
        · left
          rw [hek]
          simp [isTarget]
        · simp only [convLoopB_false]
          rw [hek]
          exact wc_convLoopL _
      | ret =>
        rw [if_neg (by decide : ¬(EKind.ret = EKind.loopCont))]
        simp only [wcB, Bool.and_eq_true, Bool.or_eq_true]
        constructor
        · right
          simp only [convRetB_true]
          rw [hek]
          exact endsEx_append_exit _ _ _
        · simp only [convRetB_true]
          rw [hek, wcL_append]
          simp only [Bool.and_eq_true]
          exact ⟨wc_convRetL _, by simp [wcL, wcN]⟩
  constructor
  · intro g1 st1 h
    rw [runTransformer] at h
    simp only [bind_run, freshVal, resetUnits_run, pure_run] at h
    set ctx : Ctx := ⟨ek, ⟨st.fresh, .bool⟩, ⟨st.fresh + 1, .bool⟩⟩ with hctx
    cases ht : transformExits fuel ctx .topOrFn
        (if ek = .loopCont
          then convLoopB false ⟨g.ins, .constB true ctx.trueV :: .constB false ctx.falseV :: g.nodes, g.outs⟩
          else convRetB true ⟨g.ins, .constB true ctx.trueV :: .constB false ctx.falseV :: g.nodes, g.outs⟩)
        ⟨st.fresh + 1 + 1, []⟩ with
    | error e =>
      rw [show ctx.trueV = ⟨st.fresh, Ty.bool⟩ from rfl,
        show ctx.falseV = ⟨st.fresh + 1, Ty.bool⟩ from rfl] at ht
      rw [ht] at h
      exact Except.noConfusion h
    | ok a =>
      obtain ⟨⟨g3, p⟩, st3⟩ := a
      rw [show ctx.trueV = ⟨st.fresh, Ty.bool⟩ from rfl,
        show ctx.falseV = ⟨st.fresh + 1, Ty.bool⟩ from rfl] at ht
      rw [ht] at h
      dsimp only at h
      simp only [takeUnits_run, Except.ok.injEq, Prod.mk.injEq] at h
      obtain ⟨hg, hs⟩ := h
      subst hg; subst hs
      obtain ⟨hz, hpres⟩ := ((hconv ctx rfl ⟨st.fresh + 1 + 1, []⟩).1) g3 p st3 (by
        rw [show ctx.trueV = ⟨st.fresh, Ty.bool⟩ from rfl,
          show ctx.falseV = ⟨st.fresh + 1, Ty.bool⟩ from rfl]
        exact ht)
      constructor
      · simp only [countL_append, countL_uninits, hz]
      · intro k hk
        simp only [countL_append, countL_uninits]
        have := hpres k hk
        omega
  · intro hcon
    rw [runTransformer] at hcon
    simp only [bind_run, freshVal, resetUnits_run, pure_run] at hcon
    set ctx : Ctx := ⟨ek, ⟨st.fresh, .bool⟩, ⟨st.fresh + 1, .bool⟩⟩ with hctx
    cases ht : transformExits fuel ctx .topOrFn
        (if ek = .loopCont
          then convLoopB false ⟨g.ins, .constB true ctx.trueV :: .constB false ctx.falseV :: g.nodes, g.outs⟩
          else convRetB true ⟨g.ins, .constB true ctx.trueV :: .constB false ctx.falseV :: g.nodes, g.outs⟩)
        ⟨st.fresh + 1 + 1, []⟩ with
    | error e =>
      rw [show ctx.trueV = ⟨st.fresh, Ty.bool⟩ from rfl,
        show ctx.falseV = ⟨st.fresh + 1, Ty.bool⟩ from rfl] at ht
      rw [ht] at hcon
      injection hcon with hcon
      subst hcon
      refine (hconv ctx rfl ⟨st.fresh + 1 + 1, []⟩).2 ?_
      rw [show ctx.trueV = ⟨st.fresh, Ty.bool⟩ from rfl,
        show ctx.falseV = ⟨st.fresh + 1, Ty.bool⟩ from rfl]
      exact ht
    | ok a =>
      obtain ⟨⟨g3, p⟩, st3⟩ := a
      rw [show ctx.trueV = ⟨st.fresh, Ty.bool⟩ from rfl,
        show ctx.falseV = ⟨st.fresh + 1, Ty.bool⟩ from rfl] at ht
      rw [ht] at hcon
      dsimp only at hcon
      simp only [takeUnits_run] at hcon
      exact Except.noConfusion hcon

/-- C1: after the exit-normalization entry point `TransformExits` has run the
transformer for both exit kinds (`prim::LoopContinuation` then `prim::ReturnStmt`)
on a graph, a successful result contains zero exit operations of either kind,
nested blocks included. -/
theorem C1_no_exits_after_both (fuel : Nat) (g g2 : EBlock)
    (h : TransformExitsTop fuel g = .ok g2) :
    countB .loopCont g2 = 0 ∧ countB .ret g2 = 0 := by
  unfold TransformExitsTop at h
  simp only [bind_run] at h
  cases h1 : runTransformer fuel EKind.loopCont g ⟨maxIdB g + 1, []⟩ with
  | error e => rw [h1] at h; exact Except.noConfusion h
  | ok a =>
    obtain ⟨g1, st1⟩ := a
    rw [h1] at h
    dsimp only at h
    cases h2 : runTransformer fuel EKind.ret g1 st1 with
    | error e => rw [h2] at h; exact Except.noConfusion h
    | ok b =>
      obtain ⟨g2x, st2⟩ := b
      rw [h2] at h
      dsimp only at h
      have hg : g2x = g2 := by
        injection h
      subst hg
      have hs1 := (runTransformer_spec fuel EKind.loopCont g ⟨maxIdB g + 1, []⟩).1 g1 st1 h1
      have hs2 := (runTransformer_spec fuel EKind.ret g1 st1).1 g2x st2 h2
      refine ⟨?_, hs2.1⟩
      have hle := hs2.2 EKind.loopCont (by decide)
      have h0 := hs1.1
      unfold countB
      omega

theorem C1_witness :
    ∃ g2, TransformExitsTop 20 c1G = Except.ok g2 ∧
      countB .loopCont g2 = 0 ∧ countB .ret g2 = 0 := by
  have hok : isOkE (TransformExitsTop 20 c1G) = true := rfl
  cases hr : TransformExitsTop 20 c1G with
  | error e => rw [hr] at hok; simp [isOkE] at hok
  | ok g2 => exact ⟨g2, rfl, C1_no_exits_after_both 20 c1G g2 hr⟩

/-- C10: the internal assertion at the destination landing (`status == WILL` when
the walk finishes a target block) never fires: the entry point never returns the
landing failure, for any graph and any fuel. -/
theorem C10_landing_assert_never_fires (fuel : Nat) (g : EBlock) :
    isLanding (TransformExitsTop fuel g) = false := by
  unfold TransformExitsTop
  simp only [bind_run]
  cases h1 : runTransformer fuel EKind.loopCont g ⟨maxIdB g + 1, []⟩ with
  | error e =>
    have hn := (runTransformer_spec fuel EKind.loopCont g ⟨maxIdB g + 1, []⟩).2
    rw [h1] at hn
    cases e with
    | landing => exact absurd rfl hn
    | fuel => rfl
    | unify => rfl
    | arity => rfl
  | ok a =>
    obtain ⟨g1, st1⟩ := a
    dsimp only
    cases h2 : runTransformer fuel EKind.ret g1 st1 with
    | error e =>
      have hn := (runTransformer_spec fuel EKind.ret g1 st1).2
      rw [h2] at hn
      cases e with
      | landing => exact absurd rfl hn
      | fuel => rfl
      | unify => rfl
      | arity => rfl
    | ok b =>
      obtain ⟨g2, st2⟩ := b
      rfl

/-- C2 counterexample: scanning `if c: return; return` makes the running status MIGHT
after the first node with one operation remaining, so the guarding step fires; but the
guarded branch receives a return statement, so its status is WILL, not WONT, and the
block's final status is WILL where the claimed WILL/WONT-by-construction merge would
yield MIGHT. -/
theorem C2_counterexample :
    nodeStatus c2ctx (processNode 9 c2ctx ⟨c2ctx.falseV, []⟩ c2if ⟨3, []⟩) =
        some .MIGHT ∧
      scanStatus c2ctx (scanNodes 10 c2ctx ⟨c2ctx.falseV, []⟩ c2nodes [] ⟨3, []⟩) =
        some .WILL :=
  ⟨rfl, rfl⟩

/-- C2 (amended): the guarding step wraps the remaining operations in a fresh conditional
on `hasExited` whose exited branch holds placeholders for the block outputs plus an exit
operation carrying the pair's exit values and whose other branch receives the moved
remaining operations with the original outputs, replaces the block's outputs with the
conditional's fresh outputs, and recurses: it transforms both branches and applies the
conditional merge rule.  The exited branch always lands at status WILL, but the guarded
branch's status is whatever the remaining operations produce — not WONT by
construction. -/
theorem C2_guard_amended (f : Nat) (ctx : Ctx) (p : ExitPair) (rest : List ENode)
    (outs vals phs : List Value) (st : St) :
    guardNodes (f + 2) ctx p rest outs st =
      (do
        let phs2 ← matchUninit outs
        let fresh2 ← freshList outs
        let (thn1, q1) ← transformExits f ctx .ifB ⟨[], [ENode.exitN ctx.ek p.vals], phs2⟩
        let (els1, q2) ← transformExits f ctx .ifB ⟨[], rest, outs⟩
        let (n1, p1) ← mergeIf ctx p.hasEx fresh2 thn1 els1 q1 q2
        pure (n1, fresh2, p1)) st ∧
    transformExits (f + 3) ctx .ifB ⟨[], [ENode.exitN ctx.ek vals], phs⟩ st =
      .ok ((⟨[], [], phs⟩, ⟨ctx.trueV, vals⟩), st) := by
  constructor
  · simp only [guardNodes, transformIfOn]
    simp only [bind_run]
    cases hm : matchUninit outs st with
    | error e => rfl
    | ok am =>
      obtain ⟨phs2, st2⟩ := am
      dsimp only
      cases hf : freshList outs st2 with
      | error e => rfl
      | ok af =>
        obtain ⟨fresh2, st3⟩ := af
        dsimp only
        cases ht : transformExits f ctx .ifB ⟨[], [ENode.exitN ctx.ek p.vals], phs2⟩ st3 with
        | error e => rfl
        | ok at1 =>
          obtain ⟨⟨thn1, q1⟩, st4⟩ := at1
          dsimp only
          cases he : transformExits f ctx .ifB ⟨[], rest, outs⟩ st4 with
          | error e => rfl
          | ok ae1 =>
            obtain ⟨⟨els1, q2⟩, st5⟩ := ae1
            dsimp only
  · have h1 : processNode (f + 1) ctx ⟨ctx.falseV, []⟩ (ENode.exitN ctx.ek vals) =
        pure ([], (⟨ctx.trueV, vals⟩ : ExitPair)) := by
      simp [processNode]
    have h2 : scanNodes (f + 2) ctx ⟨ctx.falseV, []⟩ [ENode.exitN ctx.ek vals] phs st =
        .ok (([], phs, ⟨ctx.trueV, vals⟩), st) := by
      simp only [scanNodes, bind_run, h1, pure_run]
      rw [statusOf_trueV]
      simp [deleteRest, deleteRestRev]
    simp only [transformExits, bind_run, h2]
    rw [isTarget_ifB]
    simp

theorem findUnit_ty {t : Ty} {v : Value} : ∀ {units : List (Ty × Value)},
    (∀ q ∈ units, (q.2).ty = q.1) → findUnit t units = some v → v.ty = t := by
  intro units
  induction units with
  | nil => intro _ h; exact Option.noConfusion h
  | cons q rest ih =>
    intro hwf h
    obtain ⟨t2, v2⟩ := q
    unfold findUnit at h
    by_cases he : t2 = t
    · rw [if_pos he] at h
      injection h with h
      subst h
      have h2 := hwf (t2, v2) (List.mem_cons_self _ _)
      simp only at h2
      rw [h2, he]
    · rw [if_neg he] at h
      exact ih (fun q hq => hwf q (List.mem_cons_of_mem _ hq)) h

theorem getUnitValue_ty {t : Ty} {st : St} {v : Value} {st1 : St}
    (hwf : ∀ q ∈ st.units, (q.2).ty = q.1) (h : getUnitValue t st = .ok (v, st1)) :
    v.ty = t ∧ ∀ q ∈ st1.units, (q.2).ty = q.1 := by
  unfold getUnitValue at h
  cases hf : findUnit t st.units with
  | some v2 =>
    rw [hf] at h
    simp only [Except.ok.injEq, Prod.mk.injEq] at h
    obtain ⟨hv, hst⟩ := h
    subst hv; subst hst
    exact ⟨findUnit_ty hwf hf, hwf⟩
  | none =>
    rw [hf] at h
    simp only [Except.ok.injEq, Prod.mk.injEq] at h
    obtain ⟨hv, hst⟩ := h
    subst hv; subst hst
    refine ⟨rfl, ?_⟩
    intro q hq
    simp only [List.mem_append, List.mem_singleton] at hq
    rcases hq with hq | hq
    · exact hwf q hq
    · subst hq; rfl

theorem matchUninit_spec : ∀ (vs : List Value) (st : St) (us : List Value) (st1 : St),
    (∀ q ∈ st.units, (q.2).ty = q.1) → matchUninit vs st = .ok (us, st1) →
    us.map (fun v => v.ty) = vs.map (fun v => v.ty) ∧
      ∀ q ∈ st1.units, (q.2).ty = q.1 := by
  intro vs
  induction vs with
  | nil =>
    intro st us st1 hwf h
    simp only [matchUninit, pure_run, Except.ok.injEq, Prod.mk.injEq] at h
    obtain ⟨hu, hst⟩ := h
    subst hu; subst hst
    exact ⟨rfl, hwf⟩
  | cons v vs ih =>
    intro st us st1 hwf h
    simp only [matchUninit, bind_run] at h
    cases hu : getUnitValue v.ty st with
    | error e => rw [hu] at h; exact Except.noConfusion h
    | ok au =>
      obtain ⟨u, st2⟩ := au
      rw [hu] at h
      dsimp only at h
      cases hm : matchUninit vs st2 with
      | error e => rw [hm] at h; exact Except.noConfusion h
      | ok am =>
        obtain ⟨us0, st3⟩ := am
        rw [hm] at h
        dsimp only at h
        simp only [pure_run, Except.ok.injEq, Prod.mk.injEq] at h
        obtain ⟨hus, hst⟩ := h
        subst hus; subst hst
        obtain ⟨hty, hwf2⟩ := getUnitValue_ty hwf hu
        obtain ⟨hmap, hwf3⟩ := ih st2 us0 st3 hwf2 hm
        exact ⟨by simp [hty, hmap], hwf3⟩

theorem zipUnifyOuts_length : ∀ (ts fs : List Value) (st : St) (nvs : List Value)
    (st1 : St), zipUnifyOuts ts fs st = .ok (nvs, st1) → nvs.length = ts.length := by
  intro ts
  induction ts with
  | nil =>
    intro fs st nvs st1 h
    simp only [zipUnifyOuts, pure_run, Except.ok.injEq, Prod.mk.injEq] at h
    obtain ⟨hn, _⟩ := h
    subst hn
    rfl
  | cons t ts ih =>
    intro fs st nvs st1 h
    cases fs with
    | nil =>
      simp only [zipUnifyOuts, throwM] at h
      exact Except.noConfusion h
    | cons fo fs =>
      simp only [zipUnifyOuts] at h
      cases hu : unifyTypes t.ty fo.ty with
      | none =>
        rw [hu] at h
        simp only [throwM] at h
        exact Except.noConfusion h
      | some u =>
        rw [hu] at h
        simp only [bind_run, freshVal] at h
        cases hz : zipUnifyOuts ts fs ⟨st.fresh + 1, st.units⟩ with
        | error e => rw [hz] at h; exact Except.noConfusion h
        | ok az =>
          obtain ⟨vs, st2⟩ := az
          rw [hz] at h
          simp only [pure_run, Except.ok.injEq, Prod.mk.injEq] at h
          obtain ⟨hn, _⟩ := h
          subst hn
          simp [ih _ _ _ _ hz]

theorem zipUnifyOuts_single {a b : Value} {st : St} {nvs : List Value} {st1 : St}
    (h : zipUnifyOuts [a] [b] st = .ok (nvs, st1)) :
    ∃ u, unifyTypes a.ty b.ty = some u ∧ nvs = [⟨st.fresh, u⟩] ∧
      st1 = ⟨st.fresh + 1, st.units⟩ := by
  simp only [zipUnifyOuts] at h
  cases hu : unifyTypes a.ty b.ty with
  | none =>
    rw [hu] at h
    simp only [throwM] at h
    exact Except.noConfusion h
  | some u =>
    rw [hu] at h
    simp only [bind_run, freshVal, pure_run, Except.ok.injEq, Prod.mk.injEq] at h
    obtain ⟨hn, hst⟩ := h
    exact ⟨u, rfl, hn.symm, hst.symm⟩

theorem backfill_cases {ctx : Ctx} {p1 p2 : ExitPair} {st : St}
    {res : ExitPair × ExitPair} {st2 : St} (h : backfill ctx p1 p2 st = .ok (res, st2)) :
    (statusOf ctx p1 = .WONT ∧ ∃ phs, matchUninit p2.vals st = .ok (phs, st2) ∧
        res = (⟨ctx.falseV, phs⟩, p2)) ∨
    (statusOf ctx p1 ≠ .WONT ∧ statusOf ctx p2 = .WONT ∧
        ∃ phs, matchUninit p1.vals st = .ok (phs, st2) ∧
          res = (p1, ⟨ctx.falseV, phs⟩)) ∨
    (statusOf ctx p1 ≠ .WONT ∧ statusOf ctx p2 ≠ .WONT ∧ res = (p1, p2) ∧ st2 = st) := by
  unfold backfill at h
  by_cases h1 : statusOf ctx p1 = .WONT
  · rw [if_pos h1] at h
    simp only [bind_run] at h
    cases hm : matchUninit p2.vals st with
    | error e => rw [hm] at h; exact Except.noConfusion h
    | ok am =>
      obtain ⟨phs, st3⟩ := am
      rw [hm] at h
      simp only [pure_run, Except.ok.injEq, Prod.mk.injEq] at h
      obtain ⟨hr, hst⟩ := h
      subst hst
      exact Or.inl ⟨h1, phs, rfl, hr.symm⟩
  · rw [if_neg h1] at h
    by_cases h2 : statusOf ctx p2 = .WONT
    · rw [if_pos h2] at h
      simp only [bind_run] at h
      cases hm : matchUninit p1.vals st with
      | error e => rw [hm] at h; exact Except.noConfusion h
      | ok am =>
        obtain ⟨phs, st3⟩ := am
        rw [hm] at h
        simp only [pure_run, Except.ok.injEq, Prod.mk.injEq] at h
        obtain ⟨hr, hst⟩ := h
        subst hst
        exact Or.inr (Or.inl ⟨h1, h2, phs, rfl, hr.symm⟩)
    · rw [if_neg h2] at h
      simp only [pure_run, Except.ok.injEq, Prod.mk.injEq] at h
      obtain ⟨hr, hst⟩ := h
      exact Or.inr (Or.inr ⟨h1, h2, hr.symm, hst.symm⟩)

/-- C3: the conditional merge rule of exit normalization: if both branches are WONT the
merged status is the WONT pair and nothing is added (node, outputs and state untouched);
if both are WILL the merged pair carries the cached true constant with one fresh paired
output per exit value and no extra boolean output; if exactly one side is WONT it is
backfilled with the false constant and placeholders type-matched to the other side's
exit values; and in every remaining case one extra paired boolean output is added and
the merged status is MIGHT. -/
theorem C3_merge_rule {ctx : Ctx} {cond : Value} {outs : List Value}
    {thn1 els1 : EBlock} {p1 p2 : ExitPair} {st : St} {n1 : ENode} {pr : ExitPair}
    {st1 : St} (hwf : ∀ q ∈ st.units, (q.2).ty = q.1)
    (h : mergeIf ctx cond outs thn1 els1 p1 p2 st = .ok ((n1, pr), st1)) :
    (statusOf ctx p1 = .WONT → statusOf ctx p2 = .WONT →
      n1 = .ite cond outs thn1 els1 ∧ pr = ⟨ctx.falseV, []⟩ ∧ st1 = st) ∧
    (statusOf ctx p1 = .WILL → statusOf ctx p2 = .WILL →
      ∃ nvs, nvs.length = p1.vals.length ∧ pr = ⟨ctx.trueV, nvs⟩ ∧
        n1 = .ite cond (outs ++ nvs) ⟨thn1.ins, thn1.nodes, thn1.outs ++ p1.vals⟩
          ⟨els1.ins, els1.nodes, els1.outs ++ p2.vals⟩) ∧
    (statusOf ctx p1 = .WONT → statusOf ctx p2 ≠ .WONT →
      ∃ phs c2 nouts thn2 els2,
        phs.map (fun v => v.ty) = p2.vals.map (fun v => v.ty) ∧
        iteParts n1 = some (c2, nouts, thn2, els2) ∧
        thn2.outs = thn1.outs ++ ctx.falseV :: phs) ∧
    (statusOf ctx p2 = .WONT → statusOf ctx p1 ≠ .WONT →
      ∃ phs c2 nouts thn2 els2,
        phs.map (fun v => v.ty) = p1.vals.map (fun v => v.ty) ∧
        iteParts n1 = some (c2, nouts, thn2, els2) ∧
        els2.outs = els1.outs ++ ctx.falseV :: phs) ∧
    (¬(statusOf ctx p1 = .WONT ∧ statusOf ctx p2 = .WONT) →
      ¬(statusOf ctx p1 = .WILL ∧ statusOf ctx p2 = .WILL) →
      ctx.trueV.vid < st.fresh → ctx.falseV.vid < st.fresh →
      statusOf ctx pr = .MIGHT ∧
        (nodeOuts n1).length = outs.length + 1 + pr.vals.length) := by
  unfold mergeIf at h
  by_cases hw : statusOf ctx p1 = .WONT ∧ statusOf ctx p2 = .WONT
  · rw [if_pos hw] at h
    simp only [pure_run, Except.ok.injEq, Prod.mk.injEq] at h
    obtain ⟨⟨hn1, hpr⟩, hst⟩ := h
    refine ⟨fun _ _ => ⟨hn1.symm, hpr.symm, hst.symm⟩, ?_, ?_, ?_, ?_⟩
    · intro h1 _
      rw [hw.1] at h1
      exact ExitStatus.noConfusion h1
    · intro _ h2
      exact absurd hw.2 h2
    · intro _ h2
      exact absurd hw.1 h2
    · intro hnw _ _ _
      exact absurd hw hnw
  · rw [if_neg hw] at h
    simp only [bind_run] at h
    cases hq : backfill ctx p1 p2 st with
    | error e => rw [hq] at h; exact Except.noConfusion h
    | ok aq =>
      obtain ⟨⟨q1, q2⟩, st2⟩ := aq
      rw [hq] at h
      dsimp only at h
      have hbmono := (backfill_spec hq).1
      by_cases hww : statusOf ctx p1 = .WILL ∧ statusOf ctx p2 = .WILL
      · rw [if_pos hww] at h
        simp only [bind_run] at h
        have hqq := (backfill_spec hq).2 hww.1 hww.2
        have hq1 : q1 = p1 := congrArg Prod.fst hqq
        have hq2 : q2 = p2 := congrArg Prod.snd hqq
        rw [hq1, hq2] at h
        cases ha : addIfOutputs thn1 els1 outs p1.vals p2.vals st2 with
        | error e => rw [ha] at h; exact Except.noConfusion h
        | ok aa =>
          rw [ha] at h
          dsimp only at h
          obtain ⟨nvs, st3, hz, hr⟩ := addIfOutputs_spec ha
          subst hr
          dsimp only at h
          simp only [pure_run, Except.ok.injEq, Prod.mk.injEq] at h
          obtain ⟨⟨hn1, hpr⟩, hst⟩ := h
          refine ⟨?_, ?_, ?_, ?_, ?_⟩
          · intro h1 _
            rw [hww.1] at h1
            exact ExitStatus.noConfusion h1
          · intro _ _
            exact ⟨nvs, zipUnifyOuts_length _ _ _ _ _ hz, hpr.symm, hn1.symm⟩
          · intro h1 _
            rw [hww.1] at h1
            exact ExitStatus.noConfusion h1
          · intro h1 _
            rw [hww.2] at h1
            exact ExitStatus.noConfusion h1
          · intro _ hnww
            exact absurd hww hnww
      · rw [if_neg hww] at h
        simp only [bind_run] at h
        cases ha : addIfOutputs thn1 els1 outs [q1.hasEx] [q2.hasEx] st2 with
        | error e => rw [ha] at h; exact Except.noConfusion h
        | ok ab =>
          rw [ha] at h
          dsimp only at h
          obtain ⟨nvb, st3, hzb, hrb⟩ := addIfOutputs_spec ha
          subst hrb
          dsimp only at h
          cases hc : addIfOutputs ⟨thn1.ins, thn1.nodes, thn1.outs ++ [q1.hasEx]⟩
              ⟨els1.ins, els1.nodes, els1.outs ++ [q2.hasEx]⟩ (outs ++ nvb) q1.vals
              q2.vals st3 with
          | error e => rw [hc] at h; exact Except.noConfusion h
          | ok ac =>
            rw [hc] at h
            dsimp only at h
            obtain ⟨nvs, st4, hzc, hrc⟩ := addIfOutputs_spec hc
            subst hrc
            dsimp only at h
            simp only [pure_run, Except.ok.injEq, Prod.mk.injEq] at h
            obtain ⟨⟨hn1, hpr⟩, hst⟩ := h
            obtain ⟨u, hu, hnvb, hst3⟩ := zipUnifyOuts_single hzb
            refine ⟨?_, ?_, ?_, ?_, ?_⟩
            · intro h1 h2
              exact absurd ⟨h1, h2⟩ hw
            · intro h1 h2
              exact absurd ⟨h1, h2⟩ hww
            · intro h1 h2
              rcases backfill_cases hq with hb | hb | hb
              · obtain ⟨_, phs, hm, hres⟩ := hb
                have hq1 : q1 = ⟨ctx.falseV, phs⟩ := congrArg Prod.fst hres
                have hmap := (matchUninit_spec p2.vals st phs st2 hwf hm).1
                refine ⟨phs, cond, outs ++ nvb ++ nvs,
                  ⟨thn1.ins, thn1.nodes, (thn1.outs ++ [q1.hasEx]) ++ q1.vals⟩,
                  ⟨els1.ins, els1.nodes, (els1.outs ++ [q2.hasEx]) ++ q2.vals⟩,
                  hmap, ?_, ?_⟩
                · rw [← hn1]
                  rfl
                · rw [hq1]
                  simp
              · exact absurd h1 hb.1
              · exact absurd h1 hb.1
            · intro h1 h2
              rcases backfill_cases hq with hb | hb | hb
              · exact absurd hb.1 h2
              · obtain ⟨_, _, phs, hm, hres⟩ := hb
                have hq2 : q2 = ⟨ctx.falseV, phs⟩ := congrArg Prod.snd hres
                have hmap := (matchUninit_spec p1.vals st phs st2 hwf hm).1
                refine ⟨phs, cond, outs ++ nvb ++ nvs,
                  ⟨thn1.ins, thn1.nodes, (thn1.outs ++ [q1.hasEx]) ++ q1.vals⟩,
                  ⟨els1.ins, els1.nodes, (els1.outs ++ [q2.hasEx]) ++ q2.vals⟩,
                  hmap, ?_, ?_⟩
                · rw [← hn1]
                  rfl
                · rw [hq2]
                  simp
              · exact absurd h1 hb.2.1
            · intro _ _ hlt1 hlt2
              constructor
              · rw [← hpr, hnvb]
                dsimp only [List.headD]
                have hne1 : ¬(st2.fresh = ctx.trueV.vid) := by omega
                have hne2 : ¬(st2.fresh = ctx.falseV.vid) := by omega
                simp [statusOf, hne1, hne2]
              · rw [← hn1, ← hpr]
                simp [nodeOuts, hnvb]
                omega

theorem C3_witness :
    ∃ nvs : List Value, nvs.length = c3p1.vals.length ∧
      (⟨⟨0, .bool⟩, [⟨7, .int⟩]⟩ : ExitPair) = ⟨c3ctx.trueV, nvs⟩ ∧
      (ENode.ite ⟨2, .bool⟩ [⟨7, .int⟩] ⟨[], [], [⟨5, .int⟩]⟩ ⟨[], [], [⟨6, .int⟩]⟩ : ENode)
        = .ite ⟨2, .bool⟩ ([] ++ nvs) ⟨[], [], [] ++ c3p1.vals⟩
            ⟨[], [], [] ++ c3p2.vals⟩ := by
  have h : mergeIf c3ctx ⟨2, .bool⟩ [] ⟨[], [], []⟩ ⟨[], [], []⟩ c3p1 c3p2 ⟨7, []⟩ =
      .ok ((.ite ⟨2, .bool⟩ [⟨7, .int⟩] ⟨[], [], [⟨5, .int⟩]⟩ ⟨[], [], [⟨6, .int⟩]⟩,
        ⟨⟨0, .bool⟩, [⟨7, .int⟩]⟩), ⟨8, []⟩) := rfl
  exact (C3_merge_rule (by simp) h).2.1 rfl rfl

theorem loopExtras_spec : ∀ (vs : List Value) (st : St) (units nouts nins : List Value)
    (st1 : St), (∀ q ∈ st.units, (q.2).ty = q.1) →
    loopExtras vs st = .ok ((units, nouts, nins), st1) →
    units.map (fun v => v.ty) = vs.map (fun v => v.ty) ∧
    nouts.map (fun v => v.ty) = vs.map (fun v => v.ty) ∧
    nins.map (fun v => v.ty) = vs.map (fun v => v.ty) ∧
    ∀ q ∈ st1.units, (q.2).ty = q.1 := by
  intro vs
  induction vs with
  | nil =>
    intro st units nouts nins st1 hwf h
    simp only [loopExtras, pure_run, Except.ok.injEq, Prod.mk.injEq] at h
    obtain ⟨⟨hu, ho, hi⟩, hst⟩ := h
    subst hu; subst ho; subst hi; subst hst
    exact ⟨rfl, rfl, rfl, hwf⟩
  | cons v vs ih =>
    intro st units nouts nins st1 hwf h
    simp only [loopExtras, bind_run, freshVal] at h
    cases hu : getUnitValue v.ty st with
    | error e => rw [hu] at h; exact Except.noConfusion h
    | ok au =>
      obtain ⟨u, st2⟩ := au
      rw [hu] at h
      dsimp only at h
      cases hle : loopExtras vs ⟨st2.fresh + 1 + 1, st2.units⟩ with
      | error e => rw [hle] at h; exact Except.noConfusion h
      | ok ale =>
        obtain ⟨⟨us, os, bs⟩, st3⟩ := ale
        rw [hle] at h
        dsimp only at h
        simp only [pure_run, Except.ok.injEq, Prod.mk.injEq] at h
        obtain ⟨⟨hus, hos, his⟩, hst⟩ := h
        subst hus; subst hos; subst his; subst hst
        obtain ⟨hty, hwf2⟩ := getUnitValue_ty hwf hu
        obtain ⟨h1, h2, h3, h4⟩ := ih ⟨st2.fresh + 1 + 1, st2.units⟩ us os bs st3 hwf2 hle
        exact ⟨by simp [hty, h1], by simp [h2], by simp [h3], h4⟩

/-- C4: the loop rewrite of exit normalization: when the transformed body's status is
WONT the loop node is rebuilt unchanged around the new body; otherwise the continuation
condition is rewritten to a synthesized conditional `if hasExited then false else
original_next_condition` installed as body output 0, the loop gains one boolean
input/output pair (input the false constant, output carried from the body's
`hasExited`) plus one type-matched input/output pair per exit payload value (inputs
initialized to placeholders), and the reported pair is the loop's new `hasExited`
output with the new exit-value outputs. -/
theorem C4_loop_rewrite {f : Nat} {ctx : Ctx} {mt c : Value} {carried outs : List Value}
    {body : EBlock} {st : St} {body1 : EBlock} {p : ExitPair} {st2 : St} {n1 : ENode}
    {pr : ExitPair} {st1 : St}
    (hb : transformExits f ctx .loopB body st = .ok ((body1, p), st2))
    (hwf2 : ∀ q ∈ st2.units, (q.2).ty = q.1)
    (h : transformLoopOn (f + 1) ctx mt c carried outs body st = .ok ((n1, pr), st1)) :
    (statusOf ctx p = .WONT →
      n1 = .loopN mt c carried outs body1 ∧ pr = p ∧ st1 = st2) ∧
    (statusOf ctx p ≠ .WONT →
      ∃ c0 restOuts newCond bIn hasExOut units nouts nins,
        body1.outs = c0 :: restOuts ∧
        units.map (fun v => v.ty) = p.vals.map (fun v => v.ty) ∧
        nouts.map (fun v => v.ty) = p.vals.map (fun v => v.ty) ∧
        nins.map (fun v => v.ty) = p.vals.map (fun v => v.ty) ∧
        n1 = .loopN mt c (carried ++ ctx.falseV :: units) (outs ++ hasExOut :: nouts)
          ⟨body1.ins ++ bIn :: nins,
            body1.nodes ++
              [.ite p.hasEx [newCond] ⟨[], [], [ctx.falseV]⟩ ⟨[], [], [c0]⟩],
            newCond :: restOuts ++ p.hasEx :: p.vals⟩ ∧
        pr = ⟨hasExOut, nouts⟩) := by
  simp only [transformLoopOn, bind_run] at h
  rw [hb] at h
  dsimp only at h
  by_cases hs : statusOf ctx p = .WONT
  · rw [if_pos hs] at h
    simp only [pure_run, Except.ok.injEq, Prod.mk.injEq] at h
    obtain ⟨⟨hn, hp⟩, hst⟩ := h
    exact ⟨fun _ => ⟨hn.symm, hp.symm, hst.symm⟩, fun hne => absurd hs hne⟩
  · rw [if_neg hs] at h
    refine ⟨fun hy => absurd hy hs, fun _ => ?_⟩
    unfold loopPropagate at h
    cases hbo : body1.outs with
    | nil => rw [hbo] at h; exact Except.noConfusion h
    | cons c0 restOuts =>
      rw [hbo] at h
      simp only [bind_run, freshVal] at h
      cases hle : loopExtras p.vals ⟨st2.fresh + 1 + 1 + 1, st2.units⟩ with
      | error e => rw [hle] at h; exact Except.noConfusion h
      | ok ale =>
        obtain ⟨⟨units, nouts, nins⟩, st3⟩ := ale
        rw [hle] at h
        dsimp only at h
        simp only [pure_run, Except.ok.injEq, Prod.mk.injEq] at h
        obtain ⟨⟨hn, hp⟩, hst⟩ := h
        obtain ⟨hu, ho, hi, _⟩ := loopExtras_spec p.vals ⟨st2.fresh + 1 + 1 + 1, st2.units⟩ units nouts nins st3 hwf2 hle
        exact ⟨c0, restOuts, ⟨st2.fresh, .bool⟩, ⟨st2.fresh + 1, .bool⟩,
          ⟨st2.fresh + 2, .bool⟩, units, nouts, nins, rfl, hu, ho, hi, hn.symm, hp.symm⟩

theorem C4_witness :
    ∃ c0 restOuts newCond bIn hasExOut units nouts nins,
      ([⟨2, Ty.bool⟩] : List Value) = c0 :: restOuts ∧
      List.map (fun v => v.ty) units = List.map (fun v => v.ty) ([] : List Value) ∧
      List.map (fun v => v.ty) nouts = List.map (fun v => v.ty) ([] : List Value) ∧
      List.map (fun v => v.ty) nins = List.map (fun v => v.ty) ([] : List Value) ∧
      (ENode.loopN ⟨3, .int⟩ ⟨4, .bool⟩ [⟨1, .bool⟩] [⟨9, .bool⟩]
          ⟨[⟨8, .bool⟩],
            [.ite ⟨0, .bool⟩ [⟨7, .bool⟩] ⟨[], [], [⟨1, .bool⟩]⟩ ⟨[], [], [⟨2, .bool⟩]⟩],
            [⟨7, .bool⟩, ⟨0, .bool⟩]⟩ : ENode) =
        .loopN ⟨3, .int⟩ ⟨4, .bool⟩ ([] ++ c4ctx.falseV :: units)
          ([] ++ hasExOut :: nouts)
          ⟨[] ++ bIn :: nins,
            [] ++ [.ite ⟨0, .bool⟩ [newCond] ⟨[], [], [c4ctx.falseV]⟩ ⟨[], [], [c0]⟩],
            newCond :: restOuts ++ (⟨0, .bool⟩ : Value) :: []⟩ ∧
      (⟨⟨9, .bool⟩, []⟩ : ExitPair) = ⟨hasExOut, nouts⟩ := by
  have hb : transformExits 5 c4ctx .loopB c4body ⟨7, []⟩ =
      .ok ((⟨[], [], [⟨2, .bool⟩]⟩, ⟨⟨0, .bool⟩, []⟩), ⟨7, []⟩) := rfl
  have h : transformLoopOn (5 + 1) c4ctx ⟨3, .int⟩ ⟨4, .bool⟩ [] [] c4body ⟨7, []⟩ =
      .ok ((.loopN ⟨3, .int⟩ ⟨4, .bool⟩ [⟨1, .bool⟩] [⟨9, .bool⟩]
          ⟨[⟨8, .bool⟩],
            [.ite ⟨0, .bool⟩ [⟨7, .bool⟩] ⟨[], [], [⟨1, .bool⟩]⟩ ⟨[], [], [⟨2, .bool⟩]⟩],
            [⟨7, .bool⟩, ⟨0, .bool⟩]⟩, ⟨⟨9, .bool⟩, []⟩), ⟨10, []⟩) := rfl
  exact (C4_loop_rewrite hb (by simp) h).2 (by decide)

/-- C5: the exit status a processed loop node reports to the enclosing block is never
WILL and its `hasExited` value is never the cached true constant; it is WONT exactly
when the transformed body's status is WONT (and otherwise MIGHT). -/
theorem C5_loop_never_WILL {f : Nat} {ctx : Ctx} {mt c : Value}
    {carried outs : List Value} {body : EBlock} {st : St} {n1 : ENode} {pr : ExitPair}
    {st1 : St} (hv : ctx.trueV.vid < st.fresh ∧ ctx.falseV.vid < st.fresh)
    (h : transformLoopOn (f + 1) ctx mt c carried outs body st = .ok ((n1, pr), st1)) :
    statusOf ctx pr ≠ .WILL ∧ pr.hasEx ≠ ctx.trueV ∧
    ∀ body1 p st2, transformExits f ctx .loopB body st = .ok ((body1, p), st2) →
      (statusOf ctx pr = .WONT ↔ statusOf ctx p = .WONT) := by
  simp only [transformLoopOn, bind_run] at h
  cases hb : transformExits f ctx .loopB body st with
  | error e => rw [hb] at h; exact Except.noConfusion h
  | ok ab =>
    obtain ⟨⟨body1, p⟩, st2⟩ := ab
    rw [hb] at h
    dsimp only at h
    have hmono := ((master f).1 ctx .loopB body st).1 body1 p st2 hb
    by_cases hs : statusOf ctx p = .WONT
    · rw [if_pos hs] at h
      simp only [pure_run, Except.ok.injEq, Prod.mk.injEq] at h
      obtain ⟨⟨hn, hp⟩, hst⟩ := h
      subst hn; subst hst
      have hpr : pr = p := hp.symm
      subst hpr
      refine ⟨?_, ?_, ?_⟩
      · rw [hs]
        exact fun hc => ExitStatus.noConfusion hc
      · intro hc
        unfold statusOf at hs
        rw [hc] at hs
        simp at hs
      · intro body1x px st2x hbx
        injection hbx with hbx
        injection hbx with hbx hst2
        injection hbx with hb1 hpx
        rw [hpx]
    · rw [if_neg hs] at h
      unfold loopPropagate at h
      cases hbo : body1.outs with
      | nil => rw [hbo] at h; exact Except.noConfusion h
      | cons c0 restOuts =>
        rw [hbo] at h
        simp only [bind_run, freshVal] at h
        cases hle : loopExtras p.vals ⟨st2.fresh + 1 + 1 + 1, st2.units⟩ with
        | error e => rw [hle] at h; exact Except.noConfusion h
        | ok ale =>
          obtain ⟨⟨units, nouts, nins⟩, st3⟩ := ale
          rw [hle] at h
          dsimp only at h
          simp only [pure_run, Except.ok.injEq, Prod.mk.injEq] at h
          obtain ⟨⟨hn, hp⟩, hst⟩ := h
          have hpr : pr = ⟨⟨st2.fresh + 2, .bool⟩, nouts⟩ := by
            rw [← hp]
          have hfr : st.fresh ≤ st2.fresh := hmono.1
          have hne1 : ¬(st2.fresh + 2 = ctx.trueV.vid) := by omega
          have hne2 : ¬(st2.fresh + 2 = ctx.falseV.vid) := by omega
          have hsm : statusOf ctx pr = .MIGHT := by
            rw [hpr]
            simp [statusOf, hne1, hne2]
          refine ⟨?_, ?_, ?_⟩
          · rw [hsm]
            exact fun hc => ExitStatus.noConfusion hc
          · intro hc
            rw [hpr] at hc
            have : st2.fresh + 2 = ctx.trueV.vid := congrArg Value.vid hc
            omega
          · intro body1x px st2x hbx
            injection hbx with hbx
            injection hbx with hbx hst2
            injection hbx with hb1 hpx
            rw [hsm, ← hpx]
            constructor
            · intro hc
              exact absurd hc.symm (by intro hcc; exact ExitStatus.noConfusion hcc)
            · intro hc
              exact absurd hc hs

theorem C5_witness :
    statusOf c5ctx ⟨⟨7, .bool⟩, []⟩ ≠ .WILL ∧
    (⟨⟨7, .bool⟩, []⟩ : ExitPair).hasEx ≠ c5ctx.trueV ∧
    ∀ body1 p st2, transformExits 5 c5ctx .loopB c5body ⟨5, []⟩ =
        .ok ((body1, p), st2) →
      (statusOf c5ctx ⟨⟨7, .bool⟩, []⟩ = .WONT ↔ statusOf c5ctx p = .WONT) := by
  have h : transformLoopOn (5 + 1) c5ctx ⟨3, .int⟩ ⟨4, .bool⟩ [] [] c5body ⟨5, []⟩ =
      .ok ((.loopN ⟨3, .int⟩ ⟨4, .bool⟩ [⟨1, .bool⟩] [⟨7, .bool⟩]
          ⟨[⟨6, .bool⟩],
            [.ite ⟨0, .bool⟩ [⟨5, .bool⟩] ⟨[], [], [⟨1, .bool⟩]⟩ ⟨[], [], [⟨2, .int⟩]⟩],
            [⟨5, .bool⟩, ⟨0, .bool⟩]⟩, ⟨⟨7, .bool⟩, []⟩), ⟨8, []⟩) := rfl
  exact C5_loop_never_WILL (by decide) h

end ExitT

namespace SSA
/-- The SSA-side passes reuse the value/type substrate of the exit normalizer's
embedding. -/
abbrev Ty := ExitT.Ty

abbrev Value := ExitT.Value

/-- Failure modes: fuel exhaustion of the embedding, the renamer's internal assertion
(an unbound load), and fatal arity/unification violations. -/
inductive Err where
  | fuel
  | unbound
  | arity
  | unify
  deriving DecidableEq, Repr

/-- State-error monad over the graph's fresh value-id counter. -/
def M (α : Type) : Type := Nat → Except Err (α × Nat)

instance : Monad M where
  pure a := fun s => .ok (a, s)
  bind x f := fun s => match x s with
    | .ok (a, s1) => f a s1
    | .error e => .error e

def throwM {α : Type} (e : Err) : M α := fun _ => .error e

def freshVal (t : Ty) : M Value := fun s => .ok (⟨s, t⟩, s + 1)

/-- The IR subset the SSA-conversion pipeline operates on: named load/store operations,
constants, placeholders, the break/continue/escape sentinels, control flow, nested
functions, and primitive operator applications. -/
inductive SNode where
  | store (name : String) (v : Value)
  | load (name : String) (out : Value)
  | uninitN (out : Value)
  | constB (b : Bool) (out : Value)
  | constI (n : Int) (out : Value)
  | varEscape
  | breakS
  | continueS
  | ifN (cond : Value) (outs : List Value) (thn els : ExitT.Blk SNode)
  | loopN (mod : Bool) (ins : List Value) (outs : List Value) (body : ExitT.Blk SNode)
      (pre : Option (ExitT.Blk SNode))
  | fnN (outs : List Value) (body : ExitT.Blk SNode)
  | binop (op : String) (a b : Value) (out : Value)

abbrev SBlock := ExitT.Blk SNode

/-- Model of `MiniEnvironment::findInThisFrame`. -/
def findInThisFrame {α : Type} (nm : String) : List (String × α) → Option α
  | [] => none
  | (n2, v) :: rest => if n2 = nm then some v else findInThisFrame nm rest

/-- Model of `MiniEnvironment::findInAnyFrame`: walk outward through the scope chain. -/
def findInAnyFrame {α : Type} (nm : String) : List (List (String × α)) → Option α
  | [] => none
  | f :: rest =>
    match findInThisFrame nm f with
    | some v => some v
    | none => findInAnyFrame nm rest

/-- Model of `MiniEnvironment::setVar` on a single frame. -/
def setVar {α : Type} (nm : String) (v : α) : List (String × α) → List (String × α)
  | [] => [(nm, v)]
  | (n2, v2) :: rest => if n2 = nm then (nm, v) :: rest else (n2, v2) :: setVar nm v rest

/-- Model of `environment_stack->setVar`: update the innermost frame's binding. -/
def setVarE {α : Type} (nm : String) (v : α) :
    List (List (String × α)) → List (List (String × α))
  | [] => [[(nm, v)]]
  | f :: rest => setVar nm v f :: rest

/-- Codepoint-wise lexicographic comparison (the `std::set<std::string>` order; byte
order and codepoint order agree on the ASCII names this pass handles). -/
def strLtB : List Char → List Char → Bool
  | [], [] => false
  | [], _ :: _ => true
  | _ :: _, [] => false
  | a :: as, b :: bs =>
    if a.toNat < b.toNat then true
    else if b.toNat < a.toNat then false
    else strLtB as bs

def strLt (a b : String) : Bool := strLtB a.data b.data

def sortedInsert (s : String) : List String → List String
  | [] => [s]
  | t :: ts =>
    if s = t then t :: ts
    else if strLt s t then s :: t :: ts
    else t :: sortedInsert s ts

def sortedKeys {α : Type} (f : List (String × α)) : List String :=
  f.foldr (fun q acc => sortedInsert q.1 acc) []

/-- Modelled from the spec: `definedVariables()` is "the set of names each branch
defines/mutates" — the keys of the frame's own table (the enclosing frames reached
through `next` are not included); its member declaration is not among the provided
sources.  Iteration order is modelled as sorted, matching the `std::set` ordering used
by `addIfLoadStores`' consumer of these names. -/
def definedVariables {α : Type} (f : List (String × α)) : List String := sortedKeys f

/-- Type environments of the load/store threader. -/
abbrev FrameT := List (String × Ty)

abbrev EnvT := List FrameT

/-- Value environments of the SSA renamer. -/
abbrev FrameV := List (String × Value)

abbrev EnvV := List FrameV

def substV (oldId : Nat) (nv : Value) (v : Value) : Value := if v.vid = oldId then nv else v

def substVs (oldId : Nat) (nv : Value) (vs : List Value) : List Value :=
  vs.map (substV oldId nv)

mutual

/-- Model of `Value::replaceAllUsesWith` on a node: rewrite every use (inputs and nested block
uses), leaving definitions (outputs, block inputs) alone. -/
def substN (oldId : Nat) (nv : Value) : SNode → SNode
  | .store nm v => .store nm (substV oldId nv v)
  | .load nm out => .load nm out
  | .uninitN out => .uninitN out
  | .constB b out => .constB b out
  | .constI n out => .constI n out
  | .varEscape => .varEscape
  | .breakS => .breakS
  | .continueS => .continueS
  | .ifN c outs thn els =>
    .ifN (substV oldId nv c) outs (substB oldId nv thn) (substB oldId nv els)
  | .loopN mod ins outs body pre =>
    .loopN mod (substVs oldId nv ins) outs (substB oldId nv body)
      (match pre with
        | some b => some (substB oldId nv b)
        | none => none)
  | .fnN outs body => .fnN outs (substB oldId nv body)
  | .binop op a b out => .binop op (substV oldId nv a) (substV oldId nv b) out

def substL (oldId : Nat) (nv : Value) : List SNode → List SNode
  | [] => []
  | n :: ns => substN oldId nv n :: substL oldId nv ns

def substB (oldId : Nat) (nv : Value) (b : SBlock) : SBlock :=
  ⟨b.ins, substL oldId nv b.nodes, substVs oldId nv b.outs⟩

end

mutual

/-- Number of load and store operations in a node, nested blocks included. -/
def countLSN : SNode → Nat
  | .store _ _ => 1
  | .load _ _ => 1
  | .ifN _ _ thn els => countLSL thn.nodes + countLSL els.nodes
  | .loopN _ _ _ body pre =>
    countLSL body.nodes +
      (match pre with
        | some b => countLSL b.nodes
        | none => 0)
  | .fnN _ body => countLSL body.nodes
  | _ => 0

def countLSL : List SNode → Nat
  | [] => 0
  | n :: ns => countLSN n + countLSL ns

end

def countLSB (b : SBlock) : Nat := countLSL b.nodes

/-- Model of `LoopStatus`: will a block break (resp. continue). -/
inductive LoopStatus where
  | WONT
  | MIGHT
  | WILL
  deriving DecidableEq, Repr

/-- Which statement kind the `LoopTransformer` is removing. -/
inductive Transform where
  | BREAKS
  | CONTINUES
  deriving DecidableEq, Repr

/-- The transformer's per-run context: the transform kind and the cached true/false
constants inserted at the front of the graph by the constructor. -/
structure BCtx where
  tr : Transform
  trueV : Value
  falseV : Value

/-- Model of `LoopTransformer::getVarname`. -/
def getVarname : Transform → String
  | .BREAKS => "$did_break"
  | .CONTINUES => "$did_continue"

/-- Whether a node is the statement kind being transformed (`transformKind()`). -/
def isTransformKind (tr : Transform) : SNode → Bool
  | .breakS => tr = .BREAKS
  | .continueS => tr = .CONTINUES
  | _ => false

/-- The sentinel statement node of the active kind. -/
def transformKindNode : Transform → SNode
  | .BREAKS => .breakS
  | .CONTINUES => .continueS

mutual

/-- Model of `LoopTransformer::handleBreaks`: scan the block, then append a
`Store($did_break/$did_continue, true/false)` when the final status is WILL/WONT (a
MIGHT value is already an output of an if). -/
def handleBreaks : Nat → BCtx → SBlock → M (SBlock × LoopStatus)
  | 0, _, _ => throwM .fuel
  | f + 1, c, b => do
    let (ns1, st) ← hbScan f c b.nodes
    let ns2 :=
      match st with
      | .WILL => ns1 ++ [.store (getVarname c.tr) c.trueV]
      | .WONT => ns1 ++ [.store (getVarname c.tr) c.falseV]
      | .MIGHT => ns1
    pure (⟨b.ins, ns2, b.outs⟩, st)

/-- The node scan of `handleBreaks`: WILL destroys the remaining nodes, MIGHT with
remaining nodes guards them, WONT continues. -/
def hbScan : Nat → BCtx → List SNode → M (List SNode × LoopStatus)
  | 0, _, _ => throwM .fuel
  | _ + 1, _, [] => pure ([], .WONT)
  | f + 1, c, n :: rest =>
    match n with
    | .fnN outs body => do
      let (body1, _) ← handleBreaks f c body
      let (ns1, st) ← hbScan f c rest
      pure (.fnN outs body1 :: ns1, st)
    | .ifN cond outs thn els => do
      let (n1, st) ← handleIf f c cond outs thn els
      match st with
      | .WILL => pure ([n1], .WILL)
      | .MIGHT =>
        match rest with
        | [] => pure ([n1], .MIGHT)
        | _ :: _ => do
          let (sent, gIf, st1) ← guardBlockNodes f c rest
          pure ([n1, sent, gIf], st1)
      | .WONT => do
        let (ns1, st1) ← hbScan f c rest
        pure (n1 :: ns1, st1)
    | .loopN mod ins outs body pre => do
      let n1 ← handleLoop f c mod ins outs body pre
      let (ns1, st1) ← hbScan f c rest
      pure (n1 :: ns1, st1)
    | n2 =>
      if isTransformKind c.tr n2 then pure ([], .WILL)
      else do
        let (ns1, st1) ← hbScan f c rest
        pure (n2 :: ns1, st1)

/-- Model of `LoopTransformer::handleIf`: recurse on both branches and merge the statuses. -/
def handleIf : Nat → BCtx → Value → List Value → SBlock → SBlock → M (SNode × LoopStatus)
  | 0, _, _, _, _, _ => throwM .fuel
  | f + 1, c, cond, outs, thn, els => do
    let (thn1, st1) ← handleBreaks f c thn
    let (els1, st2) ← handleBreaks f c els
    let st :=
      if st1 = .WONT ∧ st2 = .WONT then LoopStatus.WONT
      else if st1 = .WILL ∧ st2 = .WILL then LoopStatus.WILL
      else LoopStatus.MIGHT
    pure (.ifN cond outs thn1 els1, st)

/-- Model of `LoopTransformer::guardBlockNodes`: load the sentinel variable, guard the remaining
nodes with an if on it whose hit block holds `VarEscape` followed by the active
statement kind, and recurse via `handleIf`. -/
def guardBlockNodes : Nat → BCtx → List SNode → M (SNode × SNode × LoopStatus)
  | 0, _, _ => throwM .fuel
  | f + 1, c, rest => do
    let sentOut ← freshVal .bool
    let hit : SBlock := ⟨[], [.varEscape, transformKindNode c.tr], []⟩
    let grd : SBlock := ⟨[], rest, []⟩
    let (gIf, st) ← handleIf f c sentOut [] hit grd
    pure (.load (getVarname c.tr) sentOut, gIf, st)

/-- Model of `LoopTransformer::handleLoop`: transform the body; in the continues pass nothing
more happens; in the breaks pass a WONT body gets the pre-header inlined at its end
(condition prepended to the body outputs), and otherwise the new loop condition
`if did_break then false else original_condition` is appended with its output appended
to the body outputs; the pre-header block is erased either way. -/
def handleLoop : Nat → BCtx → Bool → List Value → List Value → SBlock →
    Option SBlock → M SNode
  | 0, _, _, _, _, _, _ => throwM .fuel
  | f + 1, c, mod, ins, outs, body, pre => do
    let (body1, st) ← handleBreaks f c body
    if c.tr = .CONTINUES then pure (.loopN mod ins outs body1 pre)
    else
      match pre with
      | none => throwM .arity
      | some ph =>
        match ph.outs with
        | [] => throwM .arity
        | c0 :: _ =>
          if st = .WONT then
            pure (.loopN mod ins outs
              ⟨body1.ins, body1.nodes ++ ph.nodes, c0 :: body1.outs⟩ none)
          else do
            let dbOut ← freshVal .bool
            let nlcOut ← freshVal .bool
            pure (.loopN mod ins outs
              ⟨body1.ins,
                body1.nodes ++
                  [.load (getVarname c.tr) dbOut,
                    .ifN dbOut [nlcOut] ⟨[], [], [c.falseV]⟩ ⟨[], ph.nodes, [c0]⟩],
                body1.outs ++ [nlcOut]⟩ none)

end

/-- One `LoopTransformer` run: the constructor inserts the cached true and false
constants at the front of the graph, then `handleBreaks` runs on the top block. -/
def runLoopTransformer (fuel : Nat) (tr : Transform) (g : SBlock) : M SBlock := do
  let tv ← freshVal .bool
  let fv ← freshVal .bool
  let c : BCtx := ⟨tr, tv, fv⟩
  let g1 : SBlock := ⟨g.ins, .constB true tv :: .constB false fv :: g.nodes, g.outs⟩
  let (g2, _) ← handleBreaks fuel c g1
  pure g2

/-- Model of `TransformBreaks`: continues first, then breaks. -/
def TransformBreaks (fuel : Nat) (g : SBlock) : M SBlock := do
  let g1 ← runLoopTransformer fuel .CONTINUES g
  runLoopTransformer fuel .BREAKS g1

/-- The threader reuses the modelled `unifyTypes` external interface of the substrate. -/
def unifyTypes : Ty → Ty → Option Ty := ExitT.unifyTypes

def mkSet (l : List String) : List String := l.foldr sortedInsert []

/-- The `mutated_variables` set of `addIfLoadStores` (lines 112-123): names defined by
one branch's frame such that the other branch's popped environment chain (its frame
followed by the enclosing frames) binds the name anywhere, or the other branch
escapes. -/
def mutatedVars (tEnv fEnv : EnvT) (tEsc fEsc : Bool) : List String :=
  mkSet ((definedVariables (tEnv.headD [])).filter
      (fun v => (findInAnyFrame v fEnv).isSome || fEsc) ++
    (definedVariables (fEnv.headD [])).filter
      (fun v => (findInAnyFrame v tEnv).isSome || tEsc))

/-- The per-name loop of `addIfLoadStores` (lines 129-150): a branch with no binding
gets an uninitialized placeholder store appended (its `WithInsertPoint` is the block
end), both branches get a block-output-producing load, the node gets one output, and
the store after the node accumulates in front of the previously created ones; a name
whose two types fail to unify is skipped. -/
def threadIf : List String → EnvT → EnvT → SBlock → SBlock → List Value →
    M (SBlock × SBlock × List Value × List SNode)
  | [], _, _, thn, els, nouts => pure (thn, els, nouts, [])
  | x :: xs, tEnv, fEnv, thn, els, nouts => do
    let step : M (Option (SBlock × SBlock × Ty)) :=
      match findInAnyFrame x tEnv, findInAnyFrame x fEnv with
      | none, none => throwM .arity
      | none, some ft => do
        let u ← freshVal ft
        pure (some (⟨thn.ins, thn.nodes ++ [.uninitN u, .store x u], thn.outs⟩, els, ft))
      | some tt, none => do
        let u ← freshVal tt
        pure (some (thn, ⟨els.ins, els.nodes ++ [.uninitN u, .store x u], els.outs⟩, tt))
      | some tt, some ft =>
        match unifyTypes tt ft with
        | none => pure none
        | some ot => pure (some (thn, els, ot))
    let r ← step
    match r with
    | none => threadIf xs tEnv fEnv thn els nouts
    | some (thn1, els1, ot) => do
      let tl ← freshVal ot
      let fl ← freshVal ot
      let no ← freshVal ot
      let thn2 : SBlock := ⟨thn1.ins, thn1.nodes ++ [.load x tl], thn1.outs ++ [tl]⟩
      let els2 : SBlock := ⟨els1.ins, els1.nodes ++ [.load x fl], els1.outs ++ [fl]⟩
      let (t3, e3, n3, f3) ← threadIf xs tEnv fEnv thn2 els2 (nouts ++ [no])
      pure (t3, e3, n3, f3 ++ [.store x no])

/-- The per-name loop of `addLoopLoadStores` (lines 167-182): a name with no binding in
the enclosing scope is skipped; otherwise the loop gains a node input (a load emitted
before the node), a body-block input whose store lands right after the parameter node,
a body-block output-producing load at the body end, and a node output whose store after
the node accumulates in front of the previously created ones; everything typed with the
enclosing scope's binding type. -/
def threadLoop : List String → EnvT → List Value → List Value → SBlock →
    M (List SNode × List Value × List Value × SBlock × List SNode)
  | [], _, ins, outs, body => pure ([], ins, outs, body, [])
  | x :: xs, env, ins, outs, body =>
    match findInAnyFrame x env with
    | none => threadLoop xs env ins outs body
    | some pty => do
      let li ← freshVal pty
      let bi ← freshVal pty
      let bo ← freshVal pty
      let no ← freshVal pty
      let body1 : SBlock := ⟨body.ins ++ [bi], .store x bi :: body.nodes ++ [.load x bo],
        body.outs ++ [bo]⟩
      let (pl, ins2, outs2, body2, f2) ←
        threadLoop xs env (ins ++ [li]) (outs ++ [no]) body1
      pure (.load x li :: pl, ins2, outs2, body2, f2 ++ [.store x no])

mutual

/-- Model of `ControlFlowLoadStores::addControlFlowLoadStores`: push a frame, scan the block, and
return the popped frame still chained to its enclosing frames, plus whether the block
contained a (destroyed) `prim::VarEscape`. -/
def addControlFlowLoadStores : Nat → EnvT → SBlock → M (SBlock × EnvT × Bool)
  | 0, _, _ => throwM .fuel
  | f + 1, env, b => do
    let (ns1, env1, esc) ← cfScan f ([] :: env) b.nodes
    pure (⟨b.ins, ns1, b.outs⟩, env1, esc)

/-- The node scan of `addControlFlowLoadStores`: stores update the innermost frame,
`VarEscape` marks the block and is destroyed, conditionals and loops are threaded (the
synthetic stores inserted after them are revisited by this very scan), nested functions
recurse. -/
def cfScan : Nat → EnvT → List SNode → M (List SNode × EnvT × Bool)
  | 0, _, _ => throwM .fuel
  | _ + 1, env, [] => pure ([], env, false)
  | f + 1, env, n :: rest =>
    match n with
    | .store nm v => do
      let (ns1, env1, esc) ← cfScan f (setVarE nm v.ty env) rest
      pure (.store nm v :: ns1, env1, esc)
    | .varEscape => do
      let (ns1, env1, _) ← cfScan f env rest
      pure (ns1, env1, true)
    | .ifN cond outs thn els => do
      let (n1, follow) ← addIfLoadStores f env cond outs thn els
      let (ns1, env1, esc) ← cfScan f env (follow ++ rest)
      pure (n1 :: ns1, env1, esc)
    | .loopN mod ins outs body pre => do
      let (preLoads, n1, follow) ← addLoopLoadStores f env mod ins outs body pre
      let (ns1, env1, esc) ← cfScan f env (follow ++ rest)
      pure (preLoads ++ n1 :: ns1, env1, esc)
    | .fnN outs body => do
      let (body1, _, _) ← addControlFlowLoadStores f env body
      let (ns1, env1, esc) ← cfScan f env rest
      pure (.fnN outs body1 :: ns1, env1, esc)
    | n2 => do
      let (ns1, env1, esc) ← cfScan f env rest
      pure (n2 :: ns1, env1, esc)

/-- Model of `ControlFlowLoadStores::addIfLoadStores`: thread both branches, compute the mutated
set, and emit the paired outputs and synthetic stores. -/
def addIfLoadStores : Nat → EnvT → Value → List Value → SBlock → SBlock →
    M (SNode × List SNode)
  | 0, _, _, _, _, _ => throwM .fuel
  | f + 1, env, cond, outs, thn, els => do
    let (thn1, tEnv, tEsc) ← addControlFlowLoadStores f env thn
    let (els1, fEnv, fEsc) ← addControlFlowLoadStores f env els
    let mutated := mutatedVars tEnv fEnv tEsc fEsc
    let (thn2, els2, nouts, follow) ← threadIf mutated tEnv fEnv thn1 els1 []
    pure (.ifN cond (outs ++ nouts) thn2 els2, follow)

/-- Model of `ControlFlowLoadStores::addLoopLoadStores`: thread the body, then thread every name
the body defines that the enclosing scope also binds. -/
def addLoopLoadStores : Nat → EnvT → Bool → List Value → List Value → SBlock →
    Option SBlock → M (List SNode × SNode × List SNode)
  | 0, _, _, _, _, _, _ => throwM .fuel
  | f + 1, env, mod, ins, outs, body, pre => do
    let (body1, bEnv, _) ← addControlFlowLoadStores f env body
    let names := definedVariables (bEnv.headD [])
    let (preLoads, ins2, outs2, body2, follow) ← threadLoop names env ins outs body1
    pure (preLoads, .loopN mod ins2 outs2 body2 pre, follow)

end

/-- Model of `ControlFlowLoadStores::run`. -/
def ctrlRun (fuel : Nat) (g : SBlock) : M SBlock := do
  let (g1, _, _) ← addControlFlowLoadStores fuel [] g
  pure g1

mutual

/-- Model of `SSATransformer::convertBlockToSSA`: push a frame and scan. -/
def convertBlockToSSA : Nat → EnvV → SBlock → M SBlock
  | 0, _, _ => throwM .fuel
  | f + 1, env, b => do
    let (ns1, outs1, _) ← ssaScan f ([] :: env) b.nodes b.outs
    pure ⟨b.ins, ns1, outs1⟩

/-- The node scan of `convertBlockToSSA`: a store updates the innermost frame and is
deleted; a load walks the scope chain outward, replaces every use of its output with
the found value and is deleted, and trips the internal assertion when no frame binds
the name; control-flow and function nodes have their blocks converted recursively. -/
def ssaScan : Nat → EnvV → List SNode → List Value → M (List SNode × List Value × EnvV)
  | 0, _, _, _ => throwM .fuel
  | _ + 1, env, [], outs => pure ([], outs, env)
  | f + 1, env, n :: rest, outs =>
    match n with
    | .store nm v => ssaScan f (setVarE nm v env) rest outs
    | .load nm out =>
      match findInAnyFrame nm env with
      | none => throwM .unbound
      | some var => ssaScan f env (substL out.vid var rest) (substVs out.vid var outs)
    | .ifN cond outs2 thn els => do
      let thn1 ← convertBlockToSSA f env thn
      let els1 ← convertBlockToSSA f env els
      let (ns1, outs1, env1) ← ssaScan f env rest outs
      pure (.ifN cond outs2 thn1 els1 :: ns1, outs1, env1)
    | .loopN mod ins louts body pre => do
      let body1 ← convertBlockToSSA f env body
      let pre1 ←
        match pre with
        | some ph => do
          let ph1 ← convertBlockToSSA f env ph
          pure (some ph1)
        | none => pure (none : Option SBlock)
      let (ns1, outs1, env1) ← ssaScan f env rest outs
      pure (.loopN mod ins louts body1 pre1 :: ns1, outs1, env1)
    | .fnN fouts body => do
      let body1 ← convertBlockToSSA f env body
      let (ns1, outs1, env1) ← ssaScan f env rest outs
      pure (.fnN fouts body1 :: ns1, outs1, env1)
    | n2 => do
      let (ns1, outs1, env1) ← ssaScan f env rest outs
      pure (n2 :: ns1, outs1, env1)

end

def mapV (m : List (Nat × Value)) (v : Value) : Value :=
  match m.lookup v.vid with
  | some nv => nv
  | none => v

mutual

/-- Model of `Block::cloneFrom` with the identity value map on a node: free values stay, locally
defined values get fresh ids recorded in the mapping. -/
def cloneN : List (Nat × Value) → SNode → M (SNode × List (Nat × Value))
  | m, .store nm v => pure (.store nm (mapV m v), m)
  | m, .load nm out => do
    let o ← freshVal out.ty
    pure (.load nm o, (out.vid, o) :: m)
  | m, .uninitN out => do
    let o ← freshVal out.ty
    pure (.uninitN o, (out.vid, o) :: m)
  | m, .constB b out => do
    let o ← freshVal out.ty
    pure (.constB b o, (out.vid, o) :: m)
  | m, .constI n out => do
    let o ← freshVal out.ty
    pure (.constI n o, (out.vid, o) :: m)
  | m, .varEscape => pure (.varEscape, m)
  | m, .breakS => pure (.breakS, m)
  | m, .continueS => pure (.continueS, m)
  | m, .ifN cond iouts thn els => do
    let thn1 ← cloneB m thn
    let els1 ← cloneB m els
    let (os, m1) ← cloneOuts m iouts
    pure (.ifN (mapV m cond) os thn1 els1, m1)
  | m, .loopN mod ins louts body pre => do
    let body1 ← cloneB m body
    let pre1 ←
      match pre with
      | some ph => do
        let ph1 ← cloneB m ph
        pure (some ph1)
      | none => pure (none : Option SBlock)
    let (os, m1) ← cloneOuts m louts
    pure (.loopN mod (ins.map (mapV m)) os body1 pre1, m1)
  | m, .fnN fouts body => do
    let body1 ← cloneB m body
    let (os, m1) ← cloneOuts m fouts
    pure (.fnN os body1, m1)
  | m, .binop op a b out => do
    let o ← freshVal out.ty
    pure (.binop op (mapV m a) (mapV m b) o, (out.vid, o) :: m)

def cloneOuts : List (Nat × Value) → List Value → M (List Value × List (Nat × Value))
  | m, [] => pure ([], m)
  | m, v :: vs => do
    let o ← freshVal v.ty
    let (os, m1) ← cloneOuts ((v.vid, o) :: m) vs
    pure (o :: os, m1)

def cloneL : List (Nat × Value) → List SNode → M (List SNode × List (Nat × Value))
  | m, [] => pure ([], m)
  | m, n :: ns => do
    let (n1, m1) ← cloneN m n
    let (ns1, m2) ← cloneL m1 ns
    pure (n1 :: ns1, m2)

def cloneB (m : List (Nat × Value)) (b : SBlock) : M SBlock := do
  let (ins1, m1) ← cloneOuts m b.ins
  let (ns1, m2) ← cloneL m1 b.nodes
  pure ⟨ins1, ns1, b.outs.map (mapV m2)⟩

end

mutual

/-- Model of `inlineLoopCondition(Block*)`: recurse, and for each loop clone its pre-header
nodes in front of the loop, append the cloned continue-condition as a loop input, and
keep the pre-header block itself (only the temporary clone block is erased). -/
def ilcScan : Nat → List SNode → M (List SNode)
  | 0, _ => throwM .fuel
  | _ + 1, [] => pure []
  | f + 1, n :: rest =>
    match n with
    | .ifN cond iouts thn els => do
      let thn1 ← ilcB f thn
      let els1 ← ilcB f els
      let ns1 ← ilcScan f rest
      pure (.ifN cond iouts thn1 els1 :: ns1)
    | .fnN fouts body => do
      let body1 ← ilcB f body
      let ns1 ← ilcScan f rest
      pure (.fnN fouts body1 :: ns1)
    | .loopN mod ins louts body pre => do
      let body1 ← ilcB f body
      match pre with
      | none => throwM .arity
      | some ph =>
        match ph.outs with
        | [] => throwM .arity
        | c0 :: _ => do
          let (cns, m1) ← cloneL [] ph.nodes
          let ns1 ← ilcScan f rest
          pure (cns ++ .loopN mod (ins ++ [mapV m1 c0]) louts body1 (some ph) :: ns1)
    | n2 => do
      let ns1 ← ilcScan f rest
      pure (n2 :: ns1)

def ilcB : Nat → SBlock → M SBlock
  | 0, _ => throwM .fuel
  | f + 1, b => do
    let ns1 ← ilcScan f b.nodes
    pure ⟨b.ins, ns1, b.outs⟩

end

mutual

/-- Model of `transformModifiedForToWhile(Block*)`: recurse, and rewrite each modified-for loop
into a while loop with an explicit trip counter.  Modelled from the spec: whether a
loop is a `LoopView::ModifiedLoop` is carried as the `mod` flag on the loop node
(`ir_views.h` is not among the provided sources); the rewrite itself follows lines
338-360 of the source. -/
def tmfwScan : Nat → List SNode → M (List SNode)
  | 0, _ => throwM .fuel
  | _ + 1, [] => pure []
  | f + 1, n :: rest =>
    match n with
    | .ifN cond iouts thn els => do
      let thn1 ← tmfwB f thn
      let els1 ← tmfwB f els
      let ns1 ← tmfwScan f rest
      pure (.ifN cond iouts thn1 els1 :: ns1)
    | .fnN fouts body => do
      let body1 ← tmfwB f body
      let ns1 ← tmfwScan f rest
      pure (.fnN fouts body1 :: ns1)
    | .loopN mod ins louts body pre => do
      let body1 ← tmfwB f body
      if mod = false then do
        let ns1 ← tmfwScan f rest
        pure (.loopN mod ins louts body1 pre :: ns1)
      else
        match ins, body1.ins with
        | mt :: _ :: carried, it0 :: bins => do
          let z ← freshVal .int
          let o ← freshVal .int
          let cond ← freshVal .bool
          let maxC ← freshVal .int
          let no ← freshVal .int
          let bi ← freshVal .int
          let body2 := substB it0.vid bi ⟨(it0 :: bins) ++ [bi], body1.nodes, body1.outs⟩
          let ii ← freshVal .int
          let lt ← freshVal .bool
          let ac ← freshVal .bool
          match body2.outs with
          | [] => throwM .arity
          | c0 :: restO => do
            let ns1 ← tmfwScan f rest
            pure (.constI 0 z :: .constI 1 o :: .binop "gt" mt z cond ::
              .constI 9223372036854775807 maxC ::
              .loopN mod (maxC :: cond :: carried ++ [z]) (louts ++ [no])
                ⟨body2.ins,
                  body2.nodes ++ [.binop "add" bi o ii, .binop "lt" ii mt lt,
                    .binop "and" lt c0 ac],
                  ac :: restO ++ [ii]⟩ pre :: ns1)
        | _, _ => throwM .arity
    | n2 => do
      let ns1 ← tmfwScan f rest
      pure (n2 :: ns1)

def tmfwB : Nat → SBlock → M SBlock
  | 0, _ => throwM .fuel
  | f + 1, b => do
    let ns1 ← tmfwScan f b.nodes
    pure ⟨b.ins, ns1, b.outs⟩

end

def maxIdVs (vs : List Value) : Nat := vs.foldr (fun v a => max v.vid a) 0

mutual

def maxIdSN : SNode → Nat
  | .store _ v => v.vid
  | .load _ out => out.vid
  | .uninitN out => out.vid
  | .constB _ out => out.vid
  | .constI _ out => out.vid
  | .varEscape => 0
  | .breakS => 0
  | .continueS => 0
  | .ifN cond iouts thn els =>
    max cond.vid (max (maxIdVs iouts) (max (maxIdSB thn) (maxIdSB els)))
  | .loopN _ ins louts body pre =>
    max (maxIdVs ins) (max (maxIdVs louts) (max (maxIdSB body)
      (match pre with
        | some ph => maxIdSB ph
        | none => 0)))
  | .fnN fouts body => max (maxIdVs fouts) (maxIdSB body)
  | .binop _ a b out => max a.vid (max b.vid out.vid)

def maxIdSL : List SNode → Nat
  | [] => 0
  | n :: ns => max (maxIdSN n) (maxIdSL ns)

def maxIdSB (b : SBlock) : Nat :=
  max (maxIdVs b.ins) (max (maxIdSL b.nodes) (maxIdVs b.outs))

end

/-- Model of `ConvertToSSA`: inline loop conditions, transform breaks, add control-flow
load/stores, convert to SSA, then rewrite modified for-loops. -/
def ConvertToSSA (fuel : Nat) (g : SBlock) : Except Err SBlock :=
  match (do
      let g1 ← ilcB fuel g
      let g2 ← TransformBreaks fuel g1
      let g3 ← ctrlRun fuel g2
      let g4 ← convertBlockToSSA fuel [] g3
      tmfwB fuel g4 : M SBlock) (maxIdSB g + 1) with
  | .ok (g2, _) => .ok g2
  | .error e => .error e

def c8env : EnvV := [[("a", ⟨1, .int⟩)], [("b", ⟨2, .bool⟩)]]

/-- Whether the per-name loop of `addIfLoadStores` actually threads a name (a name whose
branch types fail to unify is skipped). -/
def threadable (tEnv fEnv : EnvT) (x : String) : Bool :=
  match findInAnyFrame x tEnv, findInAnyFrame x fEnv with
  | none, none => false
  | none, some _ => true
  | some _, none => true
  | some tt, some ft => (unifyTypes tt ft).isSome

/-- Whether the then-branch receives an uninitialized placeholder fill for a name. -/
def fillsT (tEnv fEnv : EnvT) (x : String) : Bool :=
  (findInAnyFrame x tEnv).isNone && (findInAnyFrame x fEnv).isSome

/-- Whether the else-branch receives an uninitialized placeholder fill for a name. -/
def fillsF (tEnv fEnv : EnvT) (x : String) : Bool :=
  (findInAnyFrame x tEnv).isSome && (findInAnyFrame x fEnv).isNone

/-- Top-level uninitialized-placeholder count of a node list. -/
def countUninitL : List SNode → Nat
  | [] => 0
  | .uninitN _ :: ns => 1 + countUninitL ns
  | _ :: ns => countUninitL ns

def c6env : EnvT := [[("x", .int)]]

/-- Then-branch storing `x`; `x` is also bound in the enclosing scope (`c6env`). -/
def c6thn : SBlock := ⟨[], [.store "x" ⟨5, .int⟩], []⟩

/-- Else-branch that defines nothing and does not escape. -/
def c6els : SBlock := ⟨[], [], []⟩

def ifOutsLen : Except Err ((SNode × List SNode) × Nat) → Option (Nat × Nat × Nat)
  | .ok ((.ifN _ o t e, _), _) => some (o.length, t.outs.length, e.outs.length)
  | _ => none

def escInfo : Except Err ((SBlock × EnvT × Bool) × Nat) → Option (FrameT × Bool)
  | .ok ((_, fe, esc), _) => some (fe.headD [], esc)
  | _ => none

/-- A conditional storing `y` in both branches. -/
def c6wthn : SBlock := ⟨[], [.store "y" ⟨1, .int⟩], []⟩

def c6wels : SBlock := ⟨[], [.store "y" ⟨2, .int⟩], []⟩

/-- The names the per-name loop of `addLoopLoadStores` actually threads: those with a
binding somewhere in the enclosing scope chain (lines 171-174 skip the rest). -/
def loopThreaded (env : EnvT) (names : List String) : List String :=
  names.filter (fun x => (findInAnyFrame x env).isSome)

/-- The enclosing-scope types of the threaded names. -/
def parentTys (env : EnvT) (names : List String) : List Ty :=
  (loopThreaded env names).map (fun x => (findInAnyFrame x env).getD .bool)

def c7env : EnvT := [[("a", .int)]]

/-- A loop body storing the enclosing-scope name `a` and the loop-local name `b`. -/
def c7body : SBlock := ⟨[], [.store "a" ⟨1, .int⟩, .store "b" ⟨2, .bool⟩], []⟩

/-- Node count of a conversion result. -/
def nodeCount : Except Err SBlock → Option Nat
  | .ok g => some g.nodes.length
  | .error _ => none

/-- The empty graph. -/
def c9g : SBlock := ⟨[], [], []⟩

/-- The result of running the conversion entry point twice in a row. -/
def c9twice : Except Err SBlock :=
  match ConvertToSSA 15 c9g with
  | .ok g1 => ConvertToSSA 15 g1
  | .error e => .error e

/-- A load/store-free one-constant graph. -/
def c9wb : SBlock := ⟨[], [.constB true ⟨1, .bool⟩], []⟩

/-- A graph with a constant and a store, for the full pipeline. -/
def c9wg : SBlock := ⟨[], [.constI 5 ⟨1, .int⟩, .store "a" ⟨1, .int⟩], []⟩

def isOkC : Except Err SBlock → Bool
  | .ok _ => true
  | .error _ => false

@[simp] theorem pureS_run {α : Type} (a : α) (s : Nat) : (pure a : M α) s = .ok (a, s) :=
  rfl

@[simp] theorem bindS_run {α β : Type} (x : M α) (f : α → M β) (s : Nat) :
    (x >>= f) s = match x s with
      | .ok (a, s1) => f a s1
      | .error e => .error e := rfl

@[simp] theorem throwS_run {α : Type} (e : Err) (s : Nat) : (throwM e : M α) s = .error e :=
  rfl

theorem ssa_noLS : ∀ f : Nat,
    (∀ env b st, countLSB b = 0 → convertBlockToSSA f env b st ≠ .error .unbound) ∧
    (∀ env ns outs st, countLSL ns = 0 → ssaScan f env ns outs st ≠ .error .unbound) := by
  intro f
  induction f with
  | zero =>
    constructor
    · intro env b st _
      simp [convertBlockToSSA, throwM]
    · intro env ns outs st _
      simp [ssaScan, throwM]
  | succ f ih =>
    constructor
    · intro env b st h0
      simp only [convertBlockToSSA, bindS_run]
      cases hs : ssaScan f ([] :: env) b.nodes b.outs st with
      | error e =>
        have hno := ih.2 ([] :: env) b.nodes b.outs st h0
        rw [hs] at hno
        intro hc
        injection hc with hc
        exact hno (by rw [hc])
      | ok a =>
        obtain ⟨⟨ns1, outs1⟩, st1⟩ := a
        simp
    · intro env ns outs st h0
      cases ns with
      | nil => simp [ssaScan]
      | cons n rest =>
        have hn : countLSN n = 0 ∧ countLSL rest = 0 := by
          simp only [countLSL] at h0
          omega
        cases n with
        | store nm v => simp [countLSN] at hn
        | load nm out => simp [countLSN] at hn
        | ifN cond outs2 thn els =>
          have hts : countLSL thn.nodes = 0 ∧ countLSL els.nodes = 0 := by
            have := hn.1
            simp only [countLSN] at this
            omega
          simp only [ssaScan, bindS_run]
          cases ht : convertBlockToSSA f env thn st with
          | error e =>
            have hno := ih.1 env thn st hts.1
            rw [ht] at hno
            intro hc
            injection hc with hc
            exact hno (by rw [hc])
          | ok a1 =>
            obtain ⟨thn1, st2⟩ := a1
            dsimp only
            cases he : convertBlockToSSA f env els st2 with
            | error e =>
              have hno := ih.1 env els st2 hts.2
              rw [he] at hno
              intro hc
              injection hc with hc
              exact hno (by rw [hc])
            | ok a2 =>
              obtain ⟨els1, st3⟩ := a2
              dsimp only
              cases hr : ssaScan f env rest outs st3 with
              | error e =>
                have hno := ih.2 env rest outs st3 hn.2
                rw [hr] at hno
                intro hc
                injection hc with hc
                exact hno (by rw [hc])
              | ok a3 =>
                obtain ⟨⟨ns1, outs1⟩, st4⟩ := a3
                simp
        | loopN mod ins louts body pre =>
          cases pre with
          | none =>
            have hts : countLSL body.nodes = 0 := by
              have := hn.1
              simp only [countLSN] at this
              omega
            simp only [ssaScan, bindS_run]
            cases hb : convertBlockToSSA f env body st with
            | error e =>
              have hno := ih.1 env body st hts
              rw [hb] at hno
              intro hc
              injection hc with hc
              exact hno (by rw [hc])
            | ok a1 =>
              obtain ⟨body1, st2⟩ := a1
              dsimp only
              simp only [bindS_run, pureS_run]
              cases hr : ssaScan f env rest outs st2 with
              | error e =>
                have hno := ih.2 env rest outs st2 hn.2
                rw [hr] at hno
                intro hc
                injection hc with hc
                exact hno (by rw [hc])
              | ok a3 =>
                obtain ⟨⟨ns1, outs1⟩, st4⟩ := a3
                simp
          | some ph =>
            have hts : countLSL body.nodes = 0 ∧ countLSL ph.nodes = 0 := by
              have := hn.1
              simp only [countLSN] at this
              omega
            simp only [ssaScan, bindS_run]
            cases hb : convertBlockToSSA f env body st with
            | error e =>
              have hno := ih.1 env body st hts.1
              rw [hb] at hno
              intro hc
              injection hc with hc
              exact hno (by rw [hc])
            | ok a1 =>
              obtain ⟨body1, st2⟩ := a1
              dsimp only
              simp only [bindS_run, pureS_run]
              cases hp : convertBlockToSSA f env ph st2 with
              | error e =>
                have hno := ih.1 env ph st2 hts.2
                rw [hp] at hno
                intro hc
                injection hc with hc
                exact hno (by rw [hc])
              | ok a2 =>
                obtain ⟨ph1, st3⟩ := a2
                dsimp only
                cases hr : ssaScan f env rest outs st3 with
                | error e =>
                  have hno := ih.2 env rest outs st3 hn.2
                  rw [hr] at hno
                  intro hc
                  injection hc with hc
                  exact hno (by rw [hc])
                | ok a3 =>
                  obtain ⟨⟨ns1, outs1⟩, st4⟩ := a3
                  simp
        | fnN fouts body =>
          have hts : countLSL body.nodes = 0 := by
            have := hn.1
            simp only [countLSN] at this
            omega
          simp only [ssaScan, bindS_run]
          cases hb : convertBlockToSSA f env body st with
          | error e =>
            have hno := ih.1 env body st hts
            rw [hb] at hno
            intro hc
            injection hc with hc
            exact hno (by rw [hc])
          | ok a1 =>
            obtain ⟨body1, st2⟩ := a1
            dsimp only
            cases hr : ssaScan f env rest outs st2 with
            | error e =>
              have hno := ih.2 env rest outs st2 hn.2
              rw [hr] at hno
              intro hc
              injection hc with hc
              exact hno (by rw [hc])
            | ok a3 =>
              obtain ⟨⟨ns1, outs1⟩, st4⟩ := a3
              simp
        | uninitN out =>
          simp only [ssaScan, bindS_run]
          cases hr : ssaScan f env rest outs st with
          | error e =>
            have hno := ih.2 env rest outs st hn.2
            rw [hr] at hno
            intro hc
            injection hc with hc
            exact hno (by rw [hc])
          | ok a3 =>
            obtain ⟨⟨ns1, outs1⟩, st4⟩ := a3
            simp
        | constB b2 out =>
          simp only [ssaScan, bindS_run]
          cases hr : ssaScan f env rest outs st with
          | error e =>
            have hno := ih.2 env rest outs st hn.2
            rw [hr] at hno
            intro hc
            injection hc with hc
            exact hno (by rw [hc])
          | ok a3 =>
            obtain ⟨⟨ns1, outs1⟩, st4⟩ := a3
            simp
        | constI n2 out =>
          simp only [ssaScan, bindS_run]
          cases hr : ssaScan f env rest outs st with
          | error e =>
            have hno := ih.2 env rest outs st hn.2
            rw [hr] at hno
            intro hc
            injection hc with hc
            exact hno (by rw [hc])
          | ok a3 =>
            obtain ⟨⟨ns1, outs1⟩, st4⟩ := a3
            simp
        | varEscape =>
          simp only [ssaScan, bindS_run]
          cases hr : ssaScan f env rest outs st with
          | error e =>
            have hno := ih.2 env rest outs st hn.2
            rw [hr] at hno
            intro hc
            injection hc with hc
            exact hno (by rw [hc])
          | ok a3 =>
            obtain ⟨⟨ns1, outs1⟩, st4⟩ := a3
            simp
        | breakS =>
          simp only [ssaScan, bindS_run]
          cases hr : ssaScan f env rest outs st with
          | error e =>
            have hno := ih.2 env rest outs st hn.2
            rw [hr] at hno
            intro hc
            injection hc with hc
            exact hno (by rw [hc])
          | ok a3 =>
            obtain ⟨⟨ns1, outs1⟩, st4⟩ := a3
            simp
        | continueS =>
          simp only [ssaScan, bindS_run]
          cases hr : ssaScan f env rest outs st with
          | error e =>
            have hno := ih.2 env rest outs st hn.2
            rw [hr] at hno
            intro hc
            injection hc with hc
            exact hno (by rw [hc])
          | ok a3 =>
            obtain ⟨⟨ns1, outs1⟩, st4⟩ := a3
            simp
        | binop op a2 b2 out =>
          simp only [ssaScan, bindS_run]
          cases hr : ssaScan f env rest outs st with
          | error e =>
            have hno := ih.2 env rest outs st hn.2
            rw [hr] at hno
            intro hc
            injection hc with hc
            exact hno (by rw [hc])
          | ok a3 =>
            obtain ⟨⟨ns1, outs1⟩, st4⟩ := a3
            simp

/-- C8: the SSA renamer's step behavior: a store updates the innermost frame's binding
for its name and is deleted; a load whose name is bound somewhere in the scope chain
(innermost binding first, via `findInAnyFrame`) has every use of its output replaced by
the found value and is deleted; a load whose name is bound in no enclosing frame trips
the internal assertion (the `unbound` failure); and that failure can only arise from
such a load — on input containing no load or store operations the renamer never
fails with it. -/
theorem C8_renamer_semantics {f : Nat} {env : EnvV} {nm1 nm2 nm3 : String} {v : Value}
    {out2 out3 : Value} {rest : List SNode} {outs : List Value} :
    (ssaScan (f + 1) env (.store nm1 v :: rest) outs =
      ssaScan f (setVarE nm1 v env) rest outs) ∧
    (∀ var, findInAnyFrame nm2 env = some var →
      ssaScan (f + 1) env (.load nm2 out2 :: rest) outs =
        ssaScan f env (substL out2.vid var rest) (substVs out2.vid var outs)) ∧
    (findInAnyFrame nm3 env = none →
      ∀ st, ssaScan (f + 1) env (.load nm3 out3 :: rest) outs st =
        .error .unbound) ∧
    (∀ f2 env2 ns outs2 st, countLSL ns = 0 →
      ssaScan f2 env2 ns outs2 st ≠ .error .unbound) := by
  refine ⟨?_, ?_, ?_, ?_⟩
  · simp [ssaScan]
  · intro var h
    simp only [ssaScan]
    rw [h]
  · intro h st
    simp only [ssaScan]
    rw [h]
    rfl
  · intro f2 env2 ns outs2 st h0
    exact (ssa_noLS f2).2 env2 ns outs2 st h0

theorem C8_witness :
    (ssaScan 4 c8env [.store "c" ⟨3, .int⟩, .load "q" ⟨4, .int⟩] [] =
      ssaScan 3 (setVarE "c" ⟨3, .int⟩ c8env) [.load "q" ⟨4, .int⟩] []) ∧
    (ssaScan 4 c8env [.load "b" ⟨5, .bool⟩] [⟨5, .bool⟩] =
      ssaScan 3 c8env (substL 5 ⟨2, .bool⟩ []) (substVs 5 ⟨2, .bool⟩ [⟨5, .bool⟩])) ∧
    (ssaScan 4 c8env [.load "q" ⟨4, .int⟩] [] 9 = .error .unbound) ∧
    (ssaScan 2 c8env [.constI 7 ⟨6, .int⟩] [] 9 ≠ .error .unbound) := by
  refine ⟨?_, ?_, ?_, ?_⟩
  · exact (@C8_renamer_semantics 3 c8env "c" "x" "x" ⟨3, .int⟩ ⟨0, .int⟩ ⟨0, .int⟩
      [.load "q" ⟨4, .int⟩] []).1
  · exact (@C8_renamer_semantics 3 c8env "x" "b" "x" ⟨0, .int⟩ ⟨5, .bool⟩ ⟨0, .int⟩
      [] [⟨5, .bool⟩]).2.1 ⟨2, .bool⟩ rfl
  · exact (@C8_renamer_semantics 3 c8env "x" "x" "q" ⟨0, .int⟩ ⟨0, .int⟩ ⟨4, .int⟩
      [] []).2.2.1 rfl 9
  · exact (@C8_renamer_semantics 3 c8env "x" "x" "x" ⟨0, .int⟩ ⟨0, .int⟩ ⟨0, .int⟩
      [] []).2.2.2 2 c8env [.constI 7 ⟨6, .int⟩] [] 9 (by decide)

theorem mem_sortedInsert (a s : String) (l : List String) :
    a ∈ sortedInsert s l ↔ a = s ∨ a ∈ l := by
  induction l with
  | nil => simp [sortedInsert]
  | cons t ts ih =>
    unfold sortedInsert
    by_cases h1 : s = t
    · rw [if_pos h1]
      subst h1
      simp [List.mem_cons]
    · rw [if_neg h1]
      by_cases h2 : strLt s t = true
      · rw [if_pos h2]
        simp [List.mem_cons]
      · rw [if_neg h2]
        simp [List.mem_cons, ih]
        tauto

theorem mem_mkSet (a : String) (l : List String) : a ∈ mkSet l ↔ a ∈ l := by
  induction l with
  | nil => simp [mkSet]
  | cons x xs ih =>
    show a ∈ sortedInsert x (mkSet xs) ↔ _
    rw [mem_sortedInsert, ih]
    simp [List.mem_cons]

theorem countUninit_append (a b : List SNode) :
    countUninitL (a ++ b) = countUninitL a + countUninitL b := by
  induction a with
  | nil => simp [countUninitL]
  | cons n ns ih =>
    cases n
    all_goals first
      | (show 1 + countUninitL (ns ++ b) = 1 + countUninitL ns + countUninitL b
         rw [ih]
         omega)
      | (show countUninitL (ns ++ b) = countUninitL ns + countUninitL b
         exact ih)

theorem threadIf_spec : ∀ (names : List String) (tEnv fEnv : EnvT) (thn els : SBlock)
    (nouts : List Value) (st : Nat) (thn2 els2 : SBlock) (nouts2 : List Value)
    (follow : List SNode) (st1 : Nat),
    threadIf names tEnv fEnv thn els nouts st = .ok ((thn2, els2, nouts2, follow), st1) →
    thn2.outs.length = thn.outs.length + (names.filter (threadable tEnv fEnv)).length ∧
    els2.outs.length = els.outs.length + (names.filter (threadable tEnv fEnv)).length ∧
    nouts2.length = nouts.length + (names.filter (threadable tEnv fEnv)).length ∧
    follow.length = (names.filter (threadable tEnv fEnv)).length ∧
    countUninitL thn2.nodes =
      countUninitL thn.nodes + (names.filter (fillsT tEnv fEnv)).length ∧
    countUninitL els2.nodes =
      countUninitL els.nodes + (names.filter (fillsF tEnv fEnv)).length := by
  intro names
  induction names with
  | nil =>
    intro tEnv fEnv thn els nouts st thn2 els2 nouts2 follow st1 h
    simp only [threadIf, pureS_run, Except.ok.injEq, Prod.mk.injEq] at h
    obtain ⟨⟨h1, h2, h3, h4⟩, _⟩ := h
    subst h1; subst h2; subst h3; subst h4
    simp
  | cons x xs ih =>
    intro tEnv fEnv thn els nouts st thn2 els2 nouts2 follow st1 h
    have hth : ∀ b : Bool, threadable tEnv fEnv x = b →
        ((x :: xs).filter (threadable tEnv fEnv)).length =
          (if b then 1 else 0) + (xs.filter (threadable tEnv fEnv)).length := by
      intro b hb
      rw [List.filter_cons, hb]
      cases b <;> simp [Nat.add_comm]
    have hfT : ∀ b : Bool, fillsT tEnv fEnv x = b →
        ((x :: xs).filter (fillsT tEnv fEnv)).length =
          (if b then 1 else 0) + (xs.filter (fillsT tEnv fEnv)).length := by
      intro b hb
      rw [List.filter_cons, hb]
      cases b <;> simp [Nat.add_comm]
    have hfF : ∀ b : Bool, fillsF tEnv fEnv x = b →
        ((x :: xs).filter (fillsF tEnv fEnv)).length =
          (if b then 1 else 0) + (xs.filter (fillsF tEnv fEnv)).length := by
      intro b hb
      rw [List.filter_cons, hb]
      cases b <;> simp [Nat.add_comm]
    simp only [threadIf, bindS_run] at h
    cases hft : findInAnyFrame x tEnv with
    | none =>
      cases hff : findInAnyFrame x fEnv with
      | none =>
        rw [hft, hff] at h
        simp only [throwS_run] at h
        exact Except.noConfusion h
      | some ft =>
        rw [hft, hff] at h
        simp only [bindS_run, freshVal, pureS_run] at h
        cases hrec : threadIf xs tEnv fEnv
            ⟨thn.ins, (thn.nodes ++ [.uninitN ⟨st, ft⟩, .store x ⟨st, ft⟩]) ++
              [.load x ⟨st + 1, ft⟩], thn.outs ++ [⟨st + 1, ft⟩]⟩
            ⟨els.ins, els.nodes ++ [.load x ⟨st + 1 + 1, ft⟩],
              els.outs ++ [⟨st + 1 + 1, ft⟩]⟩
            (nouts ++ [⟨st + 1 + 1 + 1, ft⟩]) (st + 1 + 1 + 1 + 1) with
        | error e => rw [hrec] at h; exact Except.noConfusion h
        | ok ar =>
          obtain ⟨⟨t3, e3, n3, f3⟩, st4⟩ := ar
          rw [hrec] at h
          simp only [pureS_run, Except.ok.injEq, Prod.mk.injEq] at h
          obtain ⟨⟨h1, h2, h3, h4⟩, _⟩ := h
          subst h1; subst h2; subst h3; subst h4
          obtain ⟨g1, g2, g3, g4, g5, g6⟩ := ih _ _ _ _ _ _ _ _ _ _ _ hrec
          rw [hth true (by simp [threadable, hft, hff]),
            hfT true (by simp [fillsT, hft, hff]),
            hfF false (by simp [fillsF, hft, hff])]
          refine ⟨by simp at g1 ⊢; omega, by simp at g2 ⊢; omega,
            by simp at g3 ⊢; omega, by simp at g4 ⊢; omega, ?_, ?_⟩
          · rw [g5, countUninit_append, countUninit_append]
            simp [countUninitL]
            try omega
          · rw [g6, countUninit_append]
            simp [countUninitL]
            try omega
    | some tt =>
      cases hff : findInAnyFrame x fEnv with
      | none =>
        rw [hft, hff] at h
        simp only [bindS_run, freshVal, pureS_run] at h
        cases hrec : threadIf xs tEnv fEnv
            ⟨thn.ins, thn.nodes ++ [.load x ⟨st + 1, tt⟩], thn.outs ++ [⟨st + 1, tt⟩]⟩
            ⟨els.ins, (els.nodes ++ [.uninitN ⟨st, tt⟩, .store x ⟨st, tt⟩]) ++
              [.load x ⟨st + 1 + 1, tt⟩], els.outs ++ [⟨st + 1 + 1, tt⟩]⟩
            (nouts ++ [⟨st + 1 + 1 + 1, tt⟩]) (st + 1 + 1 + 1 + 1) with
        | error e => rw [hrec] at h; exact Except.noConfusion h
        | ok ar =>
          obtain ⟨⟨t3, e3, n3, f3⟩, st4⟩ := ar
          rw [hrec] at h
          simp only [pureS_run, Except.ok.injEq, Prod.mk.injEq] at h
          obtain ⟨⟨h1, h2, h3, h4⟩, _⟩ := h
          subst h1; subst h2; subst h3; subst h4
          obtain ⟨g1, g2, g3, g4, g5, g6⟩ := ih _ _ _ _ _ _ _ _ _ _ _ hrec
          rw [hth true (by simp [threadable, hft, hff]),
            hfT false (by simp [fillsT, hft, hff]),
            hfF true (by simp [fillsF, hft, hff])]
          refine ⟨by simp at g1 ⊢; omega, by simp at g2 ⊢; omega,
            by simp at g3 ⊢; omega, by simp at g4 ⊢; omega, ?_, ?_⟩
          · rw [g5, countUninit_append]
            simp [countUninitL]
            try omega
          · rw [g6, countUninit_append, countUninit_append]
            simp [countUninitL]
            try omega
      | some ft =>
        rw [hft, hff] at h
        dsimp only at h
        cases hu : unifyTypes tt ft with
        | none =>
          rw [hu] at h
          simp only [pureS_run] at h
          obtain ⟨g1, g2, g3, g4, g5, g6⟩ := ih _ _ _ _ _ _ _ _ _ _ _ h
          rw [hth false (by simp [threadable, hft, hff, hu]),
            hfT false (by simp [fillsT, hft, hff]),
            hfF false (by simp [fillsF, hft, hff])]
          simp only [show (if false = true then 1 else 0) = 0 from rfl]
          exact ⟨by omega, by omega, by omega, by omega, by omega, by omega⟩
        | some ot =>
          rw [hu] at h
          simp only [bindS_run, freshVal, pureS_run] at h
          cases hrec : threadIf xs tEnv fEnv
              ⟨thn.ins, thn.nodes ++ [.load x ⟨st, ot⟩], thn.outs ++ [⟨st, ot⟩]⟩
              ⟨els.ins, els.nodes ++ [.load x ⟨st + 1, ot⟩], els.outs ++ [⟨st + 1, ot⟩]⟩
              (nouts ++ [⟨st + 1 + 1, ot⟩]) (st + 1 + 1 + 1) with
          | error e => rw [hrec] at h; exact Except.noConfusion h
          | ok ar =>
            obtain ⟨⟨t3, e3, n3, f3⟩, st4⟩ := ar
            rw [hrec] at h
            simp only [pureS_run, Except.ok.injEq, Prod.mk.injEq] at h
            obtain ⟨⟨h1, h2, h3, h4⟩, _⟩ := h
            subst h1; subst h2; subst h3; subst h4
            obtain ⟨g1, g2, g3, g4, g5, g6⟩ := ih _ _ _ _ _ _ _ _ _ _ _ hrec
            rw [hth true (by simp [threadable, hft, hff, hu]),
              hfT false (by simp [fillsT, hft, hff]),
              hfF false (by simp [fillsF, hft, hff])]
            refine ⟨by simp at g1 ⊢; omega, by simp at g2 ⊢; omega,
              by simp at g3 ⊢; omega, by simp at g4 ⊢; omega, ?_, ?_⟩
            · rw [g5, countUninit_append]
              simp [countUninitL]
              try omega
            · rw [g6, countUninit_append]
              simp [countUninitL]
              try omega

/-- C6 (amended): in the load/store threading of a conditional, a name is judged
mutated exactly when one branch's frame defines it and the other branch's popped
environment chain — its own frame or ANY ENCLOSING frame — binds it or that branch is a
statically-known escaping block; each judged name is threaded (one output per branch,
one node output, one trailing store) unless its two looked-up types fail to unify, in
which case it is skipped; and a branch with no binding for a threaded name receives an
uninitialized placeholder store. -/
theorem C6_if_mutation_amended {f : Nat} {env : EnvT} {cond : Value} {outs : List Value}
    {thn els : SBlock} {st : Nat} {n1 : SNode} {follow : List SNode} {st1 : Nat}
    (h : addIfLoadStores (f + 1) env cond outs thn els st = .ok ((n1, follow), st1)) :
    (∀ x tEnv fEnv (tEsc fEsc : Bool), x ∈ mutatedVars tEnv fEnv tEsc fEsc ↔
      ((x ∈ definedVariables (tEnv.headD []) ∧
          ((findInAnyFrame x fEnv).isSome = true ∨ fEsc = true)) ∨
        (x ∈ definedVariables (fEnv.headD []) ∧
          ((findInAnyFrame x tEnv).isSome = true ∨ tEsc = true)))) ∧
    ∃ thn1 tEnv tEsc st2 els1 fEnv fEsc st3 thn2 els2 nouts,
      addControlFlowLoadStores f env thn st = .ok ((thn1, tEnv, tEsc), st2) ∧
      addControlFlowLoadStores f env els st2 = .ok ((els1, fEnv, fEsc), st3) ∧
      n1 = .ifN cond (outs ++ nouts) thn2 els2 ∧
      nouts.length =
        ((mutatedVars tEnv fEnv tEsc fEsc).filter (threadable tEnv fEnv)).length ∧
      thn2.outs.length = thn1.outs.length + nouts.length ∧
      els2.outs.length = els1.outs.length + nouts.length ∧
      follow.length = nouts.length ∧
      countUninitL thn2.nodes = countUninitL thn1.nodes +
        ((mutatedVars tEnv fEnv tEsc fEsc).filter (fillsT tEnv fEnv)).length ∧
      countUninitL els2.nodes = countUninitL els1.nodes +
        ((mutatedVars tEnv fEnv tEsc fEsc).filter (fillsF tEnv fEnv)).length := by
  constructor
  · intro x tEnv fEnv tEsc fEsc
    unfold mutatedVars
    rw [mem_mkSet, List.mem_append, List.mem_filter, List.mem_filter]
    simp [Bool.or_eq_true]
  · simp only [addIfLoadStores, bindS_run] at h
    cases ht : addControlFlowLoadStores f env thn st with
    | error e => rw [ht] at h; exact Except.noConfusion h
    | ok at1 =>
      obtain ⟨⟨thn1, tEnv, tEsc⟩, st2⟩ := at1
      rw [ht] at h
      dsimp only at h
      cases he : addControlFlowLoadStores f env els st2 with
      | error e => rw [he] at h; exact Except.noConfusion h
      | ok ae1 =>
        obtain ⟨⟨els1, fEnv, fEsc⟩, st3⟩ := ae1
        rw [he] at h
        dsimp only at h
        cases hti : threadIf (mutatedVars tEnv fEnv tEsc fEsc) tEnv fEnv thn1 els1 []
            st3 with
        | error e => rw [hti] at h; exact Except.noConfusion h
        | ok ati =>
          obtain ⟨⟨thn2, els2, nouts, follow2⟩, st4⟩ := ati
          rw [hti] at h
          simp only [pureS_run, Except.ok.injEq, Prod.mk.injEq] at h
          obtain ⟨⟨hn1, hfo⟩, hst⟩ := h
          obtain ⟨g1, g2, g3, g4, g5, g6⟩ :=
            threadIf_spec _ _ _ _ _ _ _ _ _ _ _ _ hti
          refine ⟨thn1, tEnv, tEsc, st2, els1, fEnv, fEsc, st3, thn2, els2, nouts,
            rfl, he, hn1.symm, ?_, ?_, ?_, ?_, g5, g6⟩
          · simp at g3
            exact g3
          · simp at g3
            omega
          · simp at g3
            omega
          · rw [← hfo]
            simp at g3
            omega

/-- C6 counterexample: `x` is stored only in the then-branch of a conditional whose
else-branch neither defines any name nor escapes, so by the claimed rule it must not be
threaded and neither branch's output list may grow; but because `x` is bound in the
enclosing scope, `findInAnyFrame` on the else chain succeeds, the name is judged
mutated, and the conditional and both branches each gain one output. -/
theorem C6_counterexample :
    escInfo (addControlFlowLoadStores 4 c6env c6els 6) = some ([], false) ∧
    ifOutsLen (addIfLoadStores 5 c6env ⟨1, .bool⟩ [] c6thn c6els 6) = some (1, 1, 1) :=
  ⟨rfl, rfl⟩

theorem C6_witness :
    (∀ x tEnv fEnv (tEsc fEsc : Bool), x ∈ mutatedVars tEnv fEnv tEsc fEsc ↔
      ((x ∈ definedVariables (tEnv.headD []) ∧
          ((findInAnyFrame x fEnv).isSome = true ∨ fEsc = true)) ∨
        (x ∈ definedVariables (fEnv.headD []) ∧
          ((findInAnyFrame x tEnv).isSome = true ∨ tEsc = true)))) ∧
    ∃ thn1 tEnv tEsc st2 els1 fEnv fEsc st3 thn2 els2 nouts,
      addControlFlowLoadStores 4 [] c6wthn 4 = .ok ((thn1, tEnv, tEsc), st2) ∧
      addControlFlowLoadStores 4 [] c6wels st2 = .ok ((els1, fEnv, fEsc), st3) ∧
      SNode.ifN ⟨3, .bool⟩ [⟨6, .int⟩]
          ⟨[], [.store "y" ⟨1, .int⟩, .load "y" ⟨4, .int⟩], [⟨4, .int⟩]⟩
          ⟨[], [.store "y" ⟨2, .int⟩, .load "y" ⟨5, .int⟩], [⟨5, .int⟩]⟩ =
        .ifN ⟨3, .bool⟩ ([] ++ nouts) thn2 els2 ∧
      nouts.length =
        ((mutatedVars tEnv fEnv tEsc fEsc).filter (threadable tEnv fEnv)).length ∧
      thn2.outs.length = thn1.outs.length + nouts.length ∧
      els2.outs.length = els1.outs.length + nouts.length ∧
      ([SNode.store "y" ⟨6, .int⟩] : List SNode).length = nouts.length ∧
      countUninitL thn2.nodes = countUninitL thn1.nodes +
        ((mutatedVars tEnv fEnv tEsc fEsc).filter (fillsT tEnv fEnv)).length ∧
      countUninitL els2.nodes = countUninitL els1.nodes +
        ((mutatedVars tEnv fEnv tEsc fEsc).filter (fillsF tEnv fEnv)).length := by
  have h : addIfLoadStores (4 + 1) [] ⟨3, .bool⟩ [] c6wthn c6wels 4 =
      .ok ((.ifN ⟨3, .bool⟩ [⟨6, .int⟩]
          ⟨[], [.store "y" ⟨1, .int⟩, .load "y" ⟨4, .int⟩], [⟨4, .int⟩]⟩
          ⟨[], [.store "y" ⟨2, .int⟩, .load "y" ⟨5, .int⟩], [⟨5, .int⟩]⟩,
        [.store "y" ⟨6, .int⟩]), 7) := rfl
  exact C6_if_mutation_amended h

theorem threadLoop_spec : ∀ (names : List String) (env : EnvT) (ins outs : List Value)
    (body : SBlock) (st : Nat) (preLoads : List SNode) (ins2 outs2 : List Value)
    (body2 : SBlock) (follow : List SNode) (st1 : Nat),
    threadLoop names env ins outs body st =
      .ok ((preLoads, ins2, outs2, body2, follow), st1) →
    preLoads.length = (loopThreaded env names).length ∧
    follow.length = (loopThreaded env names).length ∧
    ins2.map (fun v => v.ty) = ins.map (fun v => v.ty) ++ parentTys env names ∧
    outs2.map (fun v => v.ty) = outs.map (fun v => v.ty) ++ parentTys env names ∧
    body2.ins.map (fun v => v.ty) =
      body.ins.map (fun v => v.ty) ++ parentTys env names ∧
    body2.outs.map (fun v => v.ty) =
      body.outs.map (fun v => v.ty) ++ parentTys env names := by
  intro names
  induction names with
  | nil =>
    intro env ins outs body st preLoads ins2 outs2 body2 follow st1 h
    simp only [threadLoop, pureS_run, Except.ok.injEq, Prod.mk.injEq] at h
    obtain ⟨⟨h1, h2, h3, h4, h5⟩, _⟩ := h
    subst h1; subst h2; subst h3; subst h4; subst h5
    simp [loopThreaded, parentTys]
  | cons x xs ih =>
    intro env ins outs body st preLoads ins2 outs2 body2 follow st1 h
    simp only [threadLoop] at h
    cases hfind : findInAnyFrame x env with
    | none =>
      rw [hfind] at h
      obtain ⟨g1, g2, g3, g4, g5, g6⟩ := ih _ _ _ _ _ _ _ _ _ _ _ h
      have hnt : loopThreaded env (x :: xs) = loopThreaded env xs := by
        simp [loopThreaded, List.filter_cons, hfind]
      have hpt : parentTys env (x :: xs) = parentTys env xs := by
        simp [parentTys, hnt]
      rw [hnt, hpt]
      exact ⟨g1, g2, g3, g4, g5, g6⟩
    | some pty =>
      rw [hfind] at h
      simp only [bindS_run, freshVal, pureS_run] at h
      cases hrec : threadLoop xs env (ins ++ [⟨st, pty⟩])
          (outs ++ [⟨st + 1 + 1 + 1, pty⟩])
          ⟨body.ins ++ [⟨st + 1, pty⟩],
            .store x ⟨st + 1, pty⟩ :: body.nodes ++ [.load x ⟨st + 1 + 1, pty⟩],
            body.outs ++ [⟨st + 1 + 1, pty⟩]⟩ (st + 1 + 1 + 1 + 1) with
      | error e => rw [hrec] at h; exact Except.noConfusion h
      | ok ar =>
        obtain ⟨⟨pl, ins3, outs3, body3, f2⟩, st4⟩ := ar
        rw [hrec] at h
        simp only [pureS_run, Except.ok.injEq, Prod.mk.injEq] at h
        obtain ⟨⟨h1, h2, h3, h4, h5⟩, _⟩ := h
        subst h1; subst h2; subst h3; subst h4; subst h5
        obtain ⟨g1, g2, g3, g4, g5, g6⟩ := ih _ _ _ _ _ _ _ _ _ _ _ hrec
        have hnt : loopThreaded env (x :: xs) = x :: loopThreaded env xs := by
          simp [loopThreaded, List.filter_cons, hfind]
        have hpt : parentTys env (x :: xs) = pty :: parentTys env xs := by
          simp [parentTys, hnt, loopThreaded, hfind]
        rw [hnt, hpt]
        refine ⟨?_, ?_, ?_, ?_, ?_, ?_⟩
        · simp only [List.length_cons]
          omega
        · simp only [List.length_append, List.length_cons, List.length_nil]
          omega
        · rw [g3]
          simp
        · rw [g4]
          simp
        · rw [g5]
          simp
        · rw [g6]
          simp

/-- C7: in the load/store threading of a loop, a name the body defines is threaded —
with a node input, a body-block input, a body-block output and a node output, all typed
with the enclosing scope's binding — exactly when some enclosing scope frame binds it
at the time the loop is processed; purely loop-local names are skipped. -/
theorem C7_loop_threading {f : Nat} {env : EnvT} {mod : Bool} {ins outs : List Value}
    {body : SBlock} {pre : Option SBlock} {st : Nat} {preLoads : List SNode} {n1 : SNode}
    {follow : List SNode} {st1 : Nat}
    (h : addLoopLoadStores (f + 1) env mod ins outs body pre st =
      .ok ((preLoads, n1, follow), st1)) :
    ∃ body1 bEnv bEsc st2 ins2 outs2 body2,
      addControlFlowLoadStores f env body st = .ok ((body1, bEnv, bEsc), st2) ∧
      n1 = .loopN mod ins2 outs2 body2 pre ∧
      (∀ x, x ∈ loopThreaded env (definedVariables (bEnv.headD [])) ↔
        (x ∈ definedVariables (bEnv.headD []) ∧
          (findInAnyFrame x env).isSome = true)) ∧
      preLoads.length = (loopThreaded env (definedVariables (bEnv.headD []))).length ∧
      follow.length = (loopThreaded env (definedVariables (bEnv.headD []))).length ∧
      ins2.map (fun v => v.ty) =
        ins.map (fun v => v.ty) ++ parentTys env (definedVariables (bEnv.headD [])) ∧
      outs2.map (fun v => v.ty) =
        outs.map (fun v => v.ty) ++ parentTys env (definedVariables (bEnv.headD [])) ∧
      body2.ins.map (fun v => v.ty) =
        body1.ins.map (fun v => v.ty) ++
          parentTys env (definedVariables (bEnv.headD [])) ∧
      body2.outs.map (fun v => v.ty) =
        body1.outs.map (fun v => v.ty) ++
          parentTys env (definedVariables (bEnv.headD [])) := by
  simp only [addLoopLoadStores, bindS_run] at h
  cases hb : addControlFlowLoadStores f env body st with
  | error e => rw [hb] at h; exact Except.noConfusion h
  | ok ab =>
    obtain ⟨⟨body1, bEnv, bEsc⟩, st2⟩ := ab
    rw [hb] at h
    dsimp only at h
    cases htl : threadLoop (definedVariables (bEnv.headD [])) env ins outs body1
        st2 with
    | error e => rw [htl] at h; exact Except.noConfusion h
    | ok atl =>
      obtain ⟨⟨pl, ins2, outs2, body2, f2⟩, st4⟩ := atl
      rw [htl] at h
      simp only [pureS_run, Except.ok.injEq, Prod.mk.injEq] at h
      obtain ⟨⟨hpl, hn1, hfo⟩, hst⟩ := h
      obtain ⟨g1, g2, g3, g4, g5, g6⟩ := threadLoop_spec _ _ _ _ _ _ _ _ _ _ _ _ htl
      subst hpl; subst hfo
      refine ⟨body1, bEnv, bEsc, st2, ins2, outs2, body2, rfl, hn1.symm, ?_, g1, g2,
        g3, g4, g5, g6⟩
      intro x
      simp [loopThreaded, List.mem_filter]

theorem C7_witness :
    ∃ body1 bEnv bEsc st2 ins2 outs2 body2,
      addControlFlowLoadStores 4 c7env c7body 6 = .ok ((body1, bEnv, bEsc), st2) ∧
      SNode.loopN false [⟨0, .int⟩, ⟨6, .int⟩] [⟨9, .int⟩]
          ⟨[⟨7, .int⟩],
            [.store "a" ⟨7, .int⟩, .store "a" ⟨1, .int⟩, .store "b" ⟨2, .bool⟩,
              .load "a" ⟨8, .int⟩],
            [⟨8, .int⟩]⟩ none =
        .loopN false ins2 outs2 body2 none ∧
      (∀ x, x ∈ loopThreaded c7env (definedVariables (bEnv.headD [])) ↔
        (x ∈ definedVariables (bEnv.headD []) ∧
          (findInAnyFrame x c7env).isSome = true)) ∧
      ([SNode.load "a" ⟨6, .int⟩] : List SNode).length =
        (loopThreaded c7env (definedVariables (bEnv.headD []))).length ∧
      ([SNode.store "a" ⟨9, .int⟩] : List SNode).length =
        (loopThreaded c7env (definedVariables (bEnv.headD []))).length ∧
      ins2.map (fun v => v.ty) = ([⟨0, .int⟩] : List Value).map (fun v => v.ty) ++
        parentTys c7env (definedVariables (bEnv.headD [])) ∧
      outs2.map (fun v => v.ty) = ([] : List Value).map (fun v => v.ty) ++
        parentTys c7env (definedVariables (bEnv.headD [])) ∧
      body2.ins.map (fun v => v.ty) = body1.ins.map (fun v => v.ty) ++
        parentTys c7env (definedVariables (bEnv.headD [])) ∧
      body2.outs.map (fun v => v.ty) = body1.outs.map (fun v => v.ty) ++
        parentTys c7env (definedVariables (bEnv.headD [])) := by
  have h : addLoopLoadStores (4 + 1) c7env false [⟨0, .int⟩] [] c7body none 6 =
      .ok (([.load "a" ⟨6, .int⟩],
        .loopN false [⟨0, .int⟩, ⟨6, .int⟩] [⟨9, .int⟩]
          ⟨[⟨7, .int⟩],
            [.store "a" ⟨7, .int⟩, .store "a" ⟨1, .int⟩, .store "b" ⟨2, .bool⟩,
              .load "a" ⟨8, .int⟩],
            [⟨8, .int⟩]⟩ none,
        [.store "a" ⟨9, .int⟩]), 10) := rfl
  exact C7_loop_threading h

mutual

theorem subst_countN (o : Nat) (nv : Value) :
    (n : SNode) → countLSN (substN o nv n) = countLSN n
  | .store nm v => by simp [substN, countLSN]
  | .load nm out => by simp [substN, countLSN]
  | .uninitN out => by simp [substN, countLSN]
  | .constB b out => by simp [substN, countLSN]
  | .constI n2 out => by simp [substN, countLSN]
  | .varEscape => by simp [substN, countLSN]
  | .breakS => by simp [substN, countLSN]
  | .continueS => by simp [substN, countLSN]
  | .ifN c iouts thn els => by
    simp [substN, countLSN, substB, subst_countL o nv thn.nodes,
      subst_countL o nv els.nodes]
  | .loopN mod ins louts body pre => by
    cases pre with
    | none => simp [substN, countLSN, substB, subst_countL o nv body.nodes]
    | some ph =>
      simp [substN, countLSN, substB, subst_countL o nv body.nodes,
        subst_countL o nv ph.nodes]
  | .fnN fouts body => by simp [substN, countLSN, substB, subst_countL o nv body.nodes]
  | .binop op a b out => by simp [substN, countLSN]

theorem subst_countL (o : Nat) (nv : Value) :
    (ns : List SNode) → countLSL (substL o nv ns) = countLSL ns
  | [] => by simp [substL, countLSL]
  | n :: ns => by simp [substL, countLSL, subst_countN o nv n, subst_countL o nv ns]

end

theorem ssa_removes : ∀ f : Nat,
    (∀ env b st b1 st1, convertBlockToSSA f env b st = .ok (b1, st1) →
      countLSB b1 = 0) ∧
    (∀ env ns outs st r st1, ssaScan f env ns outs st = .ok (r, st1) →
      countLSL r.1 = 0) := by
  intro f
  induction f with
  | zero =>
    constructor
    · intro env b st b1 st1 h
      simp only [convertBlockToSSA, throwS_run] at h
      exact Except.noConfusion h
    · intro env ns outs st r st1 h
      simp only [ssaScan, throwS_run] at h
      exact Except.noConfusion h
  | succ f ih =>
    have ihb := ih.1
    have ihs := ih.2
    constructor
    · intro env b st b1 st1 h
      simp only [convertBlockToSSA, bindS_run] at h
      cases hs : ssaScan f ([] :: env) b.nodes b.outs st with
      | error e => rw [hs] at h; exact Except.noConfusion h
      | ok a =>
        obtain ⟨⟨ns1, outs1⟩, st2⟩ := a
        rw [hs] at h
        simp only [pureS_run, Except.ok.injEq, Prod.mk.injEq] at h
        obtain ⟨hb1, _⟩ := h
        rw [← hb1]
        exact ihs ([] :: env) b.nodes b.outs st ((ns1, outs1), st2).1 st2 hs
    · intro env ns outs st r st1 h
      cases ns with
      | nil =>
        simp only [ssaScan, pureS_run, Except.ok.injEq] at h
        injection h with h1 h2
        rw [← h1]
        simp [countLSL]
      | cons n rest =>
        cases n with
        | store nm v =>
          simp only [ssaScan] at h
          exact ihs _ rest outs st r st1 h
        | load nm out =>
          simp only [ssaScan] at h
          cases hfind : findInAnyFrame nm env with
          | none =>
            rw [hfind] at h
            simp only [throwS_run] at h
            exact Except.noConfusion h
          | some var =>
            rw [hfind] at h
            have := ihs env (substL out.vid var rest) (substVs out.vid var outs) st
              r st1 h
            exact this
        | ifN cond outs2 thn els =>
          simp only [ssaScan, bindS_run] at h
          cases ht : convertBlockToSSA f env thn st with
          | error e => rw [ht] at h; exact Except.noConfusion h
          | ok a1 =>
            obtain ⟨thn1, st2⟩ := a1
            rw [ht] at h
            dsimp only at h
            cases he : convertBlockToSSA f env els st2 with
            | error e => rw [he] at h; exact Except.noConfusion h
            | ok a2 =>
              obtain ⟨els1, st3⟩ := a2
              rw [he] at h
              dsimp only at h
              cases hr : ssaScan f env rest outs st3 with
              | error e => rw [hr] at h; exact Except.noConfusion h
              | ok a3 =>
                obtain ⟨⟨ns1, outs1⟩, st4⟩ := a3
                rw [hr] at h
                simp only [pureS_run, Except.ok.injEq, Prod.mk.injEq] at h
                obtain ⟨hr1, _⟩ := h
                rw [← hr1]
                have g1 := ihb env thn st thn1 st2 ht
                have g2 := ihb env els st2 els1 st3 he
                have g3 := ihs env rest outs st3 ((ns1, outs1), st4).1 st4 hr
                simp only [countLSB] at g1 g2
                simp only [countLSL, countLSN] at *
                omega
        | loopN mod ins louts body pre =>
          simp only [ssaScan, bindS_run] at h
          cases hb : convertBlockToSSA f env body st with
          | error e => rw [hb] at h; exact Except.noConfusion h
          | ok a1 =>
            obtain ⟨body1, st2⟩ := a1
            rw [hb] at h
            dsimp only at h
            cases pre with
            | none =>
              simp only [bindS_run, pureS_run] at h
              cases hr : ssaScan f env rest outs st2 with
              | error e => rw [hr] at h; exact Except.noConfusion h
              | ok a3 =>
                obtain ⟨⟨ns1, outs1⟩, st4⟩ := a3
                rw [hr] at h
                simp only [pureS_run, Except.ok.injEq, Prod.mk.injEq] at h
                obtain ⟨hr1, _⟩ := h
                rw [← hr1]
                have g1 := ihb env body st body1 st2 hb
                have g3 := ihs env rest outs st2 ((ns1, outs1), st4).1 st4 hr
                simp only [countLSB] at g1
                simp only [countLSL, countLSN] at *
                omega
            | some ph =>
              simp only [bindS_run, pureS_run] at h
              cases hp : convertBlockToSSA f env ph st2 with
              | error e => rw [hp] at h; exact Except.noConfusion h
              | ok a2 =>
                obtain ⟨ph1, st3⟩ := a2
                rw [hp] at h
                dsimp only at h
                cases hr : ssaScan f env rest outs st3 with
                | error e => rw [hr] at h; exact Except.noConfusion h
                | ok a3 =>
                  obtain ⟨⟨ns1, outs1⟩, st4⟩ := a3
                  rw [hr] at h
                  simp only [pureS_run, Except.ok.injEq, Prod.mk.injEq] at h
                  obtain ⟨hr1, _⟩ := h
                  rw [← hr1]
                  have g1 := ihb env body st body1 st2 hb
                  have g2 := ihb env ph st2 ph1 st3 hp
                  have g3 := ihs env rest outs st3 ((ns1, outs1), st4).1 st4 hr
                  simp only [countLSB] at g1 g2
                  simp only [countLSL, countLSN] at *
                  omega
        | fnN fouts body =>
          simp only [ssaScan, bindS_run] at h
          cases hb : convertBlockToSSA f env body st with
          | error e => rw [hb] at h; exact Except.noConfusion h
          | ok a1 =>
            obtain ⟨body1, st2⟩ := a1
            rw [hb] at h
            dsimp only at h
            cases hr : ssaScan f env rest outs st2 with
            | error e => rw [hr] at h; exact Except.noConfusion h
            | ok a3 =>
              obtain ⟨⟨ns1, outs1⟩, st4⟩ := a3
              rw [hr] at h
              simp only [pureS_run, Except.ok.injEq, Prod.mk.injEq] at h
              obtain ⟨hr1, _⟩ := h
              rw [← hr1]
              have g1 := ihb env body st body1 st2 hb
              have g3 := ihs env rest outs st2 ((ns1, outs1), st4).1 st4 hr
              simp only [countLSB] at g1
              simp only [countLSL, countLSN] at *
              omega
        | uninitN out =>
          simp only [ssaScan, bindS_run] at h
          cases hr : ssaScan f env rest outs st with
          | error e => rw [hr] at h; exact Except.noConfusion h
          | ok a3 =>
            obtain ⟨⟨ns1, outs1⟩, st4⟩ := a3
            rw [hr] at h
            simp only [pureS_run, Except.ok.injEq, Prod.mk.injEq] at h
            obtain ⟨hr1, _⟩ := h
            rw [← hr1]
            have := ihs env rest outs st ((ns1, outs1), st4).1 st4 hr
            simp only [countLSL, countLSN] at *
            omega
        | constB b2 out =>
          simp only [ssaScan, bindS_run] at h
          cases hr : ssaScan f env rest outs st with
          | error e => rw [hr] at h; exact Except.noConfusion h
          | ok a3 =>
            obtain ⟨⟨ns1, outs1⟩, st4⟩ := a3
            rw [hr] at h
            simp only [pureS_run, Except.ok.injEq, Prod.mk.injEq] at h
            obtain ⟨hr1, _⟩ := h
            rw [← hr1]
            have := ihs env rest outs st ((ns1, outs1), st4).1 st4 hr
            simp only [countLSL, countLSN] at *
            omega
        | constI n2 out =>
          simp only [ssaScan, bindS_run] at h
          cases hr : ssaScan f env rest outs st with
          | error e => rw [hr] at h; exact Except.noConfusion h
          | ok a3 =>
            obtain ⟨⟨ns1, outs1⟩, st4⟩ := a3
            rw [hr] at h
            simp only [pureS_run, Except.ok.injEq, Prod.mk.injEq] at h
            obtain ⟨hr1, _⟩ := h
            rw [← hr1]
            have := ihs env rest outs st ((ns1, outs1), st4).1 st4 hr
            simp only [countLSL, countLSN] at *
            omega
        | varEscape =>
          simp only [ssaScan, bindS_run] at h
          cases hr : ssaScan f env rest outs st with
          | error e => rw [hr] at h; exact Except.noConfusion h
          | ok a3 =>
            obtain ⟨⟨ns1, outs1⟩, st4⟩ := a3
            rw [hr] at h
            simp only [pureS_run, Except.ok.injEq, Prod.mk.injEq] at h
            obtain ⟨hr1, _⟩ := h
            rw [← hr1]
            have := ihs env rest outs st ((ns1, outs1), st4).1 st4 hr
            simp only [countLSL, countLSN] at *
            omega
        | breakS =>
          simp only [ssaScan, bindS_run] at h
          cases hr : ssaScan f env rest outs st with
          | error e => rw [hr] at h; exact Except.noConfusion h
          | ok a3 =>
            obtain ⟨⟨ns1, outs1⟩, st4⟩ := a3
            rw [hr] at h
            simp only [pureS_run, Except.ok.injEq, Prod.mk.injEq] at h
            obtain ⟨hr1, _⟩ := h
            rw [← hr1]
            have := ihs env rest outs st ((ns1, outs1), st4).1 st4 hr
            simp only [countLSL, countLSN] at *
            omega
        | continueS =>
          simp only [ssaScan, bindS_run] at h
          cases hr : ssaScan f env rest outs st with
          | error e => rw [hr] at h; exact Except.noConfusion h
          | ok a3 =>
            obtain ⟨⟨ns1, outs1⟩, st4⟩ := a3
            rw [hr] at h
            simp only [pureS_run, Except.ok.injEq, Prod.mk.injEq] at h
            obtain ⟨hr1, _⟩ := h
            rw [← hr1]
            have := ihs env rest outs st ((ns1, outs1), st4).1 st4 hr
            simp only [countLSL, countLSN] at *
            omega
        | binop op a2 b2 out =>
          simp only [ssaScan, bindS_run] at h
          cases hr : ssaScan f env rest outs st with
          | error e => rw [hr] at h; exact Except.noConfusion h
          | ok a3 =>
            obtain ⟨⟨ns1, outs1⟩, st4⟩ := a3
            rw [hr] at h
            simp only [pureS_run, Except.ok.injEq, Prod.mk.injEq] at h
            obtain ⟨hr1, _⟩ := h
            rw [← hr1]
            have := ihs env rest outs st ((ns1, outs1), st4).1 st4 hr
            simp only [countLSL, countLSN] at *
            omega

theorem countLS_append : ∀ a b : List SNode,
    countLSL (a ++ b) = countLSL a + countLSL b := by
  intro a b
  induction a with
  | nil => simp [countLSL]
  | cons n ns ih =>
    have ih2 : countLSL (ns.append b) = countLSL ns + countLSL b := ih
    simp only [List.cons_append, countLSL]
    omega

theorem tmfw_count : ∀ f : Nat,
    (∀ b st b1 st1, tmfwB f b st = .ok (b1, st1) → countLSB b1 = countLSB b) ∧
    (∀ ns st ns1 st1, tmfwScan f ns st = .ok (ns1, st1) → countLSL ns1 = countLSL ns) := by
  intro f
  induction f with
  | zero =>
    constructor
    · intro b st b1 st1 h
      simp only [tmfwB, throwS_run] at h
      exact Except.noConfusion h
    · intro ns st ns1 st1 h
      simp only [tmfwScan, throwS_run] at h
      exact Except.noConfusion h
  | succ f ih =>
    obtain ⟨ihb, ihs⟩ := ih
    constructor
    · intro b st b1 st1 h
      simp only [tmfwB, bindS_run] at h
      cases hs : tmfwScan f b.nodes st with
      | error e => rw [hs] at h; exact Except.noConfusion h
      | ok a =>
        obtain ⟨ns1, st2⟩ := a
        rw [hs] at h
        simp only [pureS_run, Except.ok.injEq, Prod.mk.injEq] at h
        obtain ⟨hb1, _⟩ := h
        rw [← hb1]
        exact ihs b.nodes st ns1 st2 hs
    · intro ns st ns1 st1 h
      cases ns with
      | nil =>
        simp only [tmfwScan, pureS_run, Except.ok.injEq, Prod.mk.injEq] at h
        obtain ⟨h1, _⟩ := h
        rw [← h1]
      | cons n rest =>
        cases n with
        | ifN cond iouts thn els =>
          simp only [tmfwScan, bindS_run] at h
          cases ht : tmfwB f thn st with
          | error e => rw [ht] at h; exact Except.noConfusion h
          | ok a1 =>
            obtain ⟨thn1, st2⟩ := a1
            rw [ht] at h
            dsimp only at h
            cases he : tmfwB f els st2 with
            | error e => rw [he] at h; exact Except.noConfusion h
            | ok a2 =>
              obtain ⟨els1, st3⟩ := a2
              rw [he] at h
              dsimp only at h
              cases hr : tmfwScan f rest st3 with
              | error e => rw [hr] at h; exact Except.noConfusion h
              | ok a3 =>
                obtain ⟨ns2, st4⟩ := a3
                rw [hr] at h
                simp only [pureS_run, Except.ok.injEq, Prod.mk.injEq] at h
                obtain ⟨hr1, _⟩ := h
                rw [← hr1]
                have g1 := ihb thn st thn1 st2 ht
                have g2 := ihb els st2 els1 st3 he
                have g3 := ihs rest st3 ns2 st4 hr
                simp only [countLSB] at g1 g2
                simp only [countLSL, countLSN] at *
                omega
        | fnN fouts body =>
          simp only [tmfwScan, bindS_run] at h
          cases hbd : tmfwB f body st with
          | error e => rw [hbd] at h; exact Except.noConfusion h
          | ok a1 =>
            obtain ⟨body1, st2⟩ := a1
            rw [hbd] at h
            dsimp only at h
            cases hr : tmfwScan f rest st2 with
            | error e => rw [hr] at h; exact Except.noConfusion h
            | ok a3 =>
              obtain ⟨ns2, st4⟩ := a3
              rw [hr] at h
              simp only [pureS_run, Except.ok.injEq, Prod.mk.injEq] at h
              obtain ⟨hr1, _⟩ := h
              rw [← hr1]
              have g1 := ihb body st body1 st2 hbd
              have g3 := ihs rest st2 ns2 st4 hr
              simp only [countLSB] at g1
              simp only [countLSL, countLSN] at *
              omega
        | loopN mod ins louts body pre =>
          simp only [tmfwScan, bindS_run] at h
          cases hbd : tmfwB f body st with
          | error e => rw [hbd] at h; exact Except.noConfusion h
          | ok a1 =>
            obtain ⟨body1, st2⟩ := a1
            rw [hbd] at h
            dsimp only at h
            have g1 := ihb body st body1 st2 hbd
            simp only [countLSB] at g1
            cases mod with
            | false =>
              rw [if_pos rfl] at h
              simp only [bindS_run] at h
              cases hr : tmfwScan f rest st2 with
              | error e => rw [hr] at h; exact Except.noConfusion h
              | ok a3 =>
                obtain ⟨ns2, st4⟩ := a3
                rw [hr] at h
                simp only [pureS_run, Except.ok.injEq, Prod.mk.injEq] at h
                obtain ⟨hr1, _⟩ := h
                rw [← hr1]
                have g3 := ihs rest st2 ns2 st4 hr
                cases pre with
                | none =>
                  simp only [countLSL, countLSN]
                  omega
                | some ph =>
                  simp only [countLSL, countLSN]
                  omega
            | true =>
              rw [if_neg (by decide)] at h
              cases hins : ins with
              | nil =>
                rw [hins] at h
                simp only [throwS_run] at h
                exact Except.noConfusion h
              | cons mt insA =>
                cases hinsA : insA with
                | nil =>
                  rw [hins, hinsA] at h
                  simp only [throwS_run] at h
                  exact Except.noConfusion h
                | cons oc carried =>
                  cases hbi : body1.ins with
                  | nil =>
                    rw [hins, hinsA, hbi] at h
                    simp only [throwS_run] at h
                    exact Except.noConfusion h
                  | cons it0 bins =>
                    rw [hins, hinsA, hbi] at h
                    simp only [bindS_run, freshVal, pureS_run, substB] at h
                    cases hbo : substVs it0.vid ⟨st2 + 1 + 1 + 1 + 1 + 1, .int⟩
                        body1.outs with
                    | nil =>
                      rw [hbo] at h
                      simp only [throwS_run] at h
                      exact Except.noConfusion h
                    | cons c0 restO =>
                      rw [hbo] at h
                      simp only [bindS_run] at h
                      cases hr : tmfwScan f rest
                          (st2 + 1 + 1 + 1 + 1 + 1 + 1 + 1 + 1 + 1) with
                      | error e => rw [hr] at h; exact Except.noConfusion h
                      | ok a3 =>
                        obtain ⟨ns2, st4⟩ := a3
                        rw [hr] at h
                        simp only [pureS_run, Except.ok.injEq, Prod.mk.injEq] at h
                        obtain ⟨hr1, _⟩ := h
                        rw [← hr1]
                        have g3 := ihs rest _ ns2 st4 hr
                        have g4 := subst_countL it0.vid
                          ⟨st2 + 1 + 1 + 1 + 1 + 1, .int⟩ body1.nodes
                        cases pre with
                        | none =>
                          simp only [countLSL, countLSN, countLS_append]
                          omega
                        | some ph =>
                          simp only [countLSL, countLSN, countLS_append]
                          omega
        | store nm v =>
          simp only [tmfwScan, bindS_run] at h
          cases hr : tmfwScan f rest st with
          | error e => rw [hr] at h; exact Except.noConfusion h
          | ok a3 =>
            obtain ⟨ns2, st4⟩ := a3
            rw [hr] at h
            simp only [pureS_run, Except.ok.injEq, Prod.mk.injEq] at h
            obtain ⟨hr1, _⟩ := h
            rw [← hr1]
            have g3 := ihs rest st ns2 st4 hr
            simp only [countLSL, countLSN] at *
            omega
        | load nm out =>
          simp only [tmfwScan, bindS_run] at h
          cases hr : tmfwScan f rest st with
          | error e => rw [hr] at h; exact Except.noConfusion h
          | ok a3 =>
            obtain ⟨ns2, st4⟩ := a3
            rw [hr] at h
            simp only [pureS_run, Except.ok.injEq, Prod.mk.injEq] at h
            obtain ⟨hr1, _⟩ := h
            rw [← hr1]
            have g3 := ihs rest st ns2 st4 hr
            simp only [countLSL, countLSN] at *
            omega
        | uninitN out =>
          simp only [tmfwScan, bindS_run] at h
          cases hr : tmfwScan f rest st with
          | error e => rw [hr] at h; exact Except.noConfusion h
          | ok a3 =>
            obtain ⟨ns2, st4⟩ := a3
            rw [hr] at h
            simp only [pureS_run, Except.ok.injEq, Prod.mk.injEq] at h
            obtain ⟨hr1, _⟩ := h
            rw [← hr1]
            have g3 := ihs rest st ns2 st4 hr
            simp only [countLSL, countLSN] at *
            omega
        | constB b2 out =>
          simp only [tmfwScan, bindS_run] at h
          cases hr : tmfwScan f rest st with
          | error e => rw [hr] at h; exact Except.noConfusion h
          | ok a3 =>
            obtain ⟨ns2, st4⟩ := a3
            rw [hr] at h
            simp only [pureS_run, Except.ok.injEq, Prod.mk.injEq] at h
            obtain ⟨hr1, _⟩ := h
            rw [← hr1]
            have g3 := ihs rest st ns2 st4 hr
            simp only [countLSL, countLSN] at *
            omega
        | constI n2 out =>
          simp only [tmfwScan, bindS_run] at h
          cases hr : tmfwScan f rest st with
          | error e => rw [hr] at h; exact Except.noConfusion h
          | ok a3 =>
            obtain ⟨ns2, st4⟩ := a3
            rw [hr] at h
            simp only [pureS_run, Except.ok.injEq, Prod.mk.injEq] at h
            obtain ⟨hr1, _⟩ := h
            rw [← hr1]
            have g3 := ihs rest st ns2 st4 hr
            simp only [countLSL, countLSN] at *
            omega
        | varEscape =>
          simp only [tmfwScan, bindS_run] at h
          cases hr : tmfwScan f rest st with
          | error e => rw [hr] at h; exact Except.noConfusion h
          | ok a3 =>
            obtain ⟨ns2, st4⟩ := a3
            rw [hr] at h
            simp only [pureS_run, Except.ok.injEq, Prod.mk.injEq] at h
            obtain ⟨hr1, _⟩ := h
            rw [← hr1]
            have g3 := ihs rest st ns2 st4 hr
            simp only [countLSL, countLSN] at *
            omega
        | breakS =>
          simp only [tmfwScan, bindS_run] at h
          cases hr : tmfwScan f rest st with
          | error e => rw [hr] at h; exact Except.noConfusion h
          | ok a3 =>
            obtain ⟨ns2, st4⟩ := a3
            rw [hr] at h
            simp only [pureS_run, Except.ok.injEq, Prod.mk.injEq] at h
            obtain ⟨hr1, _⟩ := h
            rw [← hr1]
            have g3 := ihs rest st ns2 st4 hr
            simp only [countLSL, countLSN] at *
            omega
        | continueS =>
          simp only [tmfwScan, bindS_run] at h
          cases hr : tmfwScan f rest st with
          | error e => rw [hr] at h; exact Except.noConfusion h
          | ok a3 =>
            obtain ⟨ns2, st4⟩ := a3
            rw [hr] at h
            simp only [pureS_run, Except.ok.injEq, Prod.mk.injEq] at h
            obtain ⟨hr1, _⟩ := h
            rw [← hr1]
            have g3 := ihs rest st ns2 st4 hr
            simp only [countLSL, countLSN] at *
            omega
        | binop op a2 b2 out =>
          simp only [tmfwScan, bindS_run] at h
          cases hr : tmfwScan f rest st with
          | error e => rw [hr] at h; exact Except.noConfusion h
          | ok a3 =>
            obtain ⟨ns2, st4⟩ := a3
            rw [hr] at h
            simp only [pureS_run, Except.ok.injEq, Prod.mk.injEq] at h
            obtain ⟨hr1, _⟩ := h
            rw [← hr1]
            have g3 := ihs rest st ns2 st4 hr
            simp only [countLSL, countLSN] at *
            omega

theorem ssa_identity : ∀ f : Nat,
    (∀ env b st, countLSB b = 0 →
      convertBlockToSSA f env b st = .ok (b, st) ∨
        convertBlockToSSA f env b st = .error .fuel) ∧
    (∀ env ns outs st, countLSL ns = 0 →
      ssaScan f env ns outs st = .ok ((ns, outs, env), st) ∨
        ssaScan f env ns outs st = .error .fuel) := by
  intro f
  induction f with
  | zero =>
    constructor
    · intro env b st _
      exact Or.inr rfl
    · intro env ns outs st _
      exact Or.inr rfl
  | succ f ih =>
    obtain ⟨ihb, ihs⟩ := ih
    constructor
    · intro env b st h0
      simp only [convertBlockToSSA, bindS_run]
      rcases ihs ([] :: env) b.nodes b.outs st h0 with hok | hfu
      · rw [hok]
        exact Or.inl rfl
      · rw [hfu]
        exact Or.inr rfl
    · intro env ns outs st h0
      cases ns with
      | nil => exact Or.inl rfl
      | cons n rest =>
        have hn : countLSN n = 0 ∧ countLSL rest = 0 := by
          simp only [countLSL] at h0
          omega
        cases n with
        | store nm v => simp [countLSN] at hn
        | load nm out => simp [countLSN] at hn
        | ifN cond outs2 thn els =>
          have hts : countLSL thn.nodes = 0 ∧ countLSL els.nodes = 0 := by
            have := hn.1
            simp only [countLSN] at this
            omega
          simp only [ssaScan, bindS_run]
          rcases ihb env thn st hts.1 with ht | ht
          · rw [ht]
            dsimp only
            rcases ihb env els st hts.2 with he | he
            · rw [he]
              dsimp only
              rcases ihs env rest outs st hn.2 with hr | hr
              · rw [hr]
                exact Or.inl rfl
              · rw [hr]
                exact Or.inr rfl
            · rw [he]
              exact Or.inr rfl
          · rw [ht]
            exact Or.inr rfl
        | loopN mod ins louts body pre =>
          cases pre with
          | none =>
            have hts : countLSL body.nodes = 0 := by
              have := hn.1
              simp only [countLSN] at this
              omega
            simp only [ssaScan, bindS_run]
            rcases ihb env body st hts with hb | hb
            · rw [hb]
              dsimp only
              simp only [bindS_run, pureS_run]
              rcases ihs env rest outs st hn.2 with hr | hr
              · rw [hr]
                exact Or.inl rfl
              · rw [hr]
                exact Or.inr rfl
            · rw [hb]
              exact Or.inr rfl
          | some ph =>
            have hts : countLSL body.nodes = 0 ∧ countLSL ph.nodes = 0 := by
              have := hn.1
              simp only [countLSN] at this
              omega
            simp only [ssaScan, bindS_run]
            rcases ihb env body st hts.1 with hb | hb
            · rw [hb]
              dsimp only
              simp only [bindS_run, pureS_run]
              rcases ihb env ph st hts.2 with hp | hp
              · rw [hp]
                dsimp only
                rcases ihs env rest outs st hn.2 with hr | hr
                · rw [hr]
                  exact Or.inl rfl
                · rw [hr]
                  exact Or.inr rfl
              · rw [hp]
                exact Or.inr rfl
            · rw [hb]
              exact Or.inr rfl
        | fnN fouts body =>
          have hts : countLSL body.nodes = 0 := by
            have := hn.1
            simp only [countLSN] at this
            omega
          simp only [ssaScan, bindS_run]
          rcases ihb env body st hts with hb | hb
          · rw [hb]
            dsimp only
            rcases ihs env rest outs st hn.2 with hr | hr
            · rw [hr]
              exact Or.inl rfl
            · rw [hr]
              exact Or.inr rfl
          · rw [hb]
            exact Or.inr rfl
        | uninitN out =>
          simp only [ssaScan, bindS_run]
          rcases ihs env rest outs st hn.2 with hok | hfu
          · rw [hok]
            exact Or.inl rfl
          · rw [hfu]
            exact Or.inr rfl
        | constB b2 out =>
          simp only [ssaScan, bindS_run]
          rcases ihs env rest outs st hn.2 with hok | hfu
          · rw [hok]
            exact Or.inl rfl
          · rw [hfu]
            exact Or.inr rfl
        | constI n2 out =>
          simp only [ssaScan, bindS_run]
          rcases ihs env rest outs st hn.2 with hok | hfu
          · rw [hok]
            exact Or.inl rfl
          · rw [hfu]
            exact Or.inr rfl
        | varEscape =>
          simp only [ssaScan, bindS_run]
          rcases ihs env rest outs st hn.2 with hok | hfu
          · rw [hok]
            exact Or.inl rfl
          · rw [hfu]
            exact Or.inr rfl
        | breakS =>
          simp only [ssaScan, bindS_run]
          rcases ihs env rest outs st hn.2 with hok | hfu
          · rw [hok]
            exact Or.inl rfl
          · rw [hfu]
            exact Or.inr rfl
        | continueS =>
          simp only [ssaScan, bindS_run]
          rcases ihs env rest outs st hn.2 with hok | hfu
          · rw [hok]
            exact Or.inl rfl
          · rw [hfu]
            exact Or.inr rfl
        | binop op a2 b2 out =>
          simp only [ssaScan, bindS_run]
          rcases ihs env rest outs st hn.2 with hok | hfu
          · rw [hok]
            exact Or.inl rfl
          · rw [hfu]
            exact Or.inr rfl

set_option maxHeartbeats 4000000 in
/-- C9 counterexample: on the empty graph one run of the conversion entry point
produces four operations (the two cached constants unconditionally inserted by each of
the two break-transform constructors; their trailing flag stores are consumed by the
renamer), and a second run adds four more — the second run does not leave the graph
unchanged. -/
theorem C9_counterexample :
    nodeCount (ConvertToSSA 15 c9g) = some 4 ∧ nodeCount c9twice = some 8 := by
  constructor
  · decide
  · decide

/-- C9 (amended): after a successful run of the conversion entry point no load or store
operation remains anywhere in the graph, and on such a load/store-free graph the SSA
renamer stage itself is the identity (up to fuel); the full entry point is nevertheless
not idempotent, because the break transform inserts its cached constants
unconditionally. -/
theorem C9_ssa_amended :
    (∀ fuel g g1, ConvertToSSA fuel g = .ok g1 → countLSB g1 = 0) ∧
    (∀ f env b st, countLSB b = 0 →
      convertBlockToSSA f env b st = .ok (b, st) ∨
        convertBlockToSSA f env b st = .error .fuel) := by
  constructor
  · intro fuel g g1 h
    unfold ConvertToSSA at h
    simp only [bindS_run] at h
    cases h1 : ilcB fuel g (maxIdSB g + 1) with
    | error e => rw [h1] at h; exact Except.noConfusion h
    | ok a1 =>
      obtain ⟨ga, s1⟩ := a1
      rw [h1] at h
      dsimp only at h
      cases h2 : TransformBreaks fuel ga s1 with
      | error e => rw [h2] at h; exact Except.noConfusion h
      | ok a2 =>
        obtain ⟨gb, s2⟩ := a2
        rw [h2] at h
        dsimp only at h
        cases h3 : ctrlRun fuel gb s2 with
        | error e => rw [h3] at h; exact Except.noConfusion h
        | ok a3 =>
          obtain ⟨gc, s3⟩ := a3
          rw [h3] at h
          dsimp only at h
          cases h4 : convertBlockToSSA fuel [] gc s3 with
          | error e => rw [h4] at h; exact Except.noConfusion h
          | ok a4 =>
            obtain ⟨gd, s4⟩ := a4
            rw [h4] at h
            dsimp only at h
            cases h5 : tmfwB fuel gd s4 with
            | error e => rw [h5] at h; exact Except.noConfusion h
            | ok a5 =>
              obtain ⟨ge, s5⟩ := a5
              rw [h5] at h
              dsimp only at h
              injection h with h
              subst h
              have hd := (ssa_removes fuel).1 [] gc s3 gd s4 h4
              have he := (tmfw_count fuel).1 gd s4 ge s5 h5
              omega
  · intro f env b st h0
    exact (ssa_identity f).1 env b st h0

set_option maxHeartbeats 4000000 in
theorem C9_witness :
    (∃ g1, ConvertToSSA 15 c9wg = .ok g1 ∧ countLSB g1 = 0) ∧
    (convertBlockToSSA 3 [] c9wb 9 = .ok (c9wb, 9) ∨
      convertBlockToSSA 3 [] c9wb 9 = .error .fuel) := by
  constructor
  · have hok : isOkC (ConvertToSSA 15 c9wg) = true := by decide
    cases hr : ConvertToSSA 15 c9wg with
    | error e => rw [hr] at hok; simp [isOkC] at hok
    | ok g1 => exact ⟨g1, rfl, C9_ssa_amended.1 15 c9wg g1 hr⟩
  · exact C9_ssa_amended.2 3 [] c9wb 9 (by decide)

end SSA
